import Mathlib

/-!
# Trace decoding front-end (`src/trace/riscv_stream.cpp`, `riscv_stream.h`)

A shallow embedding of `RiscvStream`: the tokenizer `parseNext`, the decoder
`parseInstr`, the annotation parsers `parseBranch`, `parseMemoryCycles`,
`parseFetchCycles`, the table construction `initMaps` and the pull operation
`next`.

Conventions of the embedding.

* A `std::string` is a `List Char` (`Str`); a trace file is the list of its
  remaining lines, `getline` pops the head and fails on the empty list.
* A `size_t` position is an `Option Nat`: `none` is `string::npos`.  Lines are
  far shorter than `2^64`, so no other position wraps.
* `CALIPERS_ERROR` ends the run: every function that can reach it, throw a
  C++ exception or index a string out of range returns `Except Fault`.
* `CALIPERS_WARNING` appends to a log that `next` returns with its result.
* `std::unordered_map` is an association list with unique keys; `operator[]`
  inserts a value-initialised entry when the key is absent, so it returns the
  table as well as the value.
-/

namespace Calipers

/-- The `std::string` of the source: a sequence of characters. -/
abbrev Str := List Char

/-- Ways in which a pull can end the run. -/
inductive Fault where
  /-- "Invalid opcode": the mnemonic is not a key of `opcodeToTypeMap`. -/
  | invalidOpcode
  /-- "Invalid operand": the role character is neither `W` nor `R`. -/
  | invalidOperand
  /-- "Instruction should not access memory". -/
  | shouldNotAccessMemory
  /-- "Invalid memory access": the access kind is none of `L`, `S`, `A`. -/
  | invalidMemoryAccess
  /-- "Invalid branch prediction result". -/
  | invalidBranchPrediction
  /-- "Expecting fetch cycles for ... but getting ...". -/
  | expectingFetchCycles
  /-- "Expecting branch prediction result for ... but getting ...". -/
  | expectingBranchPrediction
  /-- "Invalid trace line". -/
  | invalidTraceLine
  /-- The exception `std::invalid_argument` of `stoul` / `stoull`. -/
  | invalidArgument
  /-- The exception `std::out_of_range` of `stoul` / `stoull` / `substr`. -/
  | outOfRange
  /-- The index of `operator[]` on a string is past its length. -/
  | indexPastEnd
  deriving DecidableEq, Repr

deriving instance DecidableEq for Except

/-! ## `std::string` primitives -/

/-- The NUL character, the value-initialised `char`. -/
def NUL : Char := Char.ofNat 0

/-- The call `s.find(c, pos)` for a one-character needle: the first index
`i ≥ pos` with `s[i] = c`, or `npos`. -/
def find (s : Str) (c : Char) (pos : Nat) : Option Nat :=
  let rest := s.drop pos
  let k := (rest.takeWhile (fun x => x != c)).length
  if k < rest.length then some (pos + k) else none

/-- The call `s.substr(pos, n)`; `n = none` is the default count `npos`.
Throws `std::out_of_range` when `pos > s.size()`. -/
def substr (s : Str) (pos : Nat) (n : Option Nat) : Except Fault Str :=
  if pos ≤ s.length then
    match n with
    | none => .ok (s.drop pos)
    | some k => .ok ((s.drop pos).take k)
  else .error .outOfRange

/-- The expression `s[i]`: the character at `i`; at `i = s.size()` the
terminating NUL; past that the access is out of range.  `i = none` is the
index `npos` that `s.length() - 1` wraps to when `s` is empty. -/
def index (s : Str) (i : Option Nat) : Except Fault Char :=
  match i with
  | none => .error .indexPastEnd
  | some k => if k ≤ s.length then .ok (s.getD k NUL) else .error .indexPastEnd

/-- The `size_t` value `s.length() - 1`: wraps to `npos` on the empty string. -/
def lengthMinusOne (s : Str) : Option Nat :=
  if s.length = 0 then none else some (s.length - 1)

/-- The `size_t` value `next_pos - pos - 1` of `parseNext`, where `pos` is an
index into the token.  It wraps around to a count that exceeds every string
length (`none`) when `next_pos` is `npos` or `next_pos ≤ pos`. -/
def countBetween (next_pos : Option Nat) (pos : Nat) : Option Nat :=
  match next_pos with
  | none => none
  | some q => if pos < q then some (q - pos - 1) else none

/-! ## `stoul` and `stoull` -/

/-- The C-locale `isspace`. -/
def isspace (c : Char) : Bool :=
  c.toNat = 32 || (9 ≤ c.toNat && c.toNat ≤ 13)

/-- The value of a character as a digit of `strtoull`: `0`-`9`, then letters
of either case from ten on. -/
def digitValue (c : Char) : Option Nat :=
  if 48 ≤ c.toNat ∧ c.toNat ≤ 57 then some (c.toNat - 48)
  else if 97 ≤ c.toNat ∧ c.toNat ≤ 122 then some (c.toNat - 97 + 10)
  else if 65 ≤ c.toNat ∧ c.toNat ≤ 90 then some (c.toNat - 65 + 10)
  else none

/-- The character is a digit of the given base. -/
def isDigitOf (base : Nat) (c : Char) : Bool :=
  match digitValue c with
  | some v => decide (v < base)
  | none => false

/-- The number written by a run of digits, most significant first. -/
def digitsValue (base : Nat) (ds : Str) : Nat :=
  ds.foldl (fun acc c => acc * base + (digitValue c).getD 0) 0

/-- The optional sign of `strtoull`: whether it is a minus, and the rest. -/
def stripSign (s : Str) : Bool × Str :=
  match s with
  | '-' :: r => (true, r)
  | '+' :: r => (false, r)
  | _ => (false, s)

/-- The optional `0x` / `0X` of base 16, taken only before a hex digit. -/
def stripHexMark (base : Nat) (s : Str) : Str :=
  match s with
  | '0' :: x :: h :: r =>
    if base = 16 ∧ (x = 'x' ∨ x = 'X') ∧ isDigitOf 16 h = true then h :: r else s
  | _ => s

/-- `std::stoull(s, NULL, base)` on a 64-bit `unsigned long long`: skips
white space, an optional sign and (base 16) an optional `0x`, reads the
longest run of digits; `invalid_argument` when there is none, `out_of_range`
when the magnitude does not fit; a minus sign negates modulo `2^64`. -/
def stoull (s : Str) (base : Nat) : Except Fault Nat :=
  let (neg, body) := stripSign (s.dropWhile isspace)
  let ds := (stripHexMark base body).takeWhile (isDigitOf base)
  if ds = [] then .error .invalidArgument
  else
    let v := digitsValue base ds
    if 2 ^ 64 ≤ v then .error .outOfRange
    else .ok (if neg then (2 ^ 64 - v) % 2 ^ 64 else v)

/-- `std::stoul(s)`: base 10, `unsigned long` of 64 bits (LP64). -/
def stoul (s : Str) : Except Fault Nat := stoull s 10

/-! ## Declarations of `calipers_defs.h` and `calipers_types.h` -/

/-- Modelled from the spec: the two constants of `calipers_defs.h` (the
maximum operand count and the ticks-per-cycle divisor), which the sources use
but do not define; they are parameters of every definition below. -/
structure Defs where
  /-- The macro `MAX_OPERANDS`. -/
  MAX_OPERANDS : Nat
  /-- The macro `TICKS_PER_CYCLE`. -/
  TICKS_PER_CYCLE : Nat
  deriving DecidableEq, Repr

/-- Modelled from the spec: the enumeration `ExecutionType` of
`calipers_types.h`, with the enumerators in the order the comment of
`initMaps` lists them. -/
inductive ExecutionType where
  | IntBase | IntMul | IntDiv | FpBase | FpMul | FpDiv | Load | Store
  | BranchCond | BranchUncond | Syscall | Atomic | Other
  deriving DecidableEq, Repr

/-- Modelled from the spec: the record `Instruction` of `calipers_types.h`,
with the fields the sources assign.  The arrays `regRead` and `regWrite` have
`MAX_OPERANDS` slots; they are total functions of the slot number, every
access the sources make is below `MAX_OPERANDS`. -/
structure Instruction where
  pc : Nat
  bytes : Nat
  executionType : ExecutionType
  regRead : Nat → Nat
  regWrite : Nat → Nat
  regReadCount : Nat
  regWriteCount : Nat
  memLoadCount : Nat
  memStoreCount : Nat
  memLoadBase : Nat
  memLoadLength : Nat
  memStoreBase : Nat
  memStoreLength : Nat
  fetchCycles : Nat
  mispredicted : Bool
  lsCycles : Nat

/-- The messages of `CALIPERS_WARNING`. -/
inductive Warning where
  /-- "Misprediction for a regular instruction" with the instruction line. -/
  | mispredictionRegular (line : Str)
  /-- "Expecting memory access cycles for" with the instruction line. -/
  | expectingMemoryCycles (line : Str)
  /-- "Ignoring ... after ..." with the stray line and `lastInstrLine`. -/
  | ignoring (line last : Str)
  deriving DecidableEq, Repr

/-! ## `std::unordered_map` -/

/-- An `unordered_map<string, α>`: an association list with unique keys. -/
abbrev Table (α : Type) := List (Str × α)

/-- The entry of a key, `m.find(k)`. -/
def Table.get? {α : Type} : Table α → Str → Option α
  | [], _ => none
  | (k', v) :: m, k => if k' = k then some v else Table.get? m k

/-- The call `m.count(k)`. -/
def Table.count {α : Type} (m : Table α) (k : Str) : Nat :=
  match m.get? k with
  | some _ => 1
  | none => 0

/-- The assignment `m[k] = v`: overwrites the entry of `k` or adds one. -/
def Table.assign {α : Type} : Table α → Str → α → Table α
  | [], k, v => [(k, v)]
  | (k', v') :: m, k, v =>
    if k' = k then (k', v) :: m else (k', v') :: Table.assign m k v

/-- The expression `m[k]` read as a value: the entry of `k`; when there is
none, a value-initialised entry `dflt` is inserted and returned. -/
def Table.subscript {α : Type} (m : Table α) (k : Str) (dflt : α) : α × Table α :=
  match m.get? k with
  | some v => (v, m)
  | none => (dflt, m.assign k dflt)

/-- The keys of a table. -/
def Table.keys {α : Type} (m : Table α) : List Str := m.map Prod.fst

/-! ## The stream object -/

/-- The members of `RiscvStream` and those of its base `InstructionStream`
that `riscv_stream.cpp` uses (`traceFile`, the three switches, `instr`). -/
structure RiscvStream where
  /-- The lines the trace file has left. -/
  traceFile : List Str
  traceBP : Bool
  traceICache : Bool
  traceDCache : Bool
  instr : Instruction
  regMap : Table Nat
  opcodeToTypeMap : Table ExecutionType
  syntaxMap : Table Str
  memAccessMap : Table Char
  memLengthMap : Table Nat
  bytesMap : Table Nat
  lastInstrLine : Str
  readFromFile : Bool

/-- The call `getline(traceFile, line)` on a fresh string: whether a line was
read, the line (empty on failure) and the lines left. -/
def getline (file : List Str) : Bool × Str × List Str :=
  match file with
  | [] => (false, [], [])
  | l :: rest => (true, l, rest)

/-- The test `line.find(tag) == 0`: the line begins with the tag. -/
def beginsWith (line : Str) (tag : String) : Bool :=
  tag.toList.isPrefixOf line

/-! ## `initMaps` -/

/-- The result of `strncpy(dst, src, n)` into a value-initialised `char[n]`:
the first `n` characters of `src`, padded with NUL to length `n`. -/
def strncpy (src : Str) (n : Nat) : Str :=
  src.take n ++ List.replicate (n - src.length) NUL

/-- The register names `initMaps` enters in `regMap`, in source order, each
with the value of its `IntReg` enumerator (`riscv_stream.h`). -/
def regMapEntries : List (String × Nat) :=
  [("x0", 0), ("x1", 1), ("x2", 2), ("x3", 3), ("x4", 4), ("x5", 5),
   ("x6", 6), ("x7", 7), ("x8", 8), ("x9", 9), ("x10", 10), ("x11", 11),
   ("x12", 12), ("x13", 13), ("x14", 14), ("x15", 15), ("x16", 16), ("x17", 17),
   ("x18", 18), ("x19", 19), ("x20", 20), ("x21", 21), ("x22", 22), ("x23", 23),
   ("x24", 24), ("x25", 25), ("x26", 26), ("x27", 27), ("x28", 28), ("x29", 29),
   ("x30", 30), ("sp", 31), ("pc", 32), ("w0", 33), ("w1", 34), ("w2", 35),
   ("w3", 36), ("w4", 37), ("w5", 38), ("w6", 39), ("w7", 40), ("w8", 41),
   ("w9", 42), ("w10", 43), ("w11", 44), ("w12", 45), ("w13", 46), ("w14", 47),
   ("w15", 48), ("w16", 49), ("w17", 50), ("w18", 51), ("w19", 52), ("w20", 53),
   ("w21", 54), ("w22", 55), ("w23", 56), ("w24", 57), ("w25", 58), ("w26", 59),
   ("w27", 60), ("w28", 61), ("w29", 62), ("w30", 63)]

/-- One block of five assignments of `initMaps`, each with its own key. -/
structure OpcodeRow where
  type : String × ExecutionType
  roles : String × String
  access : String × Char
  length : String × Nat
  bytes : String × Nat

/-- A block whose five assignments use one key. -/
def row (k : String) (t : ExecutionType) (s : String) (a : Char) (l b : Nat) : OpcodeRow :=
  { type := (k, t), roles := (k, s), access := (k, a), length := (k, l), bytes := (k, b) }

/-- A block whose `memLengthMap` assignment uses another key than the rest. -/
def rowKeyed (k : String) (t : ExecutionType) (s : String) (a : Char) (kl : String)
    (l b : Nat) : OpcodeRow :=
  { type := (k, t), roles := (k, s), access := (k, a), length := (kl, l), bytes := (k, b) }

/-- The opcode blocks of `initMaps`, in source order (`umaddl` occurs twice). -/
def opcodeRows : List OpcodeRow :=
  [row "addi" .IntBase "WR" NUL 0 4,
   row "rev" .IntBase "WRR" NUL 0 4,
   row "nop" .IntBase "" NUL 0 4,
   row "and" .IntBase "WR" NUL 0 4,
   row "tst" .IntBase "W" NUL 0 4,
   row "clz" .IntBase "WR" NUL 0 4,
   row "ands" .IntBase "WR" NUL 0 4,
   row "ubfm" .IntBase "WR" NUL 0 4,
   row "adrp" .IntBase "W" NUL 0 4,
   row "asrv" .IntBase "WRR" NUL 0 4,
   row "asr" .IntBase "WRR" NUL 0 4,
   row "lsrv" .IntBase "WRR" NUL 0 4,
   rowKeyed "lsr" .IntBase "WR" NUL "lsv" 0 4,
   row "lslv" .IntBase "WRR" NUL 0 4,
   row "lsl" .IntBase "WR" NUL 0 4,
   row "cmp" .IntBase "WR" NUL 0 4,
   row "ccmp.eq" .IntBase "WRR" NUL 0 4,
   row "ccmp.ne" .IntBase "WR" NUL 0 4,
   row "ccmp.cs" .IntBase "WR" NUL 0 4,
   row "orr" .IntBase "WR" NUL 0 4,
   row "bics" .IntBase "WRR" NUL 0 4,
   row "eor" .IntBase "WRR" NUL 0 4,
   row "mrs" .IntBase "WR" NUL 0 4,
   row "mov" .IntBase "W" NUL 0 4,
   row "movn" .IntBase "W" NUL 0 4,
   row "csinc" .IntBase "WRR" NUL 0 4,
   row "cset" .IntBase "W" NUL 0 4,
   row "csel" .IntBase "WRR" NUL 0 4,
   row "add" .IntBase "WRR" NUL 0 4,
   row "subs" .IntBase "WR" NUL 0 4,
   row "neg" .IntBase "WRR" NUL 0 4,
   row "sub" .IntBase "WRR" NUL 0 4,
   row "mul" .IntMul "WRR" NUL 0 4,
   row "umaddl" .IntMul "WRR" NUL 0 4,
   row "umull" .IntMul "WRR" NUL 0 4,
   row "umulh" .IntMul "WRR" NUL 0 4,
   row "madd" .IntMul "WRRR" NUL 0 4,
   row "umaddl" .IntMul "WRRR" NUL 0 4,
   row "msub" .IntMul "WRRR" NUL 0 4,
   row "udiv" .IntDiv "WRR" NUL 0 4,
   row "fadd_s" .FpBase "WRR" NUL 0 4,
   row "fmul_s" .FpMul "WRR" NUL 0 4,
   row "fdiv_s" .FpDiv "WRR" NUL 0 4,
   row "ldr" .Load "WR" 'L' 8 4,
   row "ldur" .Load "WR" 'L' 8 4,
   row "ldrb" .Load "WR" 'L' 4 4,
   row "ldrh" .Load "WR" 'L' 4 4,
   row "ldp" .Load "WWR" 'L' 16 4,
   row "str" .Store "RR" 'S' 8 4,
   row "stp" .Store "RRR" 'S' 16 4,
   row "b.eq" .BranchCond "" NUL 0 4,
   row "b.ne" .BranchCond "" NUL 0 4,
   row "b.ls" .BranchCond "" NUL 0 4,
   row "b.hi" .BranchCond "" NUL 0 4,
   row "b.cc" .BranchCond "" NUL 0 4,
   row "b.lo" .BranchCond "" NUL 0 4,
   row "cbz" .BranchCond "R" NUL 0 4,
   row "cbnz" .BranchCond "R" NUL 0 4,
   row "tbz" .BranchCond "R" NUL 0 4,
   row "tbnz" .BranchCond "R" NUL 0 4,
   row "br" .BranchUncond "R" NUL 0 4,
   row "b" .BranchUncond "" NUL 0 4,
   row "bl" .BranchUncond "" NUL 0 4,
   row "ret" .BranchUncond "" NUL 0 4,
   row "ecall" .Syscall "" NUL 0 4,
   row "csrrwi" .Other "WR" NUL 0 4]

/-- The five opcode tables during `initMaps`. -/
structure OpcodeTables where
  opcodeToTypeMap : Table ExecutionType
  syntaxMap : Table Str
  memAccessMap : Table Char
  memLengthMap : Table Nat
  bytesMap : Table Nat

/-- The register table `initMaps` builds. -/
def initRegMap : Table Nat :=
  regMapEntries.foldl (fun m e => m.assign e.1.toList e.2) []

/-- The role strings of `initMaps` as written, before `strncpy` stores them
in `MAX_OPERANDS` characters. -/
def roleTable : Table Str :=
  opcodeRows.foldl (fun m r => m.assign r.roles.1.toList r.roles.2.toList) []

/-- The assignments of `initMaps` to `opcodeToTypeMap`, in source order. -/
def typeTable : Table ExecutionType :=
  opcodeRows.foldl (fun m r => m.assign r.type.1.toList r.type.2) []

/-- The assignments of `initMaps` to `memAccessMap`, in source order. -/
def accessTable : Table Char :=
  opcodeRows.foldl (fun m r => m.assign r.access.1.toList r.access.2) []

/-- The assignments of `initMaps` to `memLengthMap`, in source order. -/
def lengthTable : Table Nat :=
  opcodeRows.foldl (fun m r => m.assign r.length.1.toList r.length.2) []

/-- The assignments of `initMaps` to `bytesMap`, in source order. -/
def bytesTable : Table Nat :=
  opcodeRows.foldl (fun m r => m.assign r.bytes.1.toList r.bytes.2) []

/-- The opcode tables `initMaps` builds: each table receives the assignments
the blocks make to it, in source order; `syntaxMap` receives the role strings
through `strncpy`. -/
def initOpcodeTables (d : Defs) : OpcodeTables :=
  { opcodeToTypeMap := typeTable
    syntaxMap := opcodeRows.foldl
      (fun m r => m.assign r.roles.1.toList (strncpy r.roles.2.toList d.MAX_OPERANDS)) []
    memAccessMap := accessTable
    memLengthMap := lengthTable
    bytesMap := bytesTable }

/-- The constructor of `RiscvStream`: the base constructor stores the three
switches and opens the trace, `initMaps` fills the tables; `instr` is whatever
the base leaves in it, `lastInstrLine` is empty and `readFromFile` is true. -/
def RiscvStream.mk0 (d : Defs) (trace : List Str) (trace_bp trace_icache trace_dcache : Bool)
    (instr : Instruction) : RiscvStream :=
  let t := initOpcodeTables d
  { traceFile := trace, traceBP := trace_bp, traceICache := trace_icache,
    traceDCache := trace_dcache, instr := instr, regMap := initRegMap,
    opcodeToTypeMap := t.opcodeToTypeMap, syntaxMap := t.syntaxMap,
    memAccessMap := t.memAccessMap, memLengthMap := t.memLengthMap, bytesMap := t.bytesMap,
    lastInstrLine := [], readFromFile := true }

/-! ## The tokenizer -/

/-- The raw token of `parseNext` (lines 147-160): the characters from
`current_pos` up to the next space or the end of the line, and the new value
of `current_pos`. -/
def splitToken (instr_line : Str) (cur : Nat) : Except Fault (Str × Option Nat) :=
  match find instr_line ' ' cur with
  | none => do
    let str ← substr instr_line cur none
    pure (str, none)
  | some pos => do
    let str ← substr instr_line cur (some (pos - cur))
    pure (str, some (pos + 1))

/-- The normalisation of the raw token `str` in `parseNext` (lines 162-175):
the text after the first `(` up to the first `)` of the token, else the token
without a trailing comma, else the token. -/
def normalize (str : Str) : Except Fault Str :=
  match find str '(' 0 with
  | some pos =>
    let next_pos := find str ')' 0
    substr str (pos + 1) (countBetween next_pos pos)
  | none => do
    let last ← index str (lengthMinusOne str)
    if last = ',' then substr str 0 (lengthMinusOne str)
    else pure str

/-- `RiscvStream::parseNext(instr_line, current_pos)`: the normalised token
and the new value of `current_pos`. -/
def parseNext (instr_line : Str) (current_pos : Option Nat) :
    Except Fault (Str × Option Nat) :=
  match current_pos with
  | none => .ok ([], none)
  | some cur => do
    let (str, current_pos) ← splitToken instr_line cur
    let token ← normalize str
    pure (token, current_pos)

/-! ## The decoder -/

/-- What the operand scan of `parseInstr` leaves: the array `operands` up to
`operand_count`, the flag `mem_accessed` and `current_pos`. -/
structure Scan where
  operands : List Str
  mem_accessed : Bool
  current_pos : Option Nat
  deriving DecidableEq, Repr

/-- The loop `while (operand_count < MAX_OPERANDS)` of `parseInstr`.  Every
turn that does not leave the loop moves `current_pos` forward, so the loop
makes at most `instr_line.length + 2` turns; `fuel` counts them down and is
never used up from that start (theorems `scanOperands_fuel` and
`scanInstr_scan_ends`); the result `none` stands for turns used up. -/
def scanOperands (d : Defs) (instr_line : Str) :
    Nat → Option Nat → List Str → Except Fault (Option Scan)
  | 0, _, _ => .ok none
  | fuel + 1, current_pos, operands =>
    if operands.length < d.MAX_OPERANDS then do
      let (operand, current_pos) ← parseNext instr_line current_pos
      if operand = [] then
        pure (some ⟨operands, false, current_pos⟩)
      else do
        let c ← index operand (some 0)
        let operands :=
          if 'a'.toNat ≤ c.toNat ∧ c.toNat ≤ 'z'.toNat then operands ++ [operand] else operands
        if c = '@' then
          pure (some ⟨operands, true, current_pos⟩)
        else
          scanOperands d instr_line fuel current_pos operands
    else
      pure (some ⟨operands, false, current_pos⟩)

/-- The state of the loop `for (i = 0; i < operand_count; ++i)`. -/
structure Roles where
  regMap : Table Nat
  regRead : Nat → Nat
  regWrite : Nat → Nat
  reg_read_count : Nat
  reg_write_count : Nat

/-- The loop `for (i = 0; i < operand_count; ++i)` of `parseInstr` from turn
`i` on, over the operands left; `syn` is the array `syntaxMap[opcode]`. -/
def assignRoles (syn : Str) : List Str → Nat → Roles → Except Fault Roles
  | [], _, r => .ok r
  | name :: rest, i, r =>
    let (operand, regMap) := r.regMap.subscript name 0
    if syn.getD i NUL = 'W' then
      assignRoles syn rest (i + 1)
        { r with regMap := regMap
                 regWrite := Function.update r.regWrite r.reg_write_count operand
                 reg_write_count := r.reg_write_count + 1 }
    else if syn.getD i NUL = 'R' then
      assignRoles syn rest (i + 1)
        { r with regMap := regMap
                 regRead := Function.update r.regRead r.reg_read_count operand
                 reg_read_count := r.reg_read_count + 1 }
    else .error .invalidOperand

/-- The literal `"0xffffffffffffffff"` that replaces the address of an
atomic instruction. -/
def atomicAddress : Str := "0xffffffffffffffff".toList

/-- The locals of `parseInstr` once the line is tokenised (line 223). -/
structure Fields where
  pc : Str
  opcode : Str
  operands : List Str
  mem_accessed : Bool
  mem_address : Str
  deriving DecidableEq, Repr

/-- The first part of `parseInstr` (lines 190-223): the program counter, the
opcode, the operand scan and, after a memory marker, the address. -/
def scanInstr (d : Defs) (instr_line : Str) : Except Fault Fields := do
  let (pc, current_pos) ← parseNext instr_line (some 3)
  let (opcode, current_pos) ← parseNext instr_line current_pos
  let scan ← scanOperands d instr_line (instr_line.length + 2) current_pos []
  let scan := scan.getD ⟨[], false, none⟩
  if scan.mem_accessed then do
    let (mem_address, _) ← parseNext instr_line scan.current_pos
    pure ⟨pc, opcode, scan.operands, true, mem_address⟩
  else
    pure ⟨pc, opcode, scan.operands, false, []⟩

/-- The second part of `parseInstr` (lines 225-307): the opcode check and the
assignments to `instr`. -/
def fillInstr (d : Defs) (st : RiscvStream) (f : Fields) : Except Fault RiscvStream := do
  let opcode := f.opcode
  if st.opcodeToTypeMap.count opcode = 0 then throw Fault.invalidOpcode
  let pcValue ← stoull f.pc 16
  let (bytes, bytesMap) := st.bytesMap.subscript opcode 0
  let (executionType, opcodeToTypeMap) := st.opcodeToTypeMap.subscript opcode .IntBase
  let mem_address := if executionType = .Atomic then atomicAddress else f.mem_address
  let (syn, syntaxMap) := st.syntaxMap.subscript opcode (List.replicate d.MAX_OPERANDS NUL)
  let r ← assignRoles syn f.operands 0
    ⟨st.regMap, st.instr.regRead, st.instr.regWrite, 0, 0⟩
  let instr : Instruction :=
    { st.instr with pc := pcValue, bytes := bytes, executionType := executionType
                    regRead := r.regRead, regWrite := r.regWrite
                    regReadCount := r.reg_read_count, regWriteCount := r.reg_write_count }
  let st : RiscvStream :=
    { st with regMap := r.regMap, opcodeToTypeMap := opcodeToTypeMap, syntaxMap := syntaxMap
              bytesMap := bytesMap }
  if f.mem_accessed then do
    let (mem_access, memAccessMap) := st.memAccessMap.subscript opcode NUL
    let st := { st with memAccessMap := memAccessMap }
    if mem_access = NUL then throw Fault.shouldNotAccessMemory
    if mem_access = 'L' then do
      let base ← stoull mem_address 16
      let (len, memLengthMap) := st.memLengthMap.subscript opcode 0
      pure { st with memLengthMap := memLengthMap
                     instr := { instr with memStoreCount := 0, memLoadCount := 1
                                           memLoadBase := base, memLoadLength := len } }
    else if mem_access = 'S' then do
      let base ← stoull mem_address 16
      let (len, memLengthMap) := st.memLengthMap.subscript opcode 0
      pure { st with memLengthMap := memLengthMap
                     instr := { instr with memLoadCount := 0, memStoreCount := 1
                                           memStoreBase := base, memStoreLength := len } }
    else if mem_access = 'A' then do
      let base ← stoull mem_address 16
      let (len, memLengthMap) := st.memLengthMap.subscript opcode 0
      pure { st with memLengthMap := memLengthMap
                     instr := { instr with memLoadCount := 1, memStoreCount := 1
                                           memLoadBase := base, memLoadLength := len
                                           memStoreBase := base, memStoreLength := len } }
    else throw Fault.invalidMemoryAccess
  else
    pure { st with instr := { instr with memLoadCount := 0, memStoreCount := 0 } }

/-- `RiscvStream::parseInstr(instr_line)`: the stream after the call, with
`instr` and (through `operator[]`) the tables updated. -/
def parseInstr (d : Defs) (st : RiscvStream) (instr_line : Str) : Except Fault RiscvStream := do
  let f ← scanInstr d instr_line
  fillInstr d st f

/-! ## The annotation parsers -/

/-- `RiscvStream::parseBranch(branch_line)`. -/
def parseBranch (branch_line : Str) : Except Fault Bool := do
  let (prediction, _) ← parseNext branch_line (some 3)
  let c ← index prediction (some 0)
  if c = '0' then pure true
  else if c = '1' then pure false
  else throw Fault.invalidBranchPrediction

/-- The quotient `stoul(cycles) / TICKS_PER_CYCLE` converted to `uint32_t`.
A zero divisor is undefined in the source; it is reported as `outOfRange`. -/
def ticksToCycles (d : Defs) (ticks : Nat) : Except Fault Nat :=
  if d.TICKS_PER_CYCLE = 0 then .error .outOfRange
  else .ok ((ticks / d.TICKS_PER_CYCLE) % 2 ^ 32)

/-- `RiscvStream::parseMemoryCycles(mem_line)`, of result type `uint32_t`. -/
def parseMemoryCycles (d : Defs) (mem_line : Str) : Except Fault Nat := do
  let (cycles, _) ← parseNext mem_line (some 3)
  let ticks ← stoul cycles
  ticksToCycles d ticks

/-- `RiscvStream::parseFetchCycles(fetch_line)`, of result type `uint32_t`. -/
def parseFetchCycles (d : Defs) (fetch_line : Str) : Except Fault Nat := do
  let (cycles, _) ← parseNext fetch_line (some 3)
  let ticks ← stoul cycles
  ticksToCycles d ticks

/-! ## The pull operation -/

/-- What a call of `next` gives back: the returned pointer (`none` is `NULL`,
otherwise the content of `instr`), the stream after the call and the
warnings the call has logged. -/
structure Pulled where
  result : Option Instruction
  stream : RiscvStream
  log : List Warning

/-- The branch `if (line.find("@I ") == 0)` of `next` up to its `break`:
decoding, then the fetch, branch and memory annotations. -/
def onInstrLine (d : Defs) (st : RiscvStream) (line : Str) (log : List Warning) :
    Except Fault Pulled := do
  let st ← parseInstr d st line
  let st := { st with lastInstrLine := line }
  let st ← (if st.traceICache then do
      let (_, fetch_line, file) := getline st.traceFile
      let st := { st with traceFile := file }
      if beginsWith fetch_line "@F " = false then throw Fault.expectingFetchCycles
      let cycles ← parseFetchCycles d fetch_line
      pure { st with instr := { st.instr with fetchCycles := cycles } }
    else pure st : Except Fault RiscvStream)
  let (st, log) ← (if st.traceBP then do
      let (_, branch_line, file) := getline st.traceFile
      let st := { st with traceFile := file }
      if beginsWith branch_line "@B " = false then throw Fault.expectingBranchPrediction
      let mispredicted ← parseBranch branch_line
      let st := { st with instr := { st.instr with mispredicted := mispredicted } }
      if mispredicted ∧ st.instr.executionType ≠ .BranchCond ∧
          st.instr.executionType ≠ .BranchUncond ∧ st.instr.executionType ≠ .Syscall then
        pure (st, log ++ [Warning.mispredictionRegular line])
      else pure (st, log)
    else pure (st, log) : Except Fault (RiscvStream × List Warning))
  if st.traceDCache then
    if st.instr.executionType = .Load ∨ st.instr.executionType = .Store ∨
        st.instr.executionType = .Atomic then do
      let (_, mem_line, file) := getline st.traceFile
      let st := { st with traceFile := file }
      if beginsWith mem_line "@M " = false then
        let st := { st with instr := { st.instr with lsCycles := 1 }
                            lastInstrLine := mem_line, readFromFile := false }
        pure ⟨some st.instr, st, log ++ [Warning.expectingMemoryCycles line]⟩
      else do
        let cycles ← parseMemoryCycles d mem_line
        let st := { st with instr := { st.instr with lsCycles := cycles } }
        pure ⟨some st.instr, st, log⟩
    else pure ⟨some st.instr, st, log⟩
  else pure ⟨some st.instr, st, log⟩

/-- The test of the second branch of the loop of `next`: the line begins
with `@F`, `@B` or `@M`. -/
def isStray (line : Str) : Bool :=
  beginsWith line "@F" || beginsWith line "@B" || beginsWith line "@M"

/-- The loop of `next` while `readFromFile` is true, over the lines the file
has left: a stray annotation line is logged and the next line is read. -/
def nextFromFile (d : Defs) : List Str → RiscvStream → List Warning → Except Fault Pulled
  | [], st, log => .ok ⟨none, { st with traceFile := [] }, log⟩
  | line :: file, st, log =>
    if beginsWith line "@I " then
      onInstrLine d { st with traceFile := file } line log
    else if isStray line then
      nextFromFile d file st (log ++ [Warning.ignoring line st.lastInstrLine])
    else .error .invalidTraceLine

/-- `RiscvStream::next()`.  The first turn of the loop takes `lastInstrLine`
when `readFromFile` is false and sets the flag; every later turn reads the
file, because only the branch that ends the loop clears the flag again. -/
def next (d : Defs) (st : RiscvStream) : Except Fault Pulled :=
  if st.readFromFile then
    nextFromFile d st.traceFile st []
  else
    let line := st.lastInstrLine
    let st := { st with readFromFile := true }
    if line = [] then .ok ⟨none, st, []⟩
    else if beginsWith line "@I " then
      onInstrLine d st line []
    else if isStray line then
      nextFromFile d st.traceFile st [Warning.ignoring line st.lastInstrLine]
    else .error .invalidTraceLine

/-! ## Notions used to state the properties -/

/-- The raw token at a cursor: the characters from `cur` up to the next space
or the end of the line. -/
def rawToken (line : Str) (cur : Nat) : Str :=
  (line.drop cur).takeWhile (fun x => x != ' ')

/-- The cursor after the raw token at `cur`: past the space that ends it, or
`npos` when the line ends first. -/
def cursorAfter (line : Str) (cur : Nat) : Option Nat :=
  (find line ' ' cur).map (fun p => p + 1)

/-- The register-read set of an instruction: the first `regReadCount` slots
of `regRead`. -/
def Instruction.readSet (i : Instruction) : List Nat :=
  (List.range i.regReadCount).map i.regRead

/-- The register-write set: the first `regWriteCount` slots of `regWrite`. -/
def Instruction.writeSet (i : Instruction) : List Nat :=
  (List.range i.regWriteCount).map i.regWrite

/-- The memory-load descriptor (base, length), present when `memLoadCount`
is not zero. -/
def Instruction.memLoad (i : Instruction) : Option (Nat × Nat) :=
  if i.memLoadCount = 0 then none else some (i.memLoadBase, i.memLoadLength)

/-- The memory-store descriptor (base, length), present when `memStoreCount`
is not zero. -/
def Instruction.memStore (i : Instruction) : Option (Nat × Nat) :=
  if i.memStoreCount = 0 then none else some (i.memStoreBase, i.memStoreLength)

/-- What decoding an instruction line determines: the program counter, the
byte length, the execution class, the register sets and the memory
descriptors. -/
structure Decoded where
  pc : Nat
  bytes : Nat
  executionType : ExecutionType
  reads : List Nat
  writes : List Nat
  memLoad : Option (Nat × Nat)
  memStore : Option (Nat × Nat)
  deriving DecidableEq, Repr

/-- The decoded content of an instruction. -/
def Instruction.decoded (i : Instruction) : Decoded :=
  ⟨i.pc, i.bytes, i.executionType, i.readSet, i.writeSet, i.memLoad, i.memStore⟩

/-- An instruction with every field zero. -/
def blankInstr : Instruction :=
  ⟨0, 0, .IntBase, fun _ => 0, fun _ => 0, 0, 0, 0, 0, 0, 0, 0, 0, 0, false, 0⟩

/-- The decode of a line: what `parseInstr` leaves in `instr` on a freshly
constructed stream. -/
def decodeLine (d : Defs) (line : Str) : Except Fault Decoded :=
  (parseInstr d (RiscvStream.mk0 d [] false false false blankInstr) line).map
    (fun st => st.instr.decoded)

/-- The source is exhausted and the lookahead buffer is empty: the file has
no line left, and `readFromFile` is set or the held line is the empty string
that a failed `getline` leaves. -/
def exhausted (st : RiscvStream) : Prop :=
  st.traceFile = [] ∧ (st.readFromFile = true ∨ st.lastInstrLine = [])

/-- The results of `n` successive calls of `next`, and the stream after
them. -/
def pulls (d : Defs) : Nat → RiscvStream → Except Fault (List (Option Instruction) × RiscvStream)
  | 0, st => .ok ([], st)
  | n + 1, st => do
    let p ← next d st
    let (rs, st') ← pulls d n p.stream
    pure (p.result :: rs, st')

/-- The tables of the stream are those `initMaps` builds. -/
def tablesInitial (d : Defs) (st : RiscvStream) : Prop :=
  st.regMap = initRegMap ∧ st.opcodeToTypeMap = (initOpcodeTables d).opcodeToTypeMap ∧
    st.syntaxMap = (initOpcodeTables d).syntaxMap ∧
    st.memAccessMap = (initOpcodeTables d).memAccessMap ∧
    st.memLengthMap = (initOpcodeTables d).memLengthMap ∧
    st.bytesMap = (initOpcodeTables d).bytesMap

/-! ### Well-formed trace lines -/

/-- Tokens joined by single spaces. -/
def joinTokens : List Str → Str
  | [] => []
  | [t] => t
  | t :: u :: ts => t ++ ' ' :: joinTokens (u :: ts)

/-- The digits of a hexadecimal token: the token without a leading `0x`. -/
def hexDigitsOf (t : Str) : Str :=
  match t with
  | '0' :: 'x' :: r => r
  | _ => t

/-- A hexadecimal token: a non-empty run of hex digits, with or without a
leading `0x`, whose value fits 64 bits. -/
def isHexToken (t : Str) : Bool :=
  hexDigitsOf t != [] && (hexDigitsOf t).all (isDigitOf 16) &&
    decide (digitsValue 16 (hexDigitsOf t) < 2 ^ 64)

/-- The value of a hexadecimal token. -/
def hexTokenValue (t : Str) : Nat := digitsValue 16 (hexDigitsOf t)

/-- A decimal field: a non-empty run of decimal digits below `2^64`. -/
def isDecimalField (t : Str) : Bool :=
  t != [] && t.all (isDigitOf 10) && decide (digitsValue 10 t < 2 ^ 64)

/-- A register operand as it is written in an instruction line: bare
(`x5`), followed by a comma (`x5,`), or in parentheses after an offset
(`0x10(x5)`). -/
inductive Operand where
  | bare (r : Str)
  | comma (r : Str)
  | paren (off r : Str)
  deriving DecidableEq, Repr

/-- The register name of an operand. -/
def Operand.reg : Operand → Str
  | .bare r => r
  | .comma r => r
  | .paren _ r => r

/-- The raw token of an operand. -/
def Operand.raw : Operand → Str
  | .bare r => r
  | .comma r => r ++ [',']
  | .paren off r => off ++ '(' :: (r ++ [')'])

/-- The operand names a register of `regMap`, and its offset (if any) holds
no space and no parenthesis. -/
def Operand.wf : Operand → Bool
  | .bare r => (initRegMap.get? r).isSome
  | .comma r => (initRegMap.get? r).isSome
  | .paren off r => (initRegMap.get? r).isSome &&
      decide (' ' ∉ off) && decide ('(' ∉ off) && decide (')' ∉ off)

/-- A memory-marker token: it begins with `@`, holds no space and no `(`
and does not end in a comma. -/
def isMarker (m : Str) : Bool :=
  decide (m.head? = some '@') && decide (' ' ∉ m) && decide ('(' ∉ m) &&
    decide (m.getLast? ≠ some ',')

/-- The anatomy of an instruction line: the program-counter token, the
opcode, the register operands and, optionally, a memory marker followed by
an address token. -/
structure InstrLine where
  pc : Str
  opcode : Str
  operands : List Operand
  mem : Option (Str × Str)
  deriving DecidableEq, Repr

/-- The tokens of the memory part of a line. -/
def memTokens : Option (Str × Str) → List Str
  | none => []
  | some (m, a) => [m, a]

/-- The tokens of an instruction line after the tag. -/
def InstrLine.tokens (l : InstrLine) : List Str :=
  l.pc :: l.opcode :: (l.operands.map Operand.raw ++ memTokens l.mem)

/-- The text of an instruction line. -/
def InstrLine.text (l : InstrLine) : Str :=
  "@I ".toList ++ joinTokens l.tokens

/-- The role array stored for an opcode by `initMaps`. -/
def storedRoles (d : Defs) (opcode : Str) : Str :=
  strncpy ((roleTable.get? opcode).getD []) d.MAX_OPERANDS

/-- The first `n` positions of a role array hold `W` or `R`. -/
def rolesCover (syn : Str) (n : Nat) : Bool :=
  (List.range n).all (fun i => syn.getD i NUL == 'W' || syn.getD i NUL == 'R')

/-- The memory-access kind `initMaps` gives an opcode. -/
def accessKind (opcode : Str) : Char :=
  (accessTable.get? opcode).getD NUL

/-- A well-formed instruction line: a hexadecimal program counter, a
registered opcode, recognised registers, operands within the stored role
array, and a memory marker only on an opcode that accesses memory, followed
by a hexadecimal address. -/
def InstrLine.wf (d : Defs) (l : InstrLine) : Bool :=
  isHexToken l.pc &&
  (typeTable.get? l.opcode).isSome &&
  l.operands.all Operand.wf &&
  rolesCover (storedRoles d l.opcode) l.operands.length &&
  (match l.mem with
   | none => true
   | some (m, a) => isMarker m && isHexToken a &&
      (accessKind l.opcode == 'L' || accessKind l.opcode == 'S'))

/-- A line of a trace: an instruction line or one of the three annotation
lines with its field. -/
inductive TraceLine where
  | instr (l : InstrLine)
  | fetch (ticks : Str)
  | branch (flag : Str)
  | memory (ticks : Str)
  deriving DecidableEq, Repr

/-- The text of a trace line. -/
def TraceLine.text : TraceLine → Str
  | .instr l => l.text
  | .fetch t => "@F ".toList ++ t
  | .branch f => "@B ".toList ++ f
  | .memory t => "@M ".toList ++ t

/-- A well-formed trace line: a well-formed instruction line, a fetch or
memory line with a decimal field, a branch line with the field `0` or `1`. -/
def TraceLine.wf (d : Defs) : TraceLine → Bool
  | .instr l => l.wf d
  | .fetch t => isDecimalField t
  | .branch f => f == ['0'] || f == ['1']
  | .memory t => isDecimalField t

/-- The instruction lines of a trace, in order. -/
def instrLines : List TraceLine → List InstrLine
  | [] => []
  | .instr l :: ts => l :: instrLines ts
  | _ :: ts => instrLines ts

/-- The register values of the operands at the positions of role `c`. -/
def regsWithRole (c : Char) (syn : Str) : Nat → List Operand → List Nat
  | _, [] => []
  | i, o :: os =>
    if syn.getD i NUL = c then
      ((initRegMap.get? o.reg).getD 0) :: regsWithRole c syn (i + 1) os
    else regsWithRole c syn (i + 1) os

/-- The operand scan reaches the memory marker of the line: there is one and
fewer than `MAX_OPERANDS` register operands precede it. -/
def InstrLine.markerSeen (d : Defs) (l : InstrLine) : Bool :=
  l.mem.isSome && decide (l.operands.length < d.MAX_OPERANDS)

/-- The memory descriptor (base, length) a well-formed line yields for the
access kind `c`. -/
def InstrLine.descriptor (d : Defs) (l : InstrLine) (c : Char) : Option (Nat × Nat) :=
  match l.mem with
  | none => none
  | some (_, a) =>
    if l.markerSeen d ∧ accessKind l.opcode = c then
      some (hexTokenValue a, (lengthTable.get? l.opcode).getD 0)
    else none

/-- The decoded content of a well-formed instruction line, read off its
anatomy and the tables. -/
def InstrLine.decoded (d : Defs) (l : InstrLine) : Decoded :=
  { pc := hexTokenValue l.pc
    bytes := (bytesTable.get? l.opcode).getD 0
    executionType := (typeTable.get? l.opcode).getD .IntBase
    reads := regsWithRole 'R' (storedRoles d l.opcode) 0 l.operands
    writes := regsWithRole 'W' (storedRoles d l.opcode) 0 l.operands
    memLoad := l.descriptor d 'L'
    memStore := l.descriptor d 'S' }

/-- The cursor that stands before the tokens `ts` when the text `pre`
precedes them: `npos` when no token is left. -/
def cursorOf (pre : Str) (ts : List Str) : Option Nat :=
  match ts with
  | [] => none
  | _ :: _ => some pre.length

/-- The text that precedes the tokens `ts` once the token `t` before them is
consumed. -/
def advance (pre t : Str) (ts : List Str) : Str :=
  match ts with
  | [] => pre ++ t
  | _ :: _ => pre ++ t ++ [' ']

/-- The raw token `raw` stands for the register name `r` in the operand scan:
it holds no space, the tokenizer turns it into `r`, and `r` begins with a
lowercase letter. -/
def RegisterToken (raw r : Str) : Prop :=
  ' ' ∉ raw ∧ raw ≠ [] ∧ normalize raw = .ok r ∧ r ≠ [] ∧
    97 ≤ (r.getD 0 NUL).toNat ∧ (r.getD 0 NUL).toNat ≤ 122

/-- The stream is set up as the claims about well-formed traces assume: the
tables are those of `initMaps`, fetch- and branch-tracing are off, and the
ticks-per-cycle divisor is positive when memory-tracing is on. -/
def Ready (d : Defs) (st : RiscvStream) : Prop :=
  tablesInitial d st ∧ st.traceICache = false ∧ st.traceBP = false ∧
    (st.traceDCache = true → 0 < d.TICKS_PER_CYCLE)

/-- The stream has the trace lines `rem` still to interpret: either all of
them are in the file, or the first is held in the lookahead buffer and the
rest are in the file, or nothing is left and the buffer holds the empty line
of a failed read. -/
def Holds (st : RiscvStream) (rem : List TraceLine) : Prop :=
  (st.readFromFile = true ∧ st.traceFile = rem.map TraceLine.text) ∨
  (st.readFromFile = false ∧ ∃ t ts, rem = t :: ts ∧ st.lastInstrLine = t.text ∧
    st.traceFile = ts.map TraceLine.text) ∨
  (st.readFromFile = false ∧ rem = [] ∧ st.lastInstrLine = [] ∧ st.traceFile = [])

/-- The execution classes after which `next` reads a memory line. -/
def accessesMemory (t : ExecutionType) : Prop :=
  t = .Load ∨ t = .Store ∨ t = .Atomic

/-- What one pull gives on a stream that holds the well-formed lines `rem`:
with no instruction line left, no instruction; otherwise an instruction with
the decoded content of the first instruction line, and a stream that holds
lines whose instruction lines are the remaining ones. -/
def PullOutcome (d : Defs) (rem : List TraceLine) (r : Except Fault Pulled) : Prop :=
  match instrLines rem with
  | [] => ∃ p, r = .ok p ∧ p.result = none ∧ Holds p.stream [] ∧ Ready d p.stream
  | l :: ls => ∃ p rem', r = .ok p ∧ (∃ i, p.result = some i ∧ i.decoded = l.decoded d) ∧
      Holds p.stream rem' ∧ instrLines rem' = ls ∧ (∀ t ∈ rem', t.wf d = true) ∧
      Ready d p.stream

/-- What a caller observes of a pull: the decoded content and the three
annotation fields of the returned instruction (if any), the warnings, and
the lookahead buffer and file the pull leaves. -/
structure Observed where
  result : Option (Decoded × Nat × Bool × Nat)
  log : List Warning
  lastInstrLine : Str
  readFromFile : Bool
  traceFile : List Str
  deriving DecidableEq, Repr

/-- The observation of a pull. -/
def observe (r : Except Fault Pulled) : Except Fault Observed :=
  r.map (fun p =>
    ⟨p.result.map (fun i => (i.decoded, i.fetchCycles, i.mispredicted, i.lsCycles)), p.log,
      p.stream.lastInstrLine, p.stream.readFromFile, p.stream.traceFile⟩)

/-- A trace with a stray fetch line, a load with its memory line, a store
without one and an addition. -/
def sampleTrace : List TraceLine :=
  [.instr ⟨"0x1000".toList, "add".toList, [.bare "x1".toList, .bare "x2".toList,
      .bare "x3".toList], none⟩,
   .fetch "12".toList,
   .instr ⟨"0x2000".toList, "ldr".toList, [.bare "x1".toList,
      .paren "0x10".toList "x5".toList], some ("@".toList, "0x7ff0".toList)⟩,
   .memory "40".toList,
   .instr ⟨"0x2004".toList, "str".toList, [.comma "x1".toList, .bare "sp".toList], none⟩,
   .instr ⟨"2008".toList, "mov".toList, [.bare "w7".toList], none⟩]

/-- The anatomy of the line `@I <pc> add r1 r2 r3`. -/
def addLine (pc r1 r2 r3 : Str) : InstrLine :=
  ⟨pc, "add".toList, [.bare r1, .bare r2, .bare r3], none⟩

/-- The anatomy of the line `@I <pc> ldr r1 off(r2)`, with or without a
memory marker and an address after it. -/
def ldrLine (pc r1 off r2 : Str) (mem : Option (Str × Str)) : InstrLine :=
  ⟨pc, "ldr".toList, [.bare r1, .paren off r2], mem⟩

/-- A load with marker and address, an addition, and a stray fetch line. -/
def missingTrace : List TraceLine :=
  [.instr ⟨"0x2000".toList, "ldr".toList, [.bare "x1".toList,
      .paren "0x10".toList "x5".toList], some ("@".toList, "0x7ff0".toList)⟩,
   .instr ⟨"0x1000".toList, "add".toList, [.bare "x1".toList, .bare "x2".toList,
      .bare "x3".toList], none⟩,
   .fetch "12".toList]

/-- The value the expression `regMap[name]` has for a register token: the
identifier of the name, or the value-initialised 0 when the table has no
such name. -/
def regId (m : Table Nat) (name : Str) : Nat := (m.subscript name 0).1

/-- The identifiers of the register tokens at the positions of role `c`, in
line order; `i` is the position of the first token. -/
def idsWithRole (m : Table Nat) (c : Char) (syn : Str) : Nat → List Str → List Nat
  | _, [] => []
  | i, t :: ts =>
    if syn.getD i NUL = c then regId m t :: idsWithRole m c syn (i + 1) ts
    else idsWithRole m c syn (i + 1) ts

/-- The table `regMap` after the expressions `regMap[name]` for the names of
a list, in order. -/
def lookedUp (m : Table Nat) (names : List Str) : Table Nat :=
  names.foldl (fun (t : Table Nat) (name : Str) => (Table.subscript t name 0).2) m

/-- The name `x<i>` or `w<i>` of a numbered register: the letter and the
decimal digits of the number. -/
def numbered (letter : Char) (i : Nat) : Str := letter :: Nat.toDigits 10 i

/-- The 64-bit names of `regMap`: `x0` to `x30`, `sp` and `pc`. -/
def wideNames : List Str :=
  (List.range 31).map (numbered 'x') ++ ["sp".toList, "pc".toList]

/-- The 32-bit aliases of `regMap`: `w0` to `w30`. -/
def aliasNames : List Str := (List.range 31).map (numbered 'w')

/-- An opcode has all five entries of a block of `initMaps`, under its own
name. -/
def fullyRegistered (k : Str) : Bool :=
  (typeTable.get? k).isSome && (roleTable.get? k).isSome && (accessTable.get? k).isSome &&
    (lengthTable.get? k).isSome && (bytesTable.get? k).isSome

/-- The five opcode tables of the stream are those `initMaps` builds;
nothing is asked of `regMap`. -/
def registryInitial (d : Defs) (st : RiscvStream) : Prop :=
  st.opcodeToTypeMap = (initOpcodeTables d).opcodeToTypeMap ∧
    st.syntaxMap = (initOpcodeTables d).syntaxMap ∧
    st.memAccessMap = (initOpcodeTables d).memAccessMap ∧
    st.memLengthMap = (initOpcodeTables d).memLengthMap ∧
    st.bytesMap = (initOpcodeTables d).bytesMap

/-- The array `syntaxMap[opcode]` as `parseInstr` reads it. -/
def roleArray (d : Defs) (st : RiscvStream) (opcode : Str) : Str :=
  (st.syntaxMap.subscript opcode (List.replicate d.MAX_OPERANDS NUL)).1

/-- The instruction after the annotation lines of a pull: each of the three
annotation fields gets the value read from its line, when one was read, and
keeps its value otherwise. -/
def annotate (i : Instruction) (fetch : Option Nat) (branch : Option Bool) (mem : Option Nat) :
    Instruction :=
  { i with fetchCycles := fetch.getD i.fetchCycles
           mispredicted := branch.getD i.mispredicted
           lsCycles := mem.getD i.lsCycles }

/-- The class is none of conditional branch, unconditional branch, system
call: a misprediction on it is logged. -/
def regularClass (t : ExecutionType) : Prop :=
  t ≠ .BranchCond ∧ t ≠ .BranchUncond ∧ t ≠ .Syscall

/-- Successive calls of `parseNext` on a line, each from the cursor the call
before has left: the token each call returns, with the cursor it leaves. -/
def nextTokens (line : Str) : Nat → Option Nat → Except Fault (List (Str × Option Nat))
  | 0, _ => .ok []
  | n + 1, cur => do
    let (tok, cur') ← parseNext line cur
    let rest ← nextTokens line n cur'
    pure ((tok, cur') :: rest)

/-- The cursor after each token of a list of tokens joined by single spaces,
when the first token starts at `p`: the position just past the space that
follows the token, and `npos` after the last token. -/
def cursorsFrom : Nat → List Str → List (Option Nat)
  | _, [] => []
  | _, [_] => [none]
  | p, t :: u :: ts => some (p + t.length + 1) :: cursorsFrom (p + t.length + 1) (u :: ts)

/-- The token `parseNext` returns for a raw token (the empty token where the
normalisation fails). -/
def tokenOf (raw : Str) : Str :=
  match normalize raw with
  | .ok t => t
  | .error _ => []

/-- The test `operand[0] >= 'a' && operand[0] <= 'z'` of the operand scan
(line 206): the token counts as a register operand. -/
def isRegisterName (t : Str) : Bool :=
  decide ('a'.toNat ≤ (t.getD 0 NUL).toNat ∧ (t.getD 0 NUL).toNat ≤ 'z'.toNat)

/-- A raw token between single spaces: it is not empty and holds no
space. -/
def isPlainToken (raw : Str) : Bool :=
  decide (' ' ∉ raw) && decide (raw ≠ [])

/-- A raw token the operand scan passes over or collects: its token is not
empty and does not begin with `@`. -/
def isOperandToken (raw : Str) : Bool :=
  isPlainToken raw && decide (tokenOf raw ≠ []) && decide ((tokenOf raw).head? ≠ some '@')

/-- A raw token whose token begins with `@`: the memory marker as the scan
sees it. -/
def isMarkerToken (raw : Str) : Bool :=
  isPlainToken raw && decide ((tokenOf raw).head? = some '@')

/-- The register operands among raw operand tokens: the tokens that begin
with a lowercase letter, in order. -/
def registerOperands (ops : List Str) : List Str :=
  (ops.map tokenOf).filter isRegisterName

/-- The annotation lines a pull reads after an instruction line of class
`t`, for given switches: the fetch line `fl` with fetch-tracing, the branch
line `bl` with branch-tracing, the memory line `ml` with memory-tracing when
the class is load, store or atomic. -/
def annotationLines (ic bp dc : Bool) (t : ExecutionType) (fl bl ml : Str) : List Str :=
  (if ic = true then [fl] else []) ++ (if bp = true then [bl] else []) ++
    (if dc = true ∧ (t = .Load ∨ t = .Store ∨ t = .Atomic) then [ml] else [])

/-! # Properties -/

/-! ## `find` on a token and its separator -/

theorem takeWhile_ne_sep (c : Char) (tok rest : Str) (h : c ∉ tok) :
    (tok ++ c :: rest).takeWhile (fun x => x != c) = tok := by
  induction tok with
  | nil => simp
  | cons a t ih =>
    have ha : (a != c) = true := by
      simp only [bne_iff_ne, ne_eq]; exact fun e => h (by simp [e])
    have ht : c ∉ t := fun m => h (List.mem_cons_of_mem _ m)
    simp [List.takeWhile_cons, ha, ih ht]

theorem takeWhile_ne_all (c : Char) (tok : Str) (h : c ∉ tok) :
    tok.takeWhile (fun x => x != c) = tok := by
  induction tok with
  | nil => simp
  | cons a t ih =>
    have ha : (a != c) = true := by
      simp only [bne_iff_ne, ne_eq]; exact fun e => h (by simp [e])
    have ht : c ∉ t := fun m => h (List.mem_cons_of_mem _ m)
    simp [List.takeWhile_cons, ha, ih ht]

theorem find_sep (c : Char) (pre tok rest : Str) (h : c ∉ tok) :
    find (pre ++ tok ++ c :: rest) c pre.length = some (pre.length + tok.length) := by
  simp [find, List.append_assoc, List.drop_left, takeWhile_ne_sep c tok rest h]

theorem find_end (c : Char) (pre tok : Str) (h : c ∉ tok) :
    find (pre ++ tok) c pre.length = none := by
  simp [find, List.drop_left, takeWhile_ne_all c tok h]

theorem find_zero_sep (c : Char) (tok rest : Str) (h : c ∉ tok) :
    find (tok ++ c :: rest) c 0 = some tok.length := by
  simpa using find_sep c [] tok rest h

theorem find_zero_end (c : Char) (tok : Str) (h : c ∉ tok) : find tok c 0 = none := by
  simpa using find_end c [] tok h

/-- A token in which `c` occurs splits at the first occurrence. -/
theorem split_at_first (c : Char) (s : Str) (h : c ∈ s) :
    ∃ a b, s = a ++ c :: b ∧ c ∉ a := by
  induction s with
  | nil => simp at h
  | cons x t ih =>
    by_cases hx : x = c
    · exact ⟨[], t, by simp [hx], by simp⟩
    · have : c ∈ t := by
        rcases List.mem_cons.mp h with e | m
        · exact absurd e.symm hx
        · exact m
      obtain ⟨a, b, e, ha⟩ := ih this
      refine ⟨x :: a, b, by simp [e], ?_⟩
      intro m
      rcases List.mem_cons.mp m with e' | m'
      · exact hx e'.symm
      · exact ha m'

theorem find_zero_none_iff (c : Char) (s : Str) : find s c 0 = none ↔ c ∉ s := by
  constructor
  · intro h m
    obtain ⟨a, b, rfl, ha⟩ := split_at_first c s m
    rw [find_zero_sep c a b ha] at h
    exact absurd h (by simp)
  · exact find_zero_end c s

/-! ## The raw token -/

theorem take_length_takeWhile (p : Char → Bool) (l : Str) :
    l.take (l.takeWhile p).length = l.takeWhile p := by
  induction l with
  | nil => simp
  | cons a t ih =>
    by_cases h : p a = true
    · simp [List.takeWhile_cons, h, ih]
    · simp [List.takeWhile_cons, h]

theorem takeWhile_eq_self_of_length (p : Char → Bool) (l : Str)
    (h : ¬ (l.takeWhile p).length < l.length) : l.takeWhile p = l := by
  induction l with
  | nil => simp
  | cons a t ih =>
    by_cases hp : p a = true
    · simp only [List.takeWhile_cons, hp, if_true, List.length_cons] at h ⊢
      rw [ih (by omega)]
    · simp [List.takeWhile_cons, hp] at h

/-- The first half of `parseNext` returns the raw token at the cursor and the
cursor after it, for every cursor inside the line or at its end. -/
theorem splitToken_eq (line : Str) (cur : Nat) (h : cur ≤ line.length) :
    splitToken line cur = .ok (rawToken line cur, cursorAfter line cur) := by
  unfold splitToken cursorAfter rawToken find
  by_cases hk : ((line.drop cur).takeWhile (fun x => x != ' ')).length < (line.drop cur).length
  · simp only [hk, if_true, substr, h, Option.map_some']
    simp [take_length_takeWhile]
  · simp only [hk, if_false, substr, h, Option.map_none']
    rw [takeWhile_eq_self_of_length _ _ hk]
    rfl

theorem parseNext_eq (line : Str) (cur : Nat) (h : cur ≤ line.length) :
    parseNext line (some cur) =
      (normalize (rawToken line cur)).map (fun t => (t, cursorAfter line cur)) := by
  simp only [parseNext, splitToken_eq line cur h, bind, Except.bind]
  cases normalize (rawToken line cur) <;> rfl

theorem rawToken_sep (pre tok rest : Str) (h : ' ' ∉ tok) :
    rawToken (pre ++ tok ++ ' ' :: rest) pre.length = tok := by
  simp [rawToken, List.append_assoc, List.drop_left, takeWhile_ne_sep ' ' tok rest h]

theorem rawToken_end (pre tok : Str) (h : ' ' ∉ tok) :
    rawToken (pre ++ tok) pre.length = tok := by
  simp [rawToken, List.drop_left, takeWhile_ne_all ' ' tok h]

theorem cursorAfter_sep (pre tok rest : Str) (h : ' ' ∉ tok) :
    cursorAfter (pre ++ tok ++ ' ' :: rest) pre.length = some (pre.length + tok.length + 1) := by
  rw [cursorAfter, find_sep ' ' pre tok rest h]; rfl

theorem cursorAfter_end (pre tok : Str) (h : ' ' ∉ tok) :
    cursorAfter (pre ++ tok) pre.length = none := by
  simp [cursorAfter, find_end ' ' pre tok h]

/-! ## Normalisation -/

/-- A token without `(` that ends in a comma loses exactly that comma. -/
theorem normalize_comma (tok : Str) (h : '(' ∉ tok) :
    normalize (tok ++ [',']) = .ok tok := by
  have hf : find (tok ++ [',']) '(' 0 = none :=
    find_zero_end _ _ (by simp [h])
  simp [normalize, hf, lengthMinusOne, index, substr, bind, Except.bind, pure, Except.pure]

/-- A non-empty token without `(` that does not end in a comma is kept. -/
theorem normalize_plain (tok : Str) (h : '(' ∉ tok) (hne : tok ≠ [])
    (hl : tok.getLast? ≠ some ',') : normalize tok = .ok tok := by
  rcases List.eq_nil_or_concat tok with rfl | ⟨init, x, e⟩
  · exact absurd rfl hne
  · rw [List.concat_eq_append] at e
    subst e
    have hx : x ≠ ',' := by simpa using hl
    have hf : find (init ++ [x]) '(' 0 = none := find_zero_end _ _ h
    simp [normalize, hf, lengthMinusOne, index, bind, Except.bind, pure, Except.pure, hx]

/-- A token whose first `(` has no `)` before it yields the text between that
`(` and the first `)` after it. -/
theorem normalize_paren (pre mid post : Str) (h1 : '(' ∉ pre) (h2 : ')' ∉ pre)
    (h3 : ')' ∉ mid) : normalize (pre ++ '(' :: (mid ++ ')' :: post)) = .ok mid := by
  have hf : find (pre ++ '(' :: (mid ++ ')' :: post)) '(' 0 = some pre.length :=
    find_zero_sep _ _ _ h1
  have hg : find (pre ++ '(' :: (mid ++ ')' :: post)) ')' 0 = some (pre.length + 1 + mid.length) := by
    have : pre ++ '(' :: (mid ++ ')' :: post) = (pre ++ '(' :: mid) ++ ')' :: post := by simp
    rw [this, find_zero_sep ')' (pre ++ '(' :: mid) post (by simp [h2, h3])]
    simp; omega
  simp only [normalize, hf, hg, countBetween, substr]
  have hlt : pre.length < pre.length + 1 + mid.length := by omega
  simp only [hlt, if_true, List.length_append, List.length_cons]
  have e : pre.length + 1 + mid.length - pre.length - 1 = mid.length := by omega
  have hle : pre.length + 1 ≤ pre.length + (mid.length + (post.length + 1) + 1) := by omega
  simp only [hle, if_true, e]
  have hd : List.drop (pre.length + 1) (pre ++ '(' :: (mid ++ ')' :: post)) = mid ++ ')' :: post := by
    have : pre ++ '(' :: (mid ++ ')' :: post) = (pre ++ ['(']) ++ (mid ++ ')' :: post) := by simp
    rw [this]
    exact List.drop_left' (by simp)
  rw [hd, List.take_left]

/-! ## The tokenizer: claims C6, C7, C8 -/

/-- C6 (the code departs from it): a raw token with a `(` and a `)` after it
should yield the text between the two.  On the token `0x10)(x5)` the search
for `)` starts at the front of the token and finds the one before the `(`, the
count `next_pos - pos - 1` wraps around, and `parseNext` returns the rest of
the token after the `(`, closing parenthesis included: `x5)`, not `x5`. -/
theorem parseNext_close_before_open :
    parseNext "0x10)(x5)".toList (some 0) = .ok ("x5)".toList, none) ∧
      parseNext "0x10(x5),".toList (some 0) = .ok ("x5".toList, none) := by
  decide

/-- C7: on a non-empty raw token without `(`, `parseNext` returns the token
without its last character when that is a comma and the token itself
otherwise; so a token without `(` and without a trailing comma is returned
unchanged. -/
theorem parseNext_without_paren (line : Str) (cur : Nat) (hcur : cur ≤ line.length)
    (hne : rawToken line cur ≠ []) (hp : '(' ∉ rawToken line cur) :
    parseNext line (some cur) =
        .ok (if (rawToken line cur).getLast? = some ',' then (rawToken line cur).dropLast
             else rawToken line cur, cursorAfter line cur) ∧
      ((rawToken line cur).getLast? ≠ some ',' →
        parseNext line (some cur) = .ok (rawToken line cur, cursorAfter line cur)) := by
  have key : parseNext line (some cur) =
      .ok (if (rawToken line cur).getLast? = some ',' then (rawToken line cur).dropLast
           else rawToken line cur, cursorAfter line cur) := by
    rw [parseNext_eq line cur hcur]
    by_cases hl : (rawToken line cur).getLast? = some ','
    · rw [if_pos hl]
      rcases List.eq_nil_or_concat (rawToken line cur) with e | ⟨init, x, e⟩
      · exact absurd e hne
      · rw [List.concat_eq_append] at e
        rw [e] at hl hp ⊢
        have hx : x = ',' := by simpa using hl
        subst hx
        rw [normalize_comma init (fun m => hp (by simp [m]))]
        simp [Except.map]
    · rw [if_neg hl, normalize_plain _ hp hne hl]
      rfl
  refine ⟨key, fun hl => ?_⟩
  rw [key, if_neg hl]

/-- Witness of C7: `x5,,` gives `x5,`. -/
theorem parseNext_without_paren_witness :
    (0 ≤ "x5,,".toList.length ∧ rawToken "x5,,".toList 0 ≠ [] ∧
        '(' ∉ rawToken "x5,,".toList 0) ∧
      parseNext "x5,,".toList (some 0) = .ok ("x5,".toList, none) :=
  ⟨by decide,
    (parseNext_without_paren "x5,,".toList 0 (by decide) (by decide) (by decide)).1.trans
      (by decide)⟩

/-- C8 (the code departs from it): `parseNext` should return a token for
every cursor inside the line.  When the raw token is empty (the cursor stands
on a space, or at the end of a line that ends in a space) the test
`str[str.length() - 1] == ','` indexes the empty string at `npos`, past its
end.  At the end marker the empty token is returned. -/
theorem parseNext_empty_raw_token :
    parseNext "@I 0x1000 add ".toList (some 14) = .error .indexPastEnd ∧
      parseNext "@I 0x1000  add".toList (some 10) = .error .indexPastEnd ∧
      parseNext "@I 0x1000 add".toList none = .ok ([], none) := by
  decide

/-! ## `stoull` on digit strings -/

theorem digitValue_range (c : Char) (v : Nat) (h : digitValue c = some v) :
    (48 ≤ c.toNat ∧ c.toNat ≤ 57 ∧ v = c.toNat - 48) ∨
    (97 ≤ c.toNat ∧ c.toNat ≤ 122 ∧ v = c.toNat - 97 + 10) ∨
    (65 ≤ c.toNat ∧ c.toNat ≤ 90 ∧ v = c.toNat - 65 + 10) := by
  unfold digitValue at h
  split_ifs at h with h1 h2 h3
  · left; exact ⟨h1.1, h1.2, by simpa using h.symm⟩
  · right; left; exact ⟨h2.1, h2.2, by simpa using h.symm⟩
  · right; right; exact ⟨h3.1, h3.2, by simpa using h.symm⟩

theorem isDigitOf_toNat (base : Nat) (c : Char) (h : isDigitOf base c = true) :
    48 ≤ c.toNat ∧ c.toNat ≤ 122 := by
  unfold isDigitOf at h
  cases hv : digitValue c with
  | none => simp [hv] at h
  | some v =>
    rcases digitValue_range c v hv with ⟨a, b, _⟩ | ⟨a, b, _⟩ | ⟨a, b, _⟩ <;> omega

theorem isDigitOf_not_space (base : Nat) (c : Char) (h : isDigitOf base c = true) :
    isspace c = false := by
  have := isDigitOf_toNat base c h
  simp only [isspace, Bool.or_eq_false_iff, decide_eq_false_iff_not, Bool.and_eq_false_iff]
  constructor
  · omega
  · right; omega

theorem isDigitOf_hex_toNat (c : Char) (h : isDigitOf 16 c = true) :
    c.toNat ≤ 70 ∨ (97 ≤ c.toNat ∧ c.toNat ≤ 102) := by
  unfold isDigitOf at h
  cases hv : digitValue c with
  | none => simp [hv] at h
  | some v =>
    simp only [hv, decide_eq_true_eq] at h
    rcases digitValue_range c v hv with ⟨a, b, e⟩ | ⟨a, b, e⟩ | ⟨a, b, e⟩ <;> omega

theorem stripSign_digit (base : Nat) (c : Char) (t : Str) (h : isDigitOf base c = true) :
    stripSign (c :: t) = (false, c :: t) := by
  have := isDigitOf_toNat base c h
  have h1 : c ≠ '-' := fun e => by rw [e] at this; revert this; decide
  have h2 : c ≠ '+' := fun e => by rw [e] at this; revert this; decide
  unfold stripSign
  split
  · rename_i e; exact absurd (List.cons.inj e).1 h1
  · rename_i e; exact absurd (List.cons.inj e).1 h2
  · rfl

theorem takeWhile_all (p : Char → Bool) (l : Str) (h : l.all p = true) : l.takeWhile p = l := by
  induction l with
  | nil => rfl
  | cons a t ih =>
    simp only [List.all_cons, Bool.and_eq_true] at h
    simp [List.takeWhile_cons, h.1, ih h.2]

theorem stripHexMark_digits (base : Nat) (ds : Str) (h : ds.all (isDigitOf base) = true) :
    stripHexMark base ds = ds := by
  unfold stripHexMark
  split
  · rename_i x hd r
    split_ifs with hc
    · exfalso
      obtain ⟨hb, hx, _⟩ := hc
      subst hb
      simp only [List.all_cons, Bool.and_eq_true] at h
      have := isDigitOf_hex_toNat x h.2.1
      rcases hx with e | e <;> · rw [e] at this; revert this; decide
    · rfl
  · rfl

/-- On a non-empty run of digits of the base whose value fits 64 bits,
`stoull` returns that value. -/
theorem stoull_digits (base : Nat) (ds : Str) (hne : ds ≠ [])
    (hall : ds.all (isDigitOf base) = true) (hv : digitsValue base ds < 2 ^ 64) :
    stoull ds base = .ok (digitsValue base ds) := by
  obtain ⟨c, t, rfl⟩ := List.exists_cons_of_ne_nil hne
  have hc : isDigitOf base c = true := by
    simp only [List.all_cons, Bool.and_eq_true] at hall; exact hall.1
  have hsp : (c :: t).dropWhile isspace = c :: t := by
    simp [List.dropWhile_cons, isDigitOf_not_space base c hc]
  unfold stoull
  simp only [hsp, stripSign_digit base c t hc, stripHexMark_digits base (c :: t) hall,
    takeWhile_all _ _ hall]
  have hv' : ¬ (2 ^ 64 ≤ digitsValue _ (c :: t)) := Nat.not_le.mpr hv
  simp only [hv', if_false]
  simp

/-- With the mark `0x` in front of a non-empty run of hex digits, `stoull`
in base 16 returns the value of the digits. -/
theorem stoull_hex_marked (ds : Str) (hne : ds ≠ [])
    (hall : ds.all (isDigitOf 16) = true) (hv : digitsValue 16 ds < 2 ^ 64) :
    stoull ('0' :: 'x' :: ds) 16 = .ok (digitsValue 16 ds) := by
  obtain ⟨c, t, rfl⟩ := List.exists_cons_of_ne_nil hne
  have hc : isDigitOf 16 c = true := by
    simp only [List.all_cons, Bool.and_eq_true] at hall; exact hall.1
  have hsp : ('0' :: 'x' :: c :: t).dropWhile isspace = '0' :: 'x' :: c :: t := by
    have : isspace '0' = false := by decide
    simp [List.dropWhile_cons, this]
  have hsg : stripSign ('0' :: 'x' :: c :: t) = (false, '0' :: 'x' :: c :: t) := rfl
  have hm : stripHexMark 16 ('0' :: 'x' :: c :: t) = c :: t := by
    simp [stripHexMark, hc]
  unfold stoull
  simp only [hsp, hsg, hm, takeWhile_all _ _ hall]
  have hv' : ¬ (2 ^ 64 ≤ digitsValue _ (c :: t)) := Nat.not_le.mpr hv
  simp only [hv', if_false]
  simp

/-- A run of digits holds no character below `0`: no space, parenthesis,
comma or `@`. -/
theorem digits_no_low (base : Nat) (ds : Str) (hall : ds.all (isDigitOf base) = true)
    (c : Char) (hc : c.toNat < 48) : c ∉ ds := by
  intro m
  have := isDigitOf_toNat base c (List.all_eq_true.mp hall c m)
  omega

theorem digits_last (base : Nat) (ds : Str) (hall : ds.all (isDigitOf base) = true) :
    ds.getLast? ≠ some ',' := by
  intro h
  exact digits_no_low base ds hall ',' (by decide) (List.mem_of_getLast?_eq_some h)

/-- The tokenizer returns a run of digits that ends the line unchanged. -/
theorem parseNext_digits_end (base : Nat) (pre ds : Str) (hne : ds ≠ [])
    (hall : ds.all (isDigitOf base) = true) :
    parseNext (pre ++ ds) (some pre.length) = .ok (ds, none) := by
  have hs := digits_no_low base ds hall ' ' (by decide)
  have hp := digits_no_low base ds hall '(' (by decide)
  rw [parseNext_eq _ _ (by simp), rawToken_end pre ds hs, cursorAfter_end pre ds hs,
    normalize_plain ds hp hne (digits_last base ds hall)]
  rfl

/-! ## The tick parsers: claim C9 -/

/-- Both tick parsers on a line whose field is a decimal numeral below
`2^64`: the quotient by the divisor, reduced to 32 bits. -/
theorem parseCycles_digits (d : Defs) (hd : 0 < d.TICKS_PER_CYCLE) (ds : Str) (hne : ds ≠ [])
    (hall : ds.all (isDigitOf 10) = true) (hv : digitsValue 10 ds < 2 ^ 64) (tag : Str)
    (ht : tag.length = 3) :
    parseFetchCycles d (tag ++ ds) = .ok ((digitsValue 10 ds / d.TICKS_PER_CYCLE) % 2 ^ 32) ∧
      parseMemoryCycles d (tag ++ ds) =
        .ok ((digitsValue 10 ds / d.TICKS_PER_CYCLE) % 2 ^ 32) := by
  have hp := parseNext_digits_end 10 tag ds hne hall
  rw [ht] at hp
  have hz : d.TICKS_PER_CYCLE ≠ 0 := by omega
  constructor <;>
    simp [parseFetchCycles, parseMemoryCycles, hp, stoul, stoull_digits 10 ds hne hall hv,
      ticksToCycles, hz, bind, Except.bind]

/-- C9 as stated fails: with divisor 4 the tick count `17179869184` has the
quotient `2^32`, and the stored fetch-cycle count is 0. -/
theorem parseFetchCycles_wraps :
    parseFetchCycles ⟨4, 4⟩ "@F 17179869184".toList = .ok 0 ∧
      parseMemoryCycles ⟨4, 4⟩ "@M 17179869184".toList = .ok 0 ∧
      17179869184 / 4 = 2 ^ 32 := by
  decide

/-- C9, amended: for every decimal tick count `n < 2^64` in an `@F ` or `@M `
line and every divisor `d > 0`, the cycle count is `n / d` reduced modulo
`2^32`, so it is the floor quotient whenever that fits 32 bits. -/
theorem parseCycles_floor (d : Defs) (hd : 0 < d.TICKS_PER_CYCLE) (ds : Str) (hne : ds ≠ [])
    (hall : ds.all (isDigitOf 10) = true) (hv : digitsValue 10 ds < 2 ^ 64) :
    parseFetchCycles d ("@F ".toList ++ ds) =
        .ok ((digitsValue 10 ds / d.TICKS_PER_CYCLE) % 2 ^ 32) ∧
      parseMemoryCycles d ("@M ".toList ++ ds) =
        .ok ((digitsValue 10 ds / d.TICKS_PER_CYCLE) % 2 ^ 32) ∧
      (digitsValue 10 ds / d.TICKS_PER_CYCLE < 2 ^ 32 →
        parseFetchCycles d ("@F ".toList ++ ds) = .ok (digitsValue 10 ds / d.TICKS_PER_CYCLE) ∧
        parseMemoryCycles d ("@M ".toList ++ ds) =
          .ok (digitsValue 10 ds / d.TICKS_PER_CYCLE)) := by
  have hF := (parseCycles_digits d hd ds hne hall hv "@F ".toList rfl).1
  have hM := (parseCycles_digits d hd ds hne hall hv "@M ".toList rfl).2
  refine ⟨hF, hM, fun hq => ?_⟩
  rw [hF, hM, Nat.mod_eq_of_lt hq]
  exact ⟨rfl, rfl⟩

/-- Witness of C9: 7 ticks at divisor 4 give 1 cycle, 8 ticks give 2. -/
theorem parseCycles_floor_witness :
    (0 < (⟨4, 4⟩ : Defs).TICKS_PER_CYCLE ∧ "7".toList ≠ [] ∧
        "7".toList.all (isDigitOf 10) = true ∧ digitsValue 10 "7".toList < 2 ^ 64) ∧
      parseFetchCycles ⟨4, 4⟩ "@F 7".toList = .ok 1 ∧
      parseMemoryCycles ⟨4, 4⟩ "@M 7".toList = .ok 1 :=
  ⟨by decide,
    ((parseCycles_floor ⟨4, 4⟩ (by decide) "7".toList (by decide) (by decide) (by decide)).2.2
      (by decide))⟩

/-! ## The branch parser: claim C10 -/

theorem find_lt (s : Str) (c : Char) (p : Nat) (h : find s c 0 = some p) : p < s.length := by
  unfold find at h
  simp only [List.drop_zero, Nat.zero_add] at h
  split_ifs at h with hk
  simp only [Option.some.injEq] at h
  omega

/-- Normalisation of a non-empty raw token never fails. -/
theorem normalize_ok (tok : Str) (hne : tok ≠ []) : ∃ t, normalize tok = .ok t := by
  have hl : 0 < tok.length := List.length_pos.mpr hne
  unfold normalize
  cases hf : find tok '(' 0 with
  | some pos =>
    have := find_lt tok '(' pos hf
    have hle : pos + 1 ≤ tok.length := by omega
    simp only [substr, hle, if_true]
    cases countBetween (find tok ')' 0) pos <;> exact ⟨_, rfl⟩
  | none =>
    have hz : tok.length ≠ 0 := by omega
    simp only [lengthMinusOne, hz, if_false, index, Nat.sub_le, if_true, bind, Except.bind,
      substr, Nat.zero_le, pure, Except.pure]
    split_ifs <;> exact ⟨_, rfl⟩

/-- On a line with a non-empty raw field the branch parser decides by the
first character of the normalised field: `0` is a misprediction, `1` is none,
everything else (an empty normalised field included) is the error "Invalid
branch prediction result". -/
theorem parseBranch_of_field (line : Str) (h3 : 3 ≤ line.length)
    (hne : rawToken line 3 ≠ []) :
    ∃ tok, normalize (rawToken line 3) = .ok tok ∧
      parseBranch line =
        if tok.head? = some '0' then .ok true
        else if tok.head? = some '1' then .ok false
        else .error .invalidBranchPrediction := by
  obtain ⟨tok, ht⟩ := normalize_ok _ hne
  refine ⟨tok, ht, ?_⟩
  simp only [parseBranch, parseNext_eq line 3 h3, ht, Except.map, bind, Except.bind, index,
    Nat.zero_le, if_true]
  cases tok with
  | nil => simp [NUL]; decide
  | cons c t =>
    simp only [List.getD_cons_zero, List.head?_cons, Option.some.injEq]
    split_ifs <;> rfl

/-! ## Stream exhaustion: claim C5 -/

/-- C5: when the source has no further line and the lookahead buffer is
empty, a pull returns no instruction, logs nothing and leaves the stream
exhausted; hence every number of further pulls returns no instruction. -/
theorem next_exhausted (d : Defs) (st : RiscvStream) (h : exhausted st) :
    (∃ p, next d st = .ok p ∧ p.result = none ∧ p.log = [] ∧ exhausted p.stream ∧
        p.stream.instr = st.instr) ∧
      ∀ n, ∃ st', pulls d n st = .ok (List.replicate n none, st') ∧ exhausted st' := by
  have one : ∀ s : RiscvStream, exhausted s →
      ∃ p, next d s = .ok p ∧ p.result = none ∧ p.log = [] ∧ exhausted p.stream ∧
        p.stream.instr = s.instr := by
    intro s hs
    obtain ⟨hf, hb⟩ := hs
    cases hr : s.readFromFile with
    | true =>
      refine ⟨⟨none, { s with traceFile := [] }, []⟩, ?_, rfl, rfl, ⟨rfl, Or.inl hr⟩, rfl⟩
      simp [next, hr, hf, nextFromFile]
    | false =>
      have hl : s.lastInstrLine = [] := by
        rcases hb with hb | hb
        · rw [hr] at hb; exact absurd hb (by decide)
        · exact hb
      refine ⟨⟨none, { s with readFromFile := true }, []⟩, ?_, rfl, rfl, ⟨hf, Or.inl rfl⟩, rfl⟩
      simp [next, hr, hl]
  refine ⟨one st h, fun n => ?_⟩
  induction n generalizing st with
  | zero => exact ⟨st, rfl, h⟩
  | succ n ih =>
    obtain ⟨p, hp, hres, _, hex, _⟩ := one st h
    obtain ⟨st', hst', hex'⟩ := ih p.stream hex
    refine ⟨st', ?_, hex'⟩
    simp [pulls, hp, hst', hres, bind, Except.bind, pure, Except.pure, List.replicate_succ]

/-- Witness of C5: a stream over the empty trace. -/
theorem next_exhausted_witness :
    exhausted (RiscvStream.mk0 ⟨4, 4⟩ [] false false false blankInstr) ∧
      ∃ st', pulls ⟨4, 4⟩ 3 (RiscvStream.mk0 ⟨4, 4⟩ [] false false false blankInstr) =
        .ok ([none, none, none], st') ∧ exhausted st' :=
  ⟨⟨rfl, Or.inl rfl⟩,
    (next_exhausted ⟨4, 4⟩ (RiscvStream.mk0 ⟨4, 4⟩ [] false false false blankInstr)
      ⟨rfl, Or.inl rfl⟩).2 3⟩

/-! ## Tables -/

theorem Table.get?_mem_keys {α : Type} (m : Table α) (k : Str) (v : α)
    (h : m.get? k = some v) : k ∈ m.keys := by
  induction m with
  | nil => simp [Table.get?] at h
  | cons e m ih =>
    obtain ⟨k', v'⟩ := e
    by_cases hk : k' = k
    · subst hk
      exact List.mem_cons_self _ _
    · simp only [Table.get?, hk, if_false] at h
      exact List.mem_cons_of_mem _ (ih h)

theorem Table.subscript_of_get? {α : Type} (m : Table α) (k : Str) (v dflt : α)
    (h : m.get? k = some v) : m.subscript k dflt = (v, m) := by
  simp [Table.subscript, h]

theorem Table.count_of_get? {α : Type} (m : Table α) (k : Str) (v : α)
    (h : m.get? k = some v) : m.count k = 1 := by
  simp [Table.count, h]

/-- Entering `f v` in a table of `f`-images is entering `v` before taking
the images. -/
theorem Table.assign_map {α β : Type} (f : α → β) (m : Table α) (k : Str) (v : α) :
    (m.assign k v).map (fun e => (e.1, f e.2)) =
      Table.assign (m.map (fun e => (e.1, f e.2))) k (f v) := by
  induction m with
  | nil => rfl
  | cons e m ih =>
    obtain ⟨k', v'⟩ := e
    by_cases hk : k' = k
    · simp [Table.assign, hk]
    · simp only [Table.assign, hk, if_false, List.map_cons, ih]

theorem Table.get?_map {α β : Type} (f : α → β) (m : Table α) (k : Str) :
    Table.get? (m.map (fun e => (e.1, f e.2))) k = (m.get? k).map f := by
  induction m with
  | nil => rfl
  | cons e m ih =>
    obtain ⟨k', v'⟩ := e
    by_cases hk : k' = k
    · simp [Table.get?, hk]
    · simp only [Table.get?, hk, if_false, List.map_cons, ih]

theorem syntaxMap_fold (n : Nat) (rows : List OpcodeRow) (m : Table Str) :
    rows.foldl (fun (m : Table Str) (r : OpcodeRow) =>
          Table.assign m r.roles.1.toList (strncpy r.roles.2.toList n))
        (m.map (fun e => (e.1, strncpy e.2 n))) =
      (rows.foldl (fun (m : Table Str) (r : OpcodeRow) =>
          Table.assign m r.roles.1.toList r.roles.2.toList) m).map
        (fun e => (e.1, strncpy e.2 n)) := by
  induction rows generalizing m with
  | nil => rfl
  | cons r rows ih =>
    simp only [List.foldl_cons]
    rw [← ih, Table.assign_map (fun s => strncpy s n)]

/-- The array `syntaxMap` holds for an opcode: its role string of `initMaps`
stored in `MAX_OPERANDS` characters. -/
theorem syntaxMap_get? (d : Defs) (k : Str) :
    (initOpcodeTables d).syntaxMap.get? k =
      (roleTable.get? k).map (fun s => strncpy s d.MAX_OPERANDS) := by
  have := syntaxMap_fold d.MAX_OPERANDS opcodeRows []
  simp only [List.map_nil] at this
  simp only [initOpcodeTables, roleTable, this]
  exact Table.get?_map (fun s => strncpy s d.MAX_OPERANDS) _ k

/-- Every opcode of `opcodeToTypeMap` has an entry in `bytesMap`, in the
role table and in `memAccessMap`. -/
theorem registered_everywhere :
    ∀ k ∈ typeTable.keys,
      (bytesTable.get? k).isSome ∧ (roleTable.get? k).isSome ∧ (accessTable.get? k).isSome := by
  decide

/-- Every opcode with a memory-access kind has an entry in `memLengthMap`. -/
theorem access_has_length :
    ∀ k ∈ accessTable.keys, accessTable.get? k ≠ some NUL → (lengthTable.get? k).isSome := by
  decide

/-- A register name of `regMap` is non-empty, begins with a lowercase letter
and holds no space, parenthesis or comma. -/
theorem regMap_names :
    ∀ r ∈ initRegMap.keys,
      r ≠ [] ∧ ' ' ∉ r ∧ '(' ∉ r ∧ ')' ∉ r ∧ ',' ∉ r ∧
        97 ≤ (r.getD 0 NUL).toNat ∧ (r.getD 0 NUL).toNat ≤ 122 := by
  decide

/-! ## Tokens of a line -/

theorem join_advance (pre t : Str) (ts : List Str) :
    pre ++ joinTokens (t :: ts) = advance pre t ts ++ joinTokens ts := by
  cases ts <;> simp [joinTokens, advance]

/-- The tokenizer at the start of a token of a line of joined tokens returns
the normalised token and stands before the tokens that follow. -/
theorem parseNext_token (pre t : Str) (ts : List Str) (hs : ' ' ∉ t) :
    parseNext (pre ++ joinTokens (t :: ts)) (some pre.length) =
      (normalize t).map (fun x => (x, cursorOf (advance pre t ts) ts)) := by
  cases ts with
  | nil =>
    simp only [joinTokens, advance, cursorOf]
    rw [parseNext_eq _ _ (by simp), rawToken_end pre t hs, cursorAfter_end pre t hs]
  | cons u us =>
    have e : pre ++ joinTokens (t :: u :: us) = pre ++ t ++ ' ' :: joinTokens (u :: us) := by
      simp [joinTokens]
    rw [e, parseNext_eq _ _ (by simp), rawToken_sep pre t _ hs, cursorAfter_sep pre t _ hs]
    simp [advance, cursorOf, Nat.add_assoc]

theorem length_joinTokens (ts : List Str) (h : ∀ t ∈ ts, t ≠ []) :
    ts.length ≤ (joinTokens ts).length := by
  induction ts with
  | nil => simp
  | cons t ts ih =>
    have ht : 0 < t.length := List.length_pos.mpr (h t (List.mem_cons_self _ _))
    cases ts with
    | nil => simp [joinTokens]; omega
    | cons u us =>
      have := ih (fun x hx => h x (List.mem_cons_of_mem _ hx))
      simp only [joinTokens, List.length_append, List.length_cons] at this ⊢
      omega

/-! ## Operands, markers and hexadecimal tokens -/

theorem Operand.wf_get? (o : Operand) (h : o.wf = true) :
    ∃ v, initRegMap.get? o.reg = some v := by
  cases o <;> simp only [Operand.wf, Operand.reg, Bool.and_eq_true] at h ⊢
  · exact Option.isSome_iff_exists.mp h
  · exact Option.isSome_iff_exists.mp h
  · exact Option.isSome_iff_exists.mp h.1.1.1

theorem Operand.registerToken (o : Operand) (h : o.wf = true) :
    RegisterToken o.raw o.reg := by
  obtain ⟨v, hv⟩ := Operand.wf_get? o h
  obtain ⟨hne, hsp, hop, hcl, hco, hlo, hhi⟩ :=
    regMap_names o.reg (Table.get?_mem_keys _ _ _ hv)
  cases o with
  | bare r =>
    simp only [Operand.reg, Operand.raw] at *
    refine ⟨hsp, hne, normalize_plain r hop hne ?_, hne, hlo, hhi⟩
    exact fun e => hco (List.mem_of_getLast?_eq_some e)
  | comma r =>
    simp only [Operand.reg, Operand.raw] at *
    refine ⟨by simp [hsp], by simp, normalize_comma r hop, hne, hlo, hhi⟩
  | paren off r =>
    simp only [Operand.reg, Operand.raw] at *
    simp only [Operand.wf, Bool.and_eq_true, decide_eq_true_eq] at h
    obtain ⟨⟨⟨_, h1⟩, h2⟩, h3⟩ := h
    refine ⟨by simp [hsp, h1], by simp, normalize_paren off r [] h2 h3 hcl, hne, hlo, hhi⟩

/-- A hexadecimal token holds no space, is returned unchanged by the
tokenizer and is read by `stoull` in base 16 as its value. -/
theorem hexToken_facts (t : Str) (h : isHexToken t = true) :
    ' ' ∉ t ∧ t ≠ [] ∧ normalize t = .ok t ∧ stoull t 16 = .ok (hexTokenValue t) := by
  simp only [isHexToken, Bool.and_eq_true, bne_iff_ne, ne_eq, decide_eq_true_eq] at h
  obtain ⟨⟨hne, hall⟩, hv⟩ := h
  have low := digits_no_low 16 (hexDigitsOf t) hall
  have hlast := digits_last 16 (hexDigitsOf t) hall
  by_cases hm : ∃ r, t = '0' :: 'x' :: r
  · obtain ⟨r, rfl⟩ := hm
    have hd : hexDigitsOf ('0' :: 'x' :: r) = r := rfl
    rw [hd] at hne hall hv low hlast
    have hsp : ' ' ∉ '0' :: 'x' :: r := by
      simp only [List.mem_cons, not_or]
      exact ⟨by decide, by decide, low ' ' (by decide)⟩
    have hpa : '(' ∉ '0' :: 'x' :: r := by
      simp only [List.mem_cons, not_or]
      exact ⟨by decide, by decide, low '(' (by decide)⟩
    have hl : ('0' :: 'x' :: r).getLast? ≠ some ',' := by
      intro e
      have := List.mem_of_getLast?_eq_some e
      simp only [List.mem_cons] at this
      rcases this with e | e | e
      · revert e; decide
      · revert e; decide
      · exact low ',' (by decide) e
    exact ⟨hsp, by simp, normalize_plain _ hpa (by simp) hl,
      by rw [stoull_hex_marked r hne hall hv]; rfl⟩
  · have hd : hexDigitsOf t = t := by
      unfold hexDigitsOf
      split
      · rename_i r; exact absurd ⟨r, rfl⟩ hm
      · rfl
    rw [hd] at hne hall hv low hlast
    exact ⟨low ' ' (by decide), hne, normalize_plain t (low '(' (by decide)) hne hlast,
      by rw [stoull_digits 16 t hne hall hv]; simp [hexTokenValue, hd]⟩

/-- A marker token holds no space, is returned unchanged by the tokenizer
and begins with `@`. -/
theorem marker_facts (m : Str) (h : isMarker m = true) :
    ' ' ∉ m ∧ m ≠ [] ∧ normalize m = .ok m ∧ m.getD 0 NUL = '@' := by
  simp only [isMarker, Bool.and_eq_true, decide_eq_true_eq] at h
  obtain ⟨⟨⟨hh, hs⟩, hp⟩, hl⟩ := h
  cases m with
  | nil => simp at hh
  | cons c t =>
    simp only [List.head?_cons, Option.some.injEq] at hh
    exact ⟨hs, by simp, normalize_plain _ hp (by simp) hl, by simp [hh]⟩

/-! ## The operand scan on a well-formed line -/

theorem cursorOf_cons (pre t : Str) (ts : List Str) :
    cursorOf pre (t :: ts) = some pre.length := rfl

/-- One turn of the operand scan on a register token. -/
theorem scanOperands_step (d : Defs) (pre t r : Str) (ts : List Str) (acc : List Str)
    (fuel : Nat) (hlt : acc.length < d.MAX_OPERANDS) (ht : RegisterToken t r) :
    scanOperands d (pre ++ joinTokens (t :: ts)) (fuel + 1) (some pre.length) acc =
      scanOperands d (advance pre t ts ++ joinTokens ts) fuel
        (cursorOf (advance pre t ts) ts) (acc ++ [r]) := by
  obtain ⟨hs, _, hn, hne, hlo, hhi⟩ := ht
  have hat : r.getD 0 NUL ≠ '@' := by
    intro e; rw [e] at hlo; revert hlo; decide
  have hrange : 'a'.toNat ≤ (r.getD 0 NUL).toNat ∧ (r.getD 0 NUL).toNat ≤ 'z'.toNat := ⟨hlo, hhi⟩
  rw [scanOperands]
  simp only [hlt, if_true, parseNext_token pre t ts hs, hn, Except.map, bind, Except.bind, hne,
    if_false, index, Nat.zero_le, hrange, and_self, hat, pure, Except.pure]
  rw [join_advance]

/-- The operand scan over the register operands of a well-formed line: it
collects their register names and stands before the tokens that follow. -/
theorem scanOperands_operands (d : Defs) (ops : List Operand) (tail : List Str) :
    ∀ (pre : Str) (acc : List Str) (fuel : Nat), (∀ o ∈ ops, o.wf = true) →
      acc.length + ops.length ≤ d.MAX_OPERANDS →
      ∃ pre', pre ++ joinTokens (ops.map Operand.raw ++ tail) = pre' ++ joinTokens tail ∧
        scanOperands d (pre ++ joinTokens (ops.map Operand.raw ++ tail)) (fuel + ops.length)
            (cursorOf pre (ops.map Operand.raw ++ tail)) acc =
          scanOperands d (pre' ++ joinTokens tail) fuel (cursorOf pre' tail)
            (acc ++ ops.map Operand.reg) := by
  induction ops with
  | nil =>
    intro pre acc fuel _ _
    exact ⟨pre, rfl, by simp⟩
  | cons o os ih =>
    intro pre acc fuel hwf hlen
    simp only [List.length_cons] at hlen
    have ho := Operand.registerToken o (hwf o (List.mem_cons_self _ _))
    obtain ⟨pre', e, hscan⟩ := ih (advance pre o.raw (os.map Operand.raw ++ tail))
      (acc ++ [o.reg]) fuel (fun x hx => hwf x (List.mem_cons_of_mem _ hx))
      (by simp only [List.length_append, List.length_singleton]; omega)
    refine ⟨pre', ?_, ?_⟩
    · simp only [List.map_cons, List.cons_append]
      rw [join_advance, e]
    · simp only [List.map_cons, List.cons_append, List.length_cons, cursorOf_cons]
      rw [← Nat.add_assoc, scanOperands_step d pre o.raw o.reg _ acc (fuel + os.length)
        (by omega) ho, hscan]
      simp

/-- An opcode of `opcodeToTypeMap` is non-empty, holds no space and no `(`
and does not end in a comma. -/
theorem opcode_names :
    ∀ k ∈ typeTable.keys, ' ' ∉ k ∧ k ≠ [] ∧ '(' ∉ k ∧ k.getLast? ≠ some ',' := by
  decide

theorem length_strncpy (s : Str) (n : Nat) : (strncpy s n).length = n := by
  simp only [strncpy, List.length_append, List.length_take, List.length_replicate]
  omega

theorem rolesCover_spec (syn : Str) (n : Nat) (h : rolesCover syn n = true) (i : Nat)
    (hi : i < n) : syn.getD i NUL = 'W' ∨ syn.getD i NUL = 'R' := by
  simp only [rolesCover, List.all_eq_true, List.mem_range, Bool.or_eq_true, beq_iff_eq] at h
  exact h i hi

/-- Operands within the stored role array are at most `MAX_OPERANDS`. -/
theorem rolesCover_le (s : Str) (n k : Nat) (h : rolesCover (strncpy s n) k = true) :
    k ≤ n := by
  by_contra hlt
  have hn : n < k := by omega
  have := rolesCover_spec _ _ h n hn
  have hg : (strncpy s n).getD n NUL = NUL := by
    rw [List.getD_eq_default]
    rw [length_strncpy]
  rw [hg] at this
  revert this
  decide

/-- The parts of the well-formedness of an instruction line. -/
theorem InstrLine.wf_parts (d : Defs) (l : InstrLine) (h : l.wf d = true) :
    isHexToken l.pc = true ∧ (∃ ty, typeTable.get? l.opcode = some ty) ∧
      (∀ o ∈ l.operands, o.wf = true) ∧
      rolesCover (storedRoles d l.opcode) l.operands.length = true ∧
      (∀ m a, l.mem = some (m, a) → isMarker m = true ∧ isHexToken a = true ∧
        (accessKind l.opcode = 'L' ∨ accessKind l.opcode = 'S')) := by
  simp only [InstrLine.wf, Bool.and_eq_true, List.all_eq_true] at h
  obtain ⟨⟨⟨⟨h1, h2⟩, h3⟩, h4⟩, h5⟩ := h
  refine ⟨h1, Option.isSome_iff_exists.mp h2, h3, h4, ?_⟩
  intro m a e
  rw [e] at h5
  have := h5
  simp only [Bool.and_eq_true, Bool.or_eq_true, beq_iff_eq] at this
  exact ⟨this.1.1, this.1.2, this.2⟩

theorem length_joinTokens_append (ts us : List Str) :
    (joinTokens ts).length ≤ (joinTokens (ts ++ us)).length := by
  induction ts with
  | nil => simp [joinTokens]
  | cons t ts ih =>
    cases ts with
    | nil =>
      cases us with
      | nil => simp
      | cons u us => simp [joinTokens]
    | cons v vs =>
      have ih' : (joinTokens (v :: vs)).length ≤ (joinTokens (v :: (vs ++ us))).length := ih
      show (t ++ ' ' :: joinTokens (v :: vs)).length ≤
        (t ++ ' ' :: joinTokens (v :: (vs ++ us))).length
      simp only [List.length_append, List.length_cons]
      omega

/-- At the end marker the operand scan stops with what it has. -/
theorem scanOperands_end (d : Defs) (line : Str) (acc : List Str) (fuel : Nat) :
    scanOperands d line (fuel + 1) none acc = .ok (some ⟨acc, false, none⟩) := by
  rw [scanOperands]
  by_cases h : acc.length < d.MAX_OPERANDS
  · simp [h, parseNext, bind, Except.bind, pure, Except.pure]
  · simp [h, pure, Except.pure]

/-- Before a memory marker the operand scan marks memory accessed when it
has room for another turn; otherwise it stops without reading the marker. -/
theorem scanOperands_marker (d : Defs) (pre m a : Str) (acc : List Str) (fuel : Nat)
    (hm : isMarker m = true) :
    scanOperands d (pre ++ joinTokens [m, a]) (fuel + 1) (some pre.length) acc =
      .ok (some ⟨acc, decide (acc.length < d.MAX_OPERANDS),
        if acc.length < d.MAX_OPERANDS then cursorOf (advance pre m [a]) [a]
        else some pre.length⟩) := by
  obtain ⟨hs, hne, hn, hat⟩ := marker_facts m hm
  have hr : ¬ ('a'.toNat ≤ '@'.toNat ∧ '@'.toNat ≤ 'z'.toNat) := by decide
  rw [scanOperands]
  by_cases h : acc.length < d.MAX_OPERANDS
  · simp only [h, if_true, parseNext_token pre m [a] hs, hn, Except.map, bind, Except.bind, hne,
      if_false, index, Nat.zero_le, hr, hat, pure, Except.pure, decide_True]
  · simp only [h, if_false, pure, Except.pure, decide_False]

/-- The operand scan of a well-formed line, started before its operand
tokens with room for them. -/
theorem scanOperands_wf (d : Defs) (l : InstrLine) (h : l.wf d = true) (pre : Str)
    (fuel : Nat) :
    ∃ cur, scanOperands d (pre ++ joinTokens (l.operands.map Operand.raw ++ memTokens l.mem))
          (fuel + 1 + 1 + l.operands.length)
          (cursorOf pre (l.operands.map Operand.raw ++ memTokens l.mem)) [] =
        .ok (some ⟨l.operands.map Operand.reg, l.markerSeen d, cur⟩) ∧
      ∀ m a, l.mem = some (m, a) → l.markerSeen d = true →
        parseNext (pre ++ joinTokens (l.operands.map Operand.raw ++ memTokens l.mem)) cur =
          .ok (a, none) := by
  obtain ⟨hpc, ⟨ty, hty⟩, hops, hroles, hmem⟩ := InstrLine.wf_parts d l h
  have hle : l.operands.length ≤ d.MAX_OPERANDS := rolesCover_le _ _ _ hroles
  obtain ⟨pre', e, hscan⟩ := scanOperands_operands d l.operands (memTokens l.mem) pre []
    (fuel + 1 + 1) hops (by simpa using hle)
  rw [hscan, e]
  simp only [List.nil_append]
  cases hm : l.mem with
  | none =>
    refine ⟨none, ?_, fun m a e' => by simp at e'⟩
    simp only [memTokens, cursorOf, InstrLine.markerSeen, hm, Option.isSome_none, Bool.false_and]
    exact scanOperands_end d _ _ (fuel + 1)
  | some ma =>
    obtain ⟨m, a⟩ := ma
    obtain ⟨hmk, hax, _⟩ := hmem m a hm
    obtain ⟨has, hane, han, _⟩ := hexToken_facts a hax
    refine ⟨if l.operands.length < d.MAX_OPERANDS then cursorOf (advance pre' m [a]) [a]
        else some pre'.length, ?_, ?_⟩
    · simp only [memTokens, cursorOf_cons]
      rw [scanOperands_marker d pre' m a _ (fuel + 1) hmk]
      simp [InstrLine.markerSeen, hm, cursorOf_cons]
    · intro m' a' e' hseen
      simp only [Option.some.injEq, Prod.mk.injEq] at e'
      obtain ⟨rfl, rfl⟩ := e'
      have hlt : l.operands.length < d.MAX_OPERANDS := by
        simpa [InstrLine.markerSeen, hm] using hseen
      simp only [hlt, if_true, memTokens, cursorOf_cons]
      rw [join_advance pre' m [a], parseNext_token (advance pre' m [a]) a [] has, han]
      rfl

/-- The tokenising part of `parseInstr` on a well-formed line: the fields
are those of the anatomy; memory is marked accessed when the scan reaches the
marker. -/
theorem scanInstr_wf (d : Defs) (l : InstrLine) (h : l.wf d = true) :
    scanInstr d l.text =
      .ok ⟨l.pc, l.opcode, l.operands.map Operand.reg, l.markerSeen d,
        match l.mem with
        | none => []
        | some (_, a) => if l.markerSeen d then a else []⟩ := by
  obtain ⟨hpc, ⟨ty, hty⟩, hops, hroles, hmem⟩ := InstrLine.wf_parts d l h
  obtain ⟨pcs, pcne, pcn, _⟩ := hexToken_facts l.pc hpc
  obtain ⟨ops, opne, opp, opl⟩ := opcode_names l.opcode (Table.get?_mem_keys _ _ _ hty)
  generalize hrest : l.operands.map Operand.raw ++ memTokens l.mem = rest
  have htext : l.text = "@I ".toList ++ joinTokens (l.pc :: l.opcode :: rest) := by
    rw [← hrest]; rfl
  generalize hp1 : advance "@I ".toList l.pc (l.opcode :: rest) = pre1
  generalize hp2 : advance pre1 l.opcode rest = pre2
  have h1 : parseNext l.text (some 3) = .ok (l.pc, some pre1.length) := by
    have := parseNext_token "@I ".toList l.pc (l.opcode :: rest) pcs
    rw [pcn, hp1] at this
    rw [htext]
    exact this
  have e1 : l.text = pre1 ++ joinTokens (l.opcode :: rest) := by
    rw [htext, join_advance, hp1]
  have h2 : parseNext l.text (some pre1.length) = .ok (l.opcode, cursorOf pre2 rest) := by
    rw [e1, parseNext_token pre1 l.opcode rest ops, normalize_plain l.opcode opp opne opl, hp2]
    rfl
  have e2 : l.text = pre2 ++ joinTokens rest := by
    rw [e1, join_advance, hp2]
  have hlen : l.operands.length ≤ l.text.length := by
    have hne : ∀ t ∈ l.operands.map Operand.raw, t ≠ [] := by
      intro t ht
      obtain ⟨o, ho, rfl⟩ := List.mem_map.mp ht
      exact (Operand.registerToken o (hops o ho)).2.1
    have := length_joinTokens _ hne
    have hsub : (joinTokens (l.operands.map Operand.raw)).length ≤ (joinTokens rest).length := by
      rw [← hrest]
      exact length_joinTokens_append _ _
    rw [e2]
    simp only [List.length_append, List.length_map] at this ⊢
    omega
  obtain ⟨cur, hscan, haddr⟩ :=
    scanOperands_wf d l h pre2 (l.text.length - l.operands.length)
  have hfuel : l.text.length - l.operands.length + 1 + 1 + l.operands.length =
      l.text.length + 2 := by omega
  rw [hrest, ← e2] at hscan haddr
  rw [hfuel] at hscan
  unfold scanInstr
  simp only [h1, h2, hscan, bind, Except.bind, Option.getD]
  cases hm : l.mem with
  | none =>
    have hseen : l.markerSeen d = false := by simp [InstrLine.markerSeen, hm]
    simp [hseen, pure, Except.pure]
  | some ma =>
    obtain ⟨m, a⟩ := ma
    cases hseen : l.markerSeen d with
    | true => simp [haddr m a hm hseen, pure, Except.pure]
    | false => simp [pure, Except.pure]

/-! ## The assignments of `parseInstr` on a well-formed line -/

theorem range_map_update (f : Nat → Nat) (n v : Nat) :
    (List.range (n + 1)).map (Function.update f n v) = (List.range n).map f ++ [v] := by
  rw [List.range_succ, List.map_append]
  congr 1
  · apply List.map_congr_left
    intro i hi
    have : i ≠ n := by
      have := List.mem_range.mp hi
      omega
    simp [Function.update, this]
  · simp

/-- The role loop over recognised registers whose positions hold `W` or
`R`: `regMap` is left as it is, and the reads and writes are appended to the
two sets in operand order. -/
theorem assignRoles_wf (syn : Str) (ops : List Operand) :
    ∀ (i : Nat) (r : Roles), (∀ o ∈ ops, o.wf = true) → r.regMap = initRegMap →
      (∀ j, j < ops.length → syn.getD (i + j) NUL = 'W' ∨ syn.getD (i + j) NUL = 'R') →
      ∃ r', assignRoles syn (ops.map Operand.reg) i r = .ok r' ∧ r'.regMap = initRegMap ∧
        (List.range r'.reg_read_count).map r'.regRead =
          (List.range r.reg_read_count).map r.regRead ++ regsWithRole 'R' syn i ops ∧
        (List.range r'.reg_write_count).map r'.regWrite =
          (List.range r.reg_write_count).map r.regWrite ++ regsWithRole 'W' syn i ops := by
  induction ops with
  | nil =>
    intro i r _ hr _
    exact ⟨r, rfl, hr, by simp [regsWithRole], by simp [regsWithRole]⟩
  | cons o os ih =>
    intro i r hwf hr hroles
    obtain ⟨v, hv⟩ := Operand.wf_get? o (hwf o (List.mem_cons_self _ _))
    have hsub : r.regMap.subscript o.reg 0 = (v, r.regMap) := by
      rw [hr]; exact Table.subscript_of_get? _ _ _ _ hv
    have hwf' : ∀ x ∈ os, x.wf = true := fun x hx => hwf x (List.mem_cons_of_mem _ hx)
    have hroles' : ∀ j, j < os.length →
        syn.getD (i + 1 + j) NUL = 'W' ∨ syn.getD (i + 1 + j) NUL = 'R' := by
      intro j hj
      have := hroles (j + 1) (by simp only [List.length_cons]; omega)
      rwa [show i + (j + 1) = i + 1 + j by omega] at this
    have h0 := hroles 0 (by simp)
    simp only [Nat.add_zero] at h0
    simp only [List.map_cons, assignRoles, hsub]
    rcases h0 with hW | hR
    · have hnR : ¬ ('W' = 'R') := by decide
      obtain ⟨r', h1, h2, h3, h4⟩ := ih (i + 1)
        { r with regMap := r.regMap
                 regWrite := Function.update r.regWrite r.reg_write_count v
                 reg_write_count := r.reg_write_count + 1 } hwf' hr hroles'
      refine ⟨r', ?_, h2, ?_, ?_⟩
      · simp only [hW, if_true]; exact h1
      · rw [h3]; simp only [regsWithRole, hW, hnR, if_false]
      · rw [h4, range_map_update]
        simp only [regsWithRole, hW, if_true, hv, Option.getD_some, List.append_assoc,
          List.singleton_append]
    · have hnW : ¬ ('R' = 'W') := by decide
      obtain ⟨r', h1, h2, h3, h4⟩ := ih (i + 1)
        { r with regMap := r.regMap
                 regRead := Function.update r.regRead r.reg_read_count v
                 reg_read_count := r.reg_read_count + 1 } hwf' hr hroles'
      refine ⟨r', ?_, h2, ?_, ?_⟩
      · simp only [hR, hnW, if_false, if_true]; exact h1
      · rw [h3, range_map_update]
        simp only [regsWithRole, hR, if_true, hv, Option.getD_some, List.append_assoc,
          List.singleton_append]
      · rw [h4]; simp only [regsWithRole, hR, hnW, if_false]

/-- The assigning part of `parseInstr` when every table has the entry it
reads and the role loop leaves `regMap` as it is: only `instr` changes. -/
theorem fillInstr_core (d : Defs) (st : RiscvStream) (f : Fields) (ty : ExecutionType)
    (b pcv : Nat) (syn : Str) (r' : Roles)
    (hty : st.opcodeToTypeMap.get? f.opcode = some ty) (hnat : ty ≠ .Atomic)
    (hpc : stoull f.pc 16 = .ok pcv)
    (hb : st.bytesMap.get? f.opcode = some b)
    (hs : st.syntaxMap.get? f.opcode = some syn)
    (hr : assignRoles syn f.operands 0 ⟨st.regMap, st.instr.regRead, st.instr.regWrite, 0, 0⟩ =
      .ok r')
    (hrm : r'.regMap = st.regMap) :
    (f.mem_accessed = false →
      fillInstr d st f = .ok { st with instr :=
        { st.instr with pc := pcv, bytes := b, executionType := ty
                        regRead := r'.regRead, regWrite := r'.regWrite
                        regReadCount := r'.reg_read_count, regWriteCount := r'.reg_write_count
                        memLoadCount := 0, memStoreCount := 0 } }) ∧
    (∀ base len, f.mem_accessed = true → st.memAccessMap.get? f.opcode = some 'L' →
      stoull f.mem_address 16 = .ok base → st.memLengthMap.get? f.opcode = some len →
      fillInstr d st f = .ok { st with instr :=
        { st.instr with pc := pcv, bytes := b, executionType := ty
                        regRead := r'.regRead, regWrite := r'.regWrite
                        regReadCount := r'.reg_read_count, regWriteCount := r'.reg_write_count
                        memStoreCount := 0, memLoadCount := 1
                        memLoadBase := base, memLoadLength := len } }) ∧
    (∀ base len, f.mem_accessed = true → st.memAccessMap.get? f.opcode = some 'S' →
      stoull f.mem_address 16 = .ok base → st.memLengthMap.get? f.opcode = some len →
      fillInstr d st f = .ok { st with instr :=
        { st.instr with pc := pcv, bytes := b, executionType := ty
                        regRead := r'.regRead, regWrite := r'.regWrite
                        regReadCount := r'.reg_read_count, regWriteCount := r'.reg_write_count
                        memLoadCount := 0, memStoreCount := 1
                        memStoreBase := base, memStoreLength := len } }) := by
  have hcount : ¬ (st.opcodeToTypeMap.count f.opcode = 0) := by
    rw [Table.count_of_get? _ _ _ hty]; decide
  have hL : ¬ ('L' = NUL) := by decide
  have hS : ¬ ('S' = NUL) := by decide
  have hSL : ¬ ('S' = 'L') := by decide
  refine ⟨fun hm => ?_, fun base len hm ha hbase hlen => ?_, fun base len hm ha hbase hlen => ?_⟩
  · simp only [fillInstr, hcount, if_false, hpc, Table.subscript_of_get? _ _ _ _ hb,
      Table.subscript_of_get? _ _ _ _ hty, Table.subscript_of_get? _ _ _ _ hs, hnat, hr, hm,
      bind, Except.bind, pure, Except.pure]
    rw [hrm]
    rfl
  · simp only [fillInstr, hcount, if_false, hpc, Table.subscript_of_get? _ _ _ _ hb,
      Table.subscript_of_get? _ _ _ _ hty, Table.subscript_of_get? _ _ _ _ hs, hnat, hr, hm,
      Table.subscript_of_get? _ _ _ _ ha, Table.subscript_of_get? _ _ _ _ hlen, hbase, hL,
      if_true, bind, Except.bind, pure, Except.pure]
    rw [hrm]
  · simp only [fillInstr, hcount, if_false, hpc, Table.subscript_of_get? _ _ _ _ hb,
      Table.subscript_of_get? _ _ _ _ hty, Table.subscript_of_get? _ _ _ _ hs, hnat, hr, hm,
      Table.subscript_of_get? _ _ _ _ ha, Table.subscript_of_get? _ _ _ _ hlen, hbase, hS, hSL,
      if_true, bind, Except.bind, pure, Except.pure]
    rw [hrm]

/-- No opcode of `initMaps` is of the atomic class. -/
theorem no_atomic_opcode : ∀ k ∈ typeTable.keys, typeTable.get? k ≠ some .Atomic := by
  decide

/-- The assigning part of `parseInstr` on the fields of a well-formed line,
on a stream whose tables are those of `initMaps`: only `instr` changes, its
decoded content is that of the line, and the three annotation fields keep
their values. -/
theorem fillInstr_wf (d : Defs) (st : RiscvStream) (l : InstrLine) (h : l.wf d = true)
    (ht : tablesInitial d st) :
    ∃ i, fillInstr d st ⟨l.pc, l.opcode, l.operands.map Operand.reg, l.markerSeen d,
          match l.mem with
          | none => []
          | some (_, a) => if l.markerSeen d then a else []⟩ = .ok { st with instr := i } ∧
      i.decoded = l.decoded d ∧ i.fetchCycles = st.instr.fetchCycles ∧
      i.mispredicted = st.instr.mispredicted ∧ i.lsCycles = st.instr.lsCycles := by
  obtain ⟨hpc, ⟨ty, hty⟩, hops, hroles, hmem⟩ := InstrLine.wf_parts d l h
  obtain ⟨_, _, _, hpcv⟩ := hexToken_facts l.pc hpc
  have hkey := Table.get?_mem_keys _ _ _ hty
  obtain ⟨hb, hr, ha⟩ := registered_everywhere l.opcode hkey
  obtain ⟨b, hb⟩ := Option.isSome_iff_exists.mp hb
  obtain ⟨role, hr⟩ := Option.isSome_iff_exists.mp hr
  obtain ⟨acc, ha⟩ := Option.isSome_iff_exists.mp ha
  have hnat : ty ≠ .Atomic := fun e => no_atomic_opcode l.opcode hkey (by rw [hty, e])
  have hsyn : (initOpcodeTables d).syntaxMap.get? l.opcode = some (storedRoles d l.opcode) := by
    rw [syntaxMap_get?, hr]; simp [storedRoles, hr]
  obtain ⟨r', hr1, hr2, hr3, hr4⟩ := assignRoles_wf (storedRoles d l.opcode) l.operands 0
    ⟨st.regMap, st.instr.regRead, st.instr.regWrite, 0, 0⟩ hops ht.1
    (fun j hj => by
      simpa using rolesCover_spec _ _ hroles j hj)
  simp only [List.range_zero, List.map_nil, List.nil_append] at hr3 hr4
  obtain ⟨e1, e2, e3, e4, e5, e6⟩ := ht
  have hty' : st.opcodeToTypeMap.get? l.opcode = some ty := by rw [e2]; exact hty
  have hb' : st.bytesMap.get? l.opcode = some b := by rw [e6]; exact hb
  have hs' : st.syntaxMap.get? l.opcode = some (storedRoles d l.opcode) := by rw [e3]; exact hsyn
  have hacc : accessKind l.opcode = acc := by simp only [accessKind, ha, Option.getD_some]
  have core := fillInstr_core d st ⟨l.pc, l.opcode, l.operands.map Operand.reg, l.markerSeen d,
          match l.mem with
          | none => []
          | some (_, a) => if l.markerSeen d then a else []⟩ ty b (hexTokenValue l.pc)
          (storedRoles d l.opcode) r' hty' hnat hpcv hb' hs' hr1 (hr2.trans e1.symm)
  have hdec : ∀ i : Instruction, i.pc = hexTokenValue l.pc → i.bytes = b → i.executionType = ty →
      i.readSet = regsWithRole 'R' (storedRoles d l.opcode) 0 l.operands →
      i.writeSet = regsWithRole 'W' (storedRoles d l.opcode) 0 l.operands →
      i.memLoad = l.descriptor d 'L' → i.memStore = l.descriptor d 'S' →
      i.decoded = l.decoded d := by
    intro i h1 h2 h3 h4 h5 h6 h7
    simp only [Instruction.decoded, InstrLine.decoded, h1, h2, h3, h4, h5, h6, h7, hb, hty,
      Option.getD_some]
  rcases Bool.eq_false_or_eq_true (l.markerSeen d) with hseen | hseen
  swap
  · refine ⟨_, core.1 hseen, ?_, rfl, rfl, rfl⟩
    refine hdec _ rfl rfl rfl hr3 hr4 ?_ ?_
    · simp only [Instruction.memLoad, if_true, InstrLine.descriptor, hseen]
      cases l.mem <;> simp
    · simp only [Instruction.memStore, if_true, InstrLine.descriptor, hseen]
      cases l.mem <;> simp
  · obtain ⟨m, a, hm⟩ : ∃ m a, l.mem = some (m, a) := by
      cases hm : l.mem with
      | none => simp [InstrLine.markerSeen, hm] at hseen
      | some ma => exact ⟨ma.1, ma.2, rfl⟩
    · obtain ⟨_, hax, hkind⟩ := hmem m a hm
      obtain ⟨_, _, _, hav⟩ := hexToken_facts a hax
      have hnn : accessTable.get? l.opcode ≠ some NUL := by
        rw [ha]
        rcases hkind with e | e <;> · rw [hacc] at e; rw [e]; decide
      obtain ⟨len, hlen⟩ := Option.isSome_iff_exists.mp
        (access_has_length l.opcode (Table.get?_mem_keys _ _ _ ha) hnn)
      have hlen' : st.memLengthMap.get? l.opcode = some len := by rw [e5]; exact hlen
      have haddr : stoull (match l.mem with
          | none => []
          | some (_, a) => if l.markerSeen d then a else []) 16 = .ok (hexTokenValue a) := by
        simp only [hm, hseen, if_true]; exact hav
      rcases hkind with hk | hk
      · have ha' : st.memAccessMap.get? l.opcode = some 'L' := by
          rw [e4]; show accessTable.get? l.opcode = some 'L'; rw [ha, ← hacc, hk]
        refine ⟨_, core.2.1 _ len hseen ha' haddr hlen', ?_, rfl, rfl, rfl⟩
        refine hdec _ rfl rfl rfl hr3 hr4 ?_ ?_
        · simp [Instruction.memLoad, InstrLine.descriptor, hm, hseen, hk, hlen]
        · simp [Instruction.memStore, InstrLine.descriptor, hm, hseen, hk]
      · have ha' : st.memAccessMap.get? l.opcode = some 'S' := by
          rw [e4]; show accessTable.get? l.opcode = some 'S'; rw [ha, ← hacc, hk]
        refine ⟨_, core.2.2 _ len hseen ha' haddr hlen', ?_, rfl, rfl, rfl⟩
        refine hdec _ rfl rfl rfl hr3 hr4 ?_ ?_
        · simp [Instruction.memLoad, InstrLine.descriptor, hm, hseen, hk]
        · simp [Instruction.memStore, InstrLine.descriptor, hm, hseen, hk, hlen]

/-- `parseInstr` on a well-formed line, on a stream whose tables are those of
`initMaps`: it succeeds, only `instr` changes, its decoded content is that of
the line, and the three annotation fields keep their values. -/
theorem parseInstr_wf (d : Defs) (st : RiscvStream) (l : InstrLine) (h : l.wf d = true)
    (ht : tablesInitial d st) :
    ∃ i, parseInstr d st l.text = .ok { st with instr := i } ∧
      i.decoded = l.decoded d ∧ i.fetchCycles = st.instr.fetchCycles ∧
      i.mispredicted = st.instr.mispredicted ∧ i.lsCycles = st.instr.lsCycles := by
  obtain ⟨i, hi, rest⟩ := fillInstr_wf d st l h ht
  refine ⟨i, ?_, rest⟩
  simp only [parseInstr, scanInstr_wf d l h, bind, Except.bind]
  exact hi

/-! ## One pull -/

/-- The loop over the file does not depend on the `traceFile` member of the
stream it is given: the lines are passed separately. -/
theorem nextFromFile_traceFile (d : Defs) (file : List Str) :
    ∀ (st : RiscvStream) (x : List Str) (log : List Warning),
      nextFromFile d file { st with traceFile := x } log = nextFromFile d file st log := by
  induction file with
  | nil => intro st x log; rfl
  | cons line file ih =>
    intro st x log
    simp only [nextFromFile]
    split_ifs
    · rfl
    · exact ih st x _
    · rfl

/-- Replaying a non-empty line from the lookahead buffer is reading it from
the source: the pull gives what it gives on the stream whose file starts
with that line and whose buffer is empty. -/
theorem next_replay (d : Defs) (st : RiscvStream) (hr : st.readFromFile = false)
    (hl : st.lastInstrLine ≠ []) :
    next d st =
      next d { st with readFromFile := true, traceFile := st.lastInstrLine :: st.traceFile } := by
  simp only [next, hr, hl, if_false, if_true, nextFromFile, Bool.false_eq_true, List.nil_append]
  split_ifs
  · rfl
  · exact (nextFromFile_traceFile d st.traceFile { st with readFromFile := true }
      (st.lastInstrLine :: st.traceFile) _).symm
  · rfl

/-- The pull on an instruction line when fetch- and branch-tracing are off,
given what `parseInstr` leaves: the four ways the memory annotation goes. -/
theorem onInstrLine_of_parse (d : Defs) (st : RiscvStream) (line : Str) (log : List Warning)
    (i : Instruction) (hp : parseInstr d st line = .ok { st with instr := i })
    (hic : st.traceICache = false) (hbp : st.traceBP = false) :
    ((st.traceDCache = false ∨ ¬ accessesMemory i.executionType) →
      onInstrLine d st line log =
        .ok ⟨some i, { st with instr := i, lastInstrLine := line }, log⟩) ∧
    (st.traceDCache = true → accessesMemory i.executionType → st.traceFile = [] →
      onInstrLine d st line log =
        .ok ⟨some { i with lsCycles := 1 },
          { st with instr := { i with lsCycles := 1 }, lastInstrLine := [],
                    readFromFile := false, traceFile := [] },
          log ++ [Warning.expectingMemoryCycles line]⟩) ∧
    (∀ ml file, st.traceDCache = true → accessesMemory i.executionType →
      st.traceFile = ml :: file → beginsWith ml "@M " = false →
      onInstrLine d st line log =
        .ok ⟨some { i with lsCycles := 1 },
          { st with instr := { i with lsCycles := 1 }, lastInstrLine := ml,
                    readFromFile := false, traceFile := file },
          log ++ [Warning.expectingMemoryCycles line]⟩) ∧
    (∀ ml file c, st.traceDCache = true → accessesMemory i.executionType →
      st.traceFile = ml :: file → beginsWith ml "@M " = true →
      parseMemoryCycles d ml = .ok c →
      onInstrLine d st line log =
        .ok ⟨some { i with lsCycles := c },
          { st with instr := { i with lsCycles := c }, lastInstrLine := line,
                    traceFile := file }, log⟩) := by
  refine ⟨fun h => ?_, fun hdc hm hf => ?_, fun ml file hdc hm hf hb => ?_,
    fun ml file c hdc hm hf hb hc => ?_⟩
  · rcases h with h | h
    · simp [onInstrLine, hp, hic, hbp, h, bind, Except.bind, pure, Except.pure]
    · have h' : ¬ (i.executionType = .Load ∨ i.executionType = .Store ∨
          i.executionType = .Atomic) := h
      simp [onInstrLine, hp, hic, hbp, h', bind, Except.bind, pure, Except.pure]
  · have h' : i.executionType = .Load ∨ i.executionType = .Store ∨
        i.executionType = .Atomic := hm
    simp [onInstrLine, hp, hic, hbp, hdc, h', hf, getline, beginsWith, bind, Except.bind, pure,
      Except.pure]
  · have h' : i.executionType = .Load ∨ i.executionType = .Store ∨
        i.executionType = .Atomic := hm
    simp [onInstrLine, hp, hic, hbp, hdc, h', hf, getline, hb, bind, Except.bind, pure,
      Except.pure]
  · have h' : i.executionType = .Load ∨ i.executionType = .Store ∨
        i.executionType = .Atomic := hm
    simp [onInstrLine, hp, hic, hbp, hdc, h', hf, getline, hb, hc, bind, Except.bind, pure,
      Except.pure]

/-! ## Pulls over a well-formed trace -/

theorem text_instr_tag (l : InstrLine) : beginsWith l.text "@I " = true := by
  simp [beginsWith, InstrLine.text]

theorem text_annotation_tag (t : TraceLine) (h : ∀ l, t ≠ .instr l) :
    beginsWith t.text "@I " = false ∧ isStray t.text = true := by
  cases t with
  | instr l => exact absurd rfl (h l)
  | fetch x => simp [isStray, beginsWith, TraceLine.text, List.isPrefixOf]
  | branch x => simp [isStray, beginsWith, TraceLine.text, List.isPrefixOf]
  | memory x => simp [isStray, beginsWith, TraceLine.text, List.isPrefixOf]

theorem text_memory_tag (t : TraceLine) (h : ∀ x, t ≠ .memory x) :
    beginsWith t.text "@M " = false := by
  cases t with
  | instr l => simp [beginsWith, TraceLine.text, InstrLine.text, List.isPrefixOf]
  | fetch x => simp [beginsWith, TraceLine.text, List.isPrefixOf]
  | branch x => simp [beginsWith, TraceLine.text, List.isPrefixOf]
  | memory x => exact absurd rfl (h x)

theorem text_memory (x : Str) : beginsWith (TraceLine.memory x).text "@M " = true := by
  simp [beginsWith, TraceLine.text]

theorem text_ne_nil (t : TraceLine) : t.text ≠ [] := by
  cases t <;> simp [TraceLine.text, InstrLine.text]

theorem Ready.of_tables (d : Defs) (st st' : RiscvStream) (h : Ready d st)
    (e1 : st'.regMap = st.regMap) (e2 : st'.opcodeToTypeMap = st.opcodeToTypeMap)
    (e3 : st'.syntaxMap = st.syntaxMap) (e4 : st'.memAccessMap = st.memAccessMap)
    (e5 : st'.memLengthMap = st.memLengthMap) (e6 : st'.bytesMap = st.bytesMap)
    (e7 : st'.traceICache = st.traceICache) (e8 : st'.traceBP = st.traceBP)
    (e9 : st'.traceDCache = st.traceDCache) : Ready d st' := by
  obtain ⟨⟨t1, t2, t3, t4, t5, t6⟩, hic, hbp, hdc⟩ := h
  refine ⟨⟨?_, ?_, ?_, ?_, ?_, ?_⟩, ?_, ?_, ?_⟩
  · rw [e1]; exact t1
  · rw [e2]; exact t2
  · rw [e3]; exact t3
  · rw [e4]; exact t4
  · rw [e5]; exact t5
  · rw [e6]; exact t6
  · rw [e7]; exact hic
  · rw [e8]; exact hbp
  · rw [e9]; exact hdc

/-- Decoding content does not depend on the memory-access cycle count. -/
theorem decoded_lsCycles (i : Instruction) (c : Nat) :
    ({ i with lsCycles := c } : Instruction).decoded = i.decoded := rfl

/-- A pull that starts on a well-formed instruction line, on a stream that
holds the well-formed lines `ts` after it: it returns an instruction with
the decoded content of the line and leaves a stream that holds lines with
the same instruction lines as `ts`. -/
theorem onInstrLine_wf (d : Defs) (st : RiscvStream) (l : InstrLine) (ts : List TraceLine)
    (log : List Warning) (hr : Ready d st) (hrf : st.readFromFile = true)
    (h : l.wf d = true) (hts : ∀ t ∈ ts, t.wf d = true)
    (hf : st.traceFile = ts.map TraceLine.text) :
    ∃ p rem', onInstrLine d st l.text log = .ok p ∧
      (∃ i, p.result = some i ∧ i.decoded = l.decoded d) ∧ Holds p.stream rem' ∧
      instrLines rem' = instrLines ts ∧ (∀ t ∈ rem', t.wf d = true) ∧ Ready d p.stream := by
  obtain ⟨i, hp, hdec, _, _, _⟩ := parseInstr_wf d st l h hr.1
  obtain ⟨hA, hB, hC, hD⟩ := onInstrLine_of_parse d st l.text log i hp hr.2.1 hr.2.2.1
  by_cases hcase : st.traceDCache = false ∨ ¬ accessesMemory i.executionType
  · refine ⟨_, ts, hA hcase, ⟨i, rfl, hdec⟩, Or.inl ⟨hrf, hf⟩, rfl, hts, ?_⟩
    exact Ready.of_tables d st _ hr rfl rfl rfl rfl rfl rfl rfl rfl rfl
  · have hdc : st.traceDCache = true := by
      cases hx : st.traceDCache with
      | true => rfl
      | false => exact absurd (Or.inl hx) hcase
    have hm : accessesMemory i.executionType := by
      by_contra hn; exact hcase (Or.inr hn)
    cases ts with
    | nil =>
      refine ⟨_, [], hB hdc hm (by simpa using hf), ⟨_, rfl, hdec⟩,
        Or.inr (Or.inr ⟨rfl, rfl, rfl, rfl⟩), rfl, by simp, ?_⟩
      exact Ready.of_tables d st _ hr rfl rfl rfl rfl rfl rfl rfl rfl rfl
    | cons t ts' =>
      have hf' : st.traceFile = t.text :: ts'.map TraceLine.text := by simpa using hf
      by_cases hmem : ∃ x, t = .memory x
      · obtain ⟨x, rfl⟩ := hmem
        have hx : isDecimalField x = true := hts _ (List.mem_cons_self _ _)
        simp only [isDecimalField, Bool.and_eq_true, bne_iff_ne, ne_eq, decide_eq_true_eq] at hx
        have hc := (parseCycles_digits d (hr.2.2.2 hdc) x hx.1.1 hx.1.2 hx.2 "@M ".toList rfl).2
        refine ⟨_, ts', hD _ _ _ hdc hm hf' (text_memory x) hc, ⟨_, rfl, hdec⟩,
          Or.inl ⟨hrf, rfl⟩, rfl, fun y hy => hts y (List.mem_cons_of_mem _ hy), ?_⟩
        exact Ready.of_tables d st _ hr rfl rfl rfl rfl rfl rfl rfl rfl rfl
      · have hnm : ∀ x, t ≠ .memory x := fun x e => hmem ⟨x, e⟩
        refine ⟨_, t :: ts', hC _ _ hdc hm hf' (text_memory_tag t hnm), ⟨_, rfl, hdec⟩,
          Or.inr (Or.inl ⟨rfl, t, ts', rfl, rfl, rfl⟩), rfl, hts, ?_⟩
        exact Ready.of_tables d st _ hr rfl rfl rfl rfl rfl rfl rfl rfl rfl

theorem nextFromFile_wf (d : Defs) (rem : List TraceLine) :
    ∀ (st : RiscvStream) (log : List Warning), Ready d st → st.readFromFile = true →
      (∀ t ∈ rem, t.wf d = true) →
      PullOutcome d rem (nextFromFile d (rem.map TraceLine.text) st log) := by
  induction rem with
  | nil =>
    intro st log hr hrf _
    refine ⟨_, rfl, rfl, Or.inl ⟨hrf, rfl⟩, ?_⟩
    exact Ready.of_tables d st _ hr rfl rfl rfl rfl rfl rfl rfl rfl rfl
  | cons t ts ih =>
    intro st log hr hrf hwf
    have hts : ∀ x ∈ ts, x.wf d = true := fun x hx => hwf x (List.mem_cons_of_mem _ hx)
    by_cases hi : ∃ l, t = .instr l
    · obtain ⟨l, rfl⟩ := hi
      have hl : l.wf d = true := hwf _ (List.mem_cons_self _ _)
      have hstep : nextFromFile d ((TraceLine.instr l :: ts).map TraceLine.text) st log =
          onInstrLine d { st with traceFile := ts.map TraceLine.text } l.text log := by
        simp only [List.map_cons, nextFromFile, TraceLine.text, text_instr_tag, if_true]
      rw [hstep]
      obtain ⟨p, rem', h1, h2, h3, h4, h5, h6⟩ := onInstrLine_wf d
        { st with traceFile := ts.map TraceLine.text } l ts log
        (Ready.of_tables d st _ hr rfl rfl rfl rfl rfl rfl rfl rfl rfl) hrf hl hts rfl
      exact ⟨p, rem', h1, h2, h3, h4, h5, h6⟩
    · have hni : ∀ l, t ≠ .instr l := fun l e => hi ⟨l, e⟩
      obtain ⟨ht1, ht2⟩ := text_annotation_tag t hni
      have hstep : nextFromFile d ((t :: ts).map TraceLine.text) st log =
          nextFromFile d (ts.map TraceLine.text) st
            (log ++ [Warning.ignoring t.text st.lastInstrLine]) := by
        simp only [List.map_cons, nextFromFile, ht1, ht2, if_true, Bool.false_eq_true, if_false]
      have hil : instrLines (t :: ts) = instrLines ts := by
        cases t with
        | instr l => exact absurd rfl (hni l)
        | fetch x => rfl
        | branch x => rfl
        | memory x => rfl
      rw [hstep]
      unfold PullOutcome
      rw [hil]
      exact ih st _ hr hrf hts

/-- One pull on a stream that holds well-formed lines. -/
theorem next_wf (d : Defs) (st : RiscvStream) (rem : List TraceLine) (hr : Ready d st)
    (hwf : ∀ t ∈ rem, t.wf d = true) (hh : Holds st rem) :
    PullOutcome d rem (next d st) := by
  rcases hh with ⟨hrf, hf⟩ | ⟨hrf, t, ts, rfl, hl, hf⟩ | ⟨hrf, rfl, hl, hf⟩
  · have : next d st = nextFromFile d (rem.map TraceLine.text) st [] := by
      simp only [next, hrf, if_true, hf]
    rw [this]
    exact nextFromFile_wf d rem st [] hr hrf hwf
  · rw [next_replay d st hrf (by rw [hl]; exact text_ne_nil t)]
    have : next d { st with readFromFile := true,
                            traceFile := st.lastInstrLine :: st.traceFile } =
        nextFromFile d ((t :: ts).map TraceLine.text)
          { st with readFromFile := true, traceFile := st.lastInstrLine :: st.traceFile } [] := by
      simp only [next, if_true, hl, hf, List.map_cons]
    rw [this]
    exact nextFromFile_wf d (t :: ts) _ []
      (Ready.of_tables d st _ hr rfl rfl rfl rfl rfl rfl rfl rfl rfl) rfl hwf
  · refine ⟨⟨none, { st with readFromFile := true }, []⟩, ?_, rfl, Or.inl ⟨rfl, hf⟩, ?_⟩
    · simp [next, hrf, hl]
    · exact Ready.of_tables d st _ hr rfl rfl rfl rfl rfl rfl rfl rfl rfl

/-- Successive pulls on a stream that holds well-formed lines return the
instruction lines in order, each with its decoded content, and then no
instruction. -/
theorem pulls_wf (d : Defs) (ls : List InstrLine) :
    ∀ (rem : List TraceLine) (st : RiscvStream), instrLines rem = ls → Ready d st →
      (∀ t ∈ rem, t.wf d = true) → Holds st rem → ∀ m,
      ∃ rs st', pulls d (ls.length + m) st = .ok (rs, st') ∧
        rs.map (Option.map Instruction.decoded) =
          ls.map (fun l => some (l.decoded d)) ++ List.replicate m none := by
  induction ls with
  | nil =>
    intro rem st hil hr hwf hh m
    induction m generalizing rem st with
    | zero => exact ⟨[], st, rfl, rfl⟩
    | succ m ihm =>
      have ho := next_wf d st rem hr hwf hh
      unfold PullOutcome at ho
      rw [hil] at ho
      obtain ⟨p, hp, hres, hh', hr'⟩ := ho
      obtain ⟨rs, st', hrs, hmap⟩ := ihm [] p.stream rfl hr' (by simp) hh'
      refine ⟨none :: rs, st', ?_, ?_⟩
      · simp only [List.length_nil, Nat.zero_add] at hrs ⊢
        simp only [pulls, hp, hrs, hres, bind, Except.bind, pure, Except.pure]
      · simp only [List.map_cons, Option.map_none', hmap, List.map_nil, List.nil_append,
          List.replicate_succ]
  | cons l ls ih =>
    intro rem st hil hr hwf hh m
    have ho := next_wf d st rem hr hwf hh
    unfold PullOutcome at ho
    rw [hil] at ho
    obtain ⟨p, rem', hp, ⟨i, hres, hdec⟩, hh', hil', hwf', hr'⟩ := ho
    obtain ⟨rs, st', hrs, hmap⟩ := ih rem' p.stream hil' hr' hwf' hh' m
    refine ⟨some i :: rs, st', ?_, ?_⟩
    · have : (l :: ls).length + m = (ls.length + m) + 1 := by simp only [List.length_cons]; omega
      rw [this]
      simp only [pulls, hp, hrs, hres, bind, Except.bind, pure, Except.pure]
    · simp only [List.map_cons, Option.map_some', hdec, hmap, List.cons_append]

/-! ## Role arrays -/

theorem strncpy_getD (s : Str) (n i : Nat) (hi : i < s.length) (hn : s.length ≤ n) :
    (strncpy s n).getD i NUL = s.getD i NUL := by
  have : s.take n = s := List.take_of_length_le hn
  simp only [strncpy, this]
  rw [List.getD_append _ _ _ _ hi]

theorem mem_instrLines (trace : List TraceLine) (l : InstrLine) (h : l ∈ instrLines trace) :
    TraceLine.instr l ∈ trace := by
  induction trace with
  | nil => simp [instrLines] at h
  | cons t ts ih =>
    cases t with
    | instr l' =>
      simp only [instrLines, List.mem_cons] at h
      rcases h with e | h
      · rw [e]; exact List.mem_cons_self _ _
      · exact List.mem_cons_of_mem _ (ih h)
    | fetch x => exact List.mem_cons_of_mem _ (ih h)
    | branch x => exact List.mem_cons_of_mem _ (ih h)
    | memory x => exact List.mem_cons_of_mem _ (ih h)

theorem mk0_ready (d : Defs) (trace : List Str) (dc : Bool) (instr0 : Instruction)
    (hd : dc = true → 0 < d.TICKS_PER_CYCLE) :
    Ready d (RiscvStream.mk0 d trace false false dc instr0) := by
  simp only [Ready, tablesInitial, RiscvStream.mk0, and_self, true_and]
  exact hd

/-! ## Claim C4 -/

/-- C4: with fetch- and branch-tracing off and memory-tracing on or off, the
successive pulls over a trace of well-formed lines return the instruction
lines of the trace in order, one instruction each with the decoded content
of its line, and after them no instruction; so no instruction line is
skipped or returned twice and no annotation line yields an instruction.  The
decoded content of a line is what `parseInstr` yields on it. -/
theorem pulls_trace (d : Defs) (trace : List TraceLine) (dc : Bool) (instr0 : Instruction)
    (hwf : ∀ t ∈ trace, t.wf d = true) (hd : dc = true → 0 < d.TICKS_PER_CYCLE) (m : Nat) :
    (∃ rs st', pulls d ((instrLines trace).length + m)
          (RiscvStream.mk0 d (trace.map TraceLine.text) false false dc instr0) = .ok (rs, st') ∧
        rs.map (Option.map Instruction.decoded) =
          (instrLines trace).map (fun l => some (l.decoded d)) ++ List.replicate m none) ∧
      ∀ l ∈ instrLines trace, decodeLine d l.text = .ok (l.decoded d) := by
  constructor
  · exact pulls_wf d (instrLines trace) trace _ rfl (mk0_ready d _ dc instr0 hd) hwf
      (Or.inl ⟨rfl, rfl⟩) m
  · intro l hl
    have hlw : l.wf d = true := hwf _ (mem_instrLines trace l hl)
    obtain ⟨i, hp, hdec, _⟩ := parseInstr_wf d
      (RiscvStream.mk0 d [] false false false blankInstr) l hlw
      (mk0_ready d [] false blankInstr (fun h => by cases h)).1
    simp only [decodeLine, hp, Except.map, hdec]

set_option maxRecDepth 100000 in
/-- Witness of C4: the four instruction lines of the sample trace, then the
end of the stream. -/
theorem pulls_trace_witness :
    ((∀ t ∈ sampleTrace, t.wf ⟨4, 4⟩ = true) ∧ (true = true → 0 < (⟨4, 4⟩ : Defs).TICKS_PER_CYCLE)) ∧
      ∃ rs st', pulls ⟨4, 4⟩ ((instrLines sampleTrace).length + 2)
          (RiscvStream.mk0 ⟨4, 4⟩ (sampleTrace.map TraceLine.text) false false true
            blankInstr) = .ok (rs, st') ∧
        rs.map (Option.map Instruction.decoded) =
          (instrLines sampleTrace).map (fun l => some (l.decoded ⟨4, 4⟩)) ++
            List.replicate 2 none :=
  ⟨⟨by decide, by decide⟩,
    (pulls_trace ⟨4, 4⟩ sampleTrace true blankInstr (by decide) (by decide) 2).1⟩

/-! ## Claim C1 -/

theorem memLoad_none (i : Instruction) (h : i.memLoad = none) : i.memLoadCount = 0 := by
  unfold Instruction.memLoad at h
  split_ifs at h with h0
  exact h0

theorem memStore_none (i : Instruction) (h : i.memStore = none) : i.memStoreCount = 0 := by
  unfold Instruction.memStore at h
  split_ifs at h with h0
  exact h0

theorem addLine_text (pc r1 r2 r3 : Str) :
    (addLine pc r1 r2 r3).text =
      "@I ".toList ++ pc ++ " add ".toList ++ r1 ++ ' ' :: r2 ++ ' ' :: r3 := by
  simp [addLine, InstrLine.text, InstrLine.tokens, joinTokens, memTokens, Operand.raw]

theorem storedRoles_add (d : Defs) (h : 3 ≤ d.MAX_OPERANDS) :
    (storedRoles d "add".toList).getD 0 NUL = 'W' ∧
      (storedRoles d "add".toList).getD 1 NUL = 'R' ∧
      (storedRoles d "add".toList).getD 2 NUL = 'R' := by
  have e : roleTable.get? "add".toList = some "WRR".toList := by decide
  simp only [storedRoles, e, Option.getD_some]
  refine ⟨?_, ?_, ?_⟩
  · rw [strncpy_getD _ _ _ (by decide) h]; decide
  · rw [strncpy_getD _ _ _ (by decide) h]; decide
  · rw [strncpy_getD _ _ _ (by decide) h]; decide

theorem addLine_wf (d : Defs) (h : 3 ≤ d.MAX_OPERANDS) (pc r1 r2 r3 : Str)
    (hpc : isHexToken pc = true) (v1 v2 v3 : Nat) (h1 : initRegMap.get? r1 = some v1)
    (h2 : initRegMap.get? r2 = some v2) (h3 : initRegMap.get? r3 = some v3) :
    (addLine pc r1 r2 r3).wf d = true := by
  obtain ⟨s0, s1, s2⟩ := storedRoles_add d h
  have ht : (typeTable.get? "add".toList).isSome = true := by decide
  simp only [InstrLine.wf, addLine, hpc, ht, List.all_cons, List.all_nil, Operand.wf, h1, h2, h3,
    Option.isSome_some, Bool.and_self, Bool.true_and, Bool.and_true]
  simp only [rolesCover, List.length_cons, List.length_nil, List.all_eq_true, List.mem_range,
    Bool.or_eq_true, beq_iff_eq]
  intro i hi
  have : i = 0 ∨ i = 1 ∨ i = 2 := by omega
  rcases this with rfl | rfl | rfl
  · exact Or.inl s0
  · exact Or.inr s1
  · exact Or.inr s2

theorem addLine_decoded (d : Defs) (h : 3 ≤ d.MAX_OPERANDS) (pc r1 r2 r3 : Str)
    (v1 v2 v3 : Nat) (h1 : initRegMap.get? r1 = some v1)
    (h2 : initRegMap.get? r2 = some v2) (h3 : initRegMap.get? r3 = some v3) :
    (addLine pc r1 r2 r3).decoded d =
      ⟨hexTokenValue pc, 4, .IntBase, [v2, v3], [v1], none, none⟩ := by
  obtain ⟨s0, s1, s2⟩ := storedRoles_add d h
  have ht : typeTable.get? "add".toList = some .IntBase := by decide
  have hb : bytesTable.get? "add".toList = some 4 := by decide
  have hWR : ¬ ('W' = 'R') := by decide
  have hRW : ¬ ('R' = 'W') := by decide
  simp only [InstrLine.decoded, addLine, ht, hb, Option.getD_some, regsWithRole, s0, s1, s2,
    Operand.reg, h1, h2, h3, hWR, hRW, if_true, if_false, InstrLine.descriptor, Nat.zero_add]

/-- The first turn of a pull on a stream that reads from a file whose first
line is a well-formed instruction line: the four ways it goes on, by the
class of the instruction and the line that follows. -/
theorem next_instr_line (d : Defs) (st : RiscvStream) (l : InstrLine) (file : List Str)
    (hr : Ready d st) (hrf : st.readFromFile = true) (hf : st.traceFile = l.text :: file)
    (h : l.wf d = true) :
    ∃ i, i.decoded = l.decoded d ∧ i.fetchCycles = st.instr.fetchCycles ∧
      i.mispredicted = st.instr.mispredicted ∧ i.lsCycles = st.instr.lsCycles ∧
      ((st.traceDCache = false ∨ ¬ accessesMemory (l.decoded d).executionType) →
        next d st = .ok ⟨some i,
          { st with traceFile := file, instr := i, lastInstrLine := l.text }, []⟩) ∧
      (st.traceDCache = true → accessesMemory (l.decoded d).executionType → file = [] →
        next d st = .ok ⟨some { i with lsCycles := 1 },
          { st with instr := { i with lsCycles := 1 }, lastInstrLine := [],
                    readFromFile := false, traceFile := [] },
          [Warning.expectingMemoryCycles l.text]⟩) ∧
      (∀ ml rest, st.traceDCache = true → accessesMemory (l.decoded d).executionType →
        file = ml :: rest → beginsWith ml "@M " = false →
        next d st = .ok ⟨some { i with lsCycles := 1 },
          { st with instr := { i with lsCycles := 1 }, lastInstrLine := ml,
                    readFromFile := false, traceFile := rest },
          [Warning.expectingMemoryCycles l.text]⟩) ∧
      (∀ ml rest c, st.traceDCache = true → accessesMemory (l.decoded d).executionType →
        file = ml :: rest → beginsWith ml "@M " = true → parseMemoryCycles d ml = .ok c →
        next d st = .ok ⟨some { i with lsCycles := c },
          { st with instr := { i with lsCycles := c }, lastInstrLine := l.text,
                    traceFile := rest }, []⟩) := by
  have hready : Ready d { st with traceFile := file } :=
    Ready.of_tables d st _ hr rfl rfl rfl rfl rfl rfl rfl rfl rfl
  obtain ⟨i, hp, hi, a1, a2, a3⟩ := parseInstr_wf d { st with traceFile := file } l h hready.1
  obtain ⟨hA, hB, hC, hD⟩ :=
    onInstrLine_of_parse d { st with traceFile := file } l.text [] i hp hr.2.1 hr.2.2.1
  have hnext : next d st = onInstrLine d { st with traceFile := file } l.text [] := by
    simp only [next, hrf, if_true, hf, nextFromFile, text_instr_tag]
  have hty : i.executionType = (l.decoded d).executionType := by rw [← hi]; rfl
  rw [← hty]
  refine ⟨i, hi, a1, a2, a3, fun hc => ?_, fun hdc hm hfile => ?_,
    fun ml rest hdc hm hfile hb => ?_, fun ml rest c hdc hm hfile hb hc => ?_⟩
  · rw [hnext]; exact hA hc
  · rw [hnext]; exact hB hdc hm hfile
  · rw [hnext]; exact hC ml rest hdc hm hfile hb
  · rw [hnext]; exact hD ml rest c hdc hm hfile hb hc

theorem mk0_fields (d : Defs) (trace : List Str) (bp ic dc : Bool) (instr0 : Instruction) :
    (RiscvStream.mk0 d trace bp ic dc instr0).traceFile = trace ∧
      (RiscvStream.mk0 d trace bp ic dc instr0).readFromFile = true ∧
      (RiscvStream.mk0 d trace bp ic dc instr0).traceDCache = dc ∧
      (RiscvStream.mk0 d trace bp ic dc instr0).instr = instr0 := by
  simp only [RiscvStream.mk0, and_self]

/-- C1: with no tracing switch enabled, for every hexadecimal token `pc` and
every three register names of `regMap`, the pull on the one-line trace
`@I <pc> add r1 r2 r3` returns an instruction with that program counter, the
class integer-base, the write set `[id r1]`, the read set `[id r2, id r3]`
and no memory descriptor (both counts 0); the next pull returns none.  The
maximum operand count is at least the three operands of the line. -/
theorem next_add (d : Defs) (hmax : 3 ≤ d.MAX_OPERANDS) (pc r1 r2 r3 : Str)
    (hpc : isHexToken pc = true) (v1 v2 v3 : Nat) (h1 : initRegMap.get? r1 = some v1)
    (h2 : initRegMap.get? r2 = some v2) (h3 : initRegMap.get? r3 = some v3)
    (instr0 : Instruction) :
    ∃ p i, next d (RiscvStream.mk0 d
          ["@I ".toList ++ pc ++ " add ".toList ++ r1 ++ ' ' :: r2 ++ ' ' :: r3]
          false false false instr0) = .ok p ∧
      p.result = some i ∧ i.pc = hexTokenValue pc ∧ i.executionType = .IntBase ∧
      i.writeSet = [v1] ∧ i.readSet = [v2, v3] ∧ i.memLoadCount = 0 ∧ i.memStoreCount = 0 ∧
      p.log = [] ∧ ∃ q, next d p.stream = .ok q ∧ q.result = none := by
  have hwf := addLine_wf d hmax pc r1 r2 r3 hpc v1 v2 v3 h1 h2 h3
  have hdec := addLine_decoded d hmax pc r1 r2 r3 v1 v2 v3 h1 h2 h3
  rw [← addLine_text]
  generalize hst : RiscvStream.mk0 d [(addLine pc r1 r2 r3).text] false false false instr0 = st
  have hready : Ready d st := by
    rw [← hst]; exact mk0_ready d _ false instr0 (fun h => by cases h)
  obtain ⟨f1, f2, f3, _⟩ := mk0_fields d [(addLine pc r1 r2 r3).text] false false false instr0
  rw [hst] at f1 f2 f3
  obtain ⟨i, hi, _, _, _, hA, _⟩ := next_instr_line d st (addLine pc r1 r2 r3) [] hready f2 f1 hwf
  rw [hdec] at hi
  simp only [Instruction.decoded, Decoded.mk.injEq] at hi
  obtain ⟨e1, _, e3, e4, e5, e6, e7⟩ := hi
  refine ⟨_, i, hA (Or.inl f3), rfl, e1, e3, e5, e4, memLoad_none i e6, memStore_none i e7, rfl,
    ?_⟩
  exact ⟨⟨none, { st with traceFile := [], instr := i,
                          lastInstrLine := (addLine pc r1 r2 r3).text }, []⟩,
    by simp only [next, f2, if_true, nextFromFile], rfl⟩

set_option maxRecDepth 100000 in
/-- Witness of C1: `@I 0x1000 add x1 x2 x3` gives the program counter
`0x1000`, the write set `[x1]` and the read set `[x2, x3]`. -/
theorem next_add_witness :
    (3 ≤ (⟨4, 4⟩ : Defs).MAX_OPERANDS ∧ isHexToken "0x1000".toList = true ∧
        initRegMap.get? "x1".toList = some 1 ∧ initRegMap.get? "x2".toList = some 2 ∧
        initRegMap.get? "x3".toList = some 3 ∧ hexTokenValue "0x1000".toList = 0x1000) ∧
      ∃ p i, next ⟨4, 4⟩ (RiscvStream.mk0 ⟨4, 4⟩ ["@I 0x1000 add x1 x2 x3".toList]
          false false false blankInstr) = .ok p ∧
        p.result = some i ∧ i.pc = hexTokenValue "0x1000".toList ∧
        i.executionType = .IntBase ∧ i.writeSet = [1] ∧ i.readSet = [2, 3] ∧
        i.memLoadCount = 0 ∧ i.memStoreCount = 0 ∧ p.log = [] ∧
        ∃ q, next ⟨4, 4⟩ p.stream = .ok q ∧ q.result = none :=
  ⟨by decide,
    next_add ⟨4, 4⟩ (by decide) "0x1000".toList "x1".toList "x2".toList "x3".toList (by decide)
      1 2 3 (by decide) (by decide) (by decide) blankInstr⟩

/-! ## Claim C2 -/

theorem ldrLine_text (pc r1 off r2 : Str) :
    (ldrLine pc r1 off r2 none).text =
        "@I ".toList ++ pc ++ " ldr ".toList ++ r1 ++ ' ' :: off ++ '(' :: r2 ++ [')'] ∧
      ∀ m a, (ldrLine pc r1 off r2 (some (m, a))).text =
        "@I ".toList ++ pc ++ " ldr ".toList ++ r1 ++ ' ' :: off ++ '(' :: r2 ++ ')' :: ' ' :: m
          ++ ' ' :: a := by
  constructor
  · simp [ldrLine, InstrLine.text, InstrLine.tokens, joinTokens, memTokens, Operand.raw]
  · intro m a
    simp [ldrLine, InstrLine.text, InstrLine.tokens, joinTokens, memTokens, Operand.raw]

theorem storedRoles_ldr (d : Defs) (h : 3 ≤ d.MAX_OPERANDS) :
    (storedRoles d "ldr".toList).getD 0 NUL = 'W' ∧
      (storedRoles d "ldr".toList).getD 1 NUL = 'R' := by
  have e : roleTable.get? "ldr".toList = some "WR".toList := by decide
  have h2 : "WR".toList.length ≤ d.MAX_OPERANDS := by
    have : "WR".toList.length = 2 := by decide
    omega
  simp only [storedRoles, e, Option.getD_some]
  refine ⟨?_, ?_⟩
  · rw [strncpy_getD _ _ _ (by decide) h2]; decide
  · rw [strncpy_getD _ _ _ (by decide) h2]; decide

theorem ldrLine_decoded (d : Defs) (h : 3 ≤ d.MAX_OPERANDS) (pc r1 off r2 : Str)
    (mem : Option (Str × Str)) (v1 v2 : Nat) (h1 : initRegMap.get? r1 = some v1)
    (h2 : initRegMap.get? r2 = some v2) :
    (ldrLine pc r1 off r2 mem).decoded d =
      ⟨hexTokenValue pc, 4, .Load, [v2], [v1],
        mem.map (fun ma => (hexTokenValue ma.2, 8)), none⟩ := by
  obtain ⟨s0, s1⟩ := storedRoles_ldr d h
  have ht : typeTable.get? "ldr".toList = some .Load := by decide
  have hb : bytesTable.get? "ldr".toList = some 4 := by decide
  have ha : accessKind "ldr".toList = 'L' := by decide
  have hl : lengthTable.get? "ldr".toList = some 8 := by decide
  have hWR : ¬ ('W' = 'R') := by decide
  have hRW : ¬ ('R' = 'W') := by decide
  have hLS : ¬ ('L' = 'S') := by decide
  have hlt : (2 : Nat) < d.MAX_OPERANDS := by omega
  cases mem with
  | none =>
    simp only [InstrLine.decoded, ldrLine, ht, hb, Option.getD_some, regsWithRole, s0, s1,
      Operand.reg, h1, h2, hWR, hRW, if_true, if_false, InstrLine.descriptor, Nat.zero_add,
      Option.map_none']
  | some ma =>
    obtain ⟨m, a⟩ := ma
    simp only [InstrLine.decoded, ldrLine, ht, hb, Option.getD_some, regsWithRole, s0, s1,
      Operand.reg, h1, h2, hWR, hRW, if_true, if_false, InstrLine.descriptor, Nat.zero_add,
      Option.map_some', InstrLine.markerSeen, Option.isSome_some, List.length_cons,
      List.length_nil, hlt, decide_True, Bool.and_self, ha, hl, hLS, and_false, and_self]

set_option maxRecDepth 100000 in
/-- C2 as stated fails: on the trace `@I 0x2000 ldr x1 0x10(x5)`, `@M 40`
with memory-tracing on and 4 ticks per cycle the pull returns class load,
read set `[x5]`, write set `[x1]` and cycle count 10, but no memory-load
descriptor: the line has no token that begins with `@`, so memory is not
marked accessed and both counts are set to 0. -/
theorem next_ldr_unmarked :
    observe (next ⟨4, 4⟩ (RiscvStream.mk0 ⟨4, 4⟩
        ["@I 0x2000 ldr x1 0x10(x5)".toList, "@M 40".toList] false false true blankInstr)) =
      .ok ⟨some (⟨0x2000, 4, .Load, [5], [1], none, none⟩, 0, false, 10), [],
        "@I 0x2000 ldr x1 0x10(x5)".toList, true, []⟩ := by
  decide

/-- C2, amended: with memory-tracing on, a positive ticks-per-cycle divisor
and room for three operands, the pull on a well-formed line
`@I <pc> ldr r1 off(r2)`, with or without a marker and an address after it,
followed by `@M t` returns class load, read set `[id r2]`, write set
`[id r1]` and the cycle count `t / d` reduced modulo `2^32`; the memory-load
descriptor is present exactly when the line carries the marker and the
address, with that address as base and the length 8 of `ldr`; there is no
store descriptor. -/
theorem next_ldr (d : Defs) (hmax : 3 ≤ d.MAX_OPERANDS) (htpc : 0 < d.TICKS_PER_CYCLE)
    (pc r1 off r2 : Str) (mem : Option (Str × Str)) (t : Str)
    (hwf : (ldrLine pc r1 off r2 mem).wf d = true) (v1 v2 : Nat)
    (h1 : initRegMap.get? r1 = some v1) (h2 : initRegMap.get? r2 = some v2)
    (ht : isDecimalField t = true) (instr0 : Instruction) :
    ∃ p i, next d (RiscvStream.mk0 d [(ldrLine pc r1 off r2 mem).text, "@M ".toList ++ t]
          false false true instr0) = .ok p ∧
      p.result = some i ∧ i.pc = hexTokenValue pc ∧ i.executionType = .Load ∧
      i.readSet = [v2] ∧ i.writeSet = [v1] ∧
      i.memLoad = mem.map (fun ma => (hexTokenValue ma.2, 8)) ∧ i.memStore = none ∧
      i.lsCycles = (digitsValue 10 t / d.TICKS_PER_CYCLE) % 2 ^ 32 ∧
      p.log = [] ∧ p.stream.traceFile = [] ∧ p.stream.readFromFile = true := by
  have hdec := ldrLine_decoded d hmax pc r1 off r2 mem v1 v2 h1 h2
  generalize hst : RiscvStream.mk0 d [(ldrLine pc r1 off r2 mem).text, "@M ".toList ++ t]
    false false true instr0 = st
  have hready : Ready d st := by
    rw [← hst]; exact mk0_ready d _ true instr0 (fun _ => htpc)
  obtain ⟨f1, f2, f3, _⟩ := mk0_fields d [(ldrLine pc r1 off r2 mem).text, "@M ".toList ++ t]
    false false true instr0
  rw [hst] at f1 f2 f3
  obtain ⟨i, hi, _, _, _, _, _, _, hD⟩ :=
    next_instr_line d st (ldrLine pc r1 off r2 mem) ["@M ".toList ++ t] hready f2 f1 hwf
  simp only [isDecimalField, Bool.and_eq_true, bne_iff_ne, ne_eq, decide_eq_true_eq] at ht
  have hc := (parseCycles_digits d htpc t ht.1.1 ht.1.2 ht.2 "@M ".toList rfl).2
  have hcls : accessesMemory ((ldrLine pc r1 off r2 mem).decoded d).executionType := by
    rw [hdec]; exact Or.inl rfl
  have hnext := hD _ [] _ f3 hcls rfl (text_memory t) hc
  rw [hdec] at hi
  simp only [Instruction.decoded, Decoded.mk.injEq] at hi
  obtain ⟨e1, _, e3, e4, e5, e6, e7⟩ := hi
  exact ⟨_, _, hnext, rfl, e1, e3, e4, e5, e6, e7, rfl, rfl, rfl, f2⟩

set_option maxRecDepth 100000 in
/-- Witness of C2, amended: the line with the marker `@` and the address
`0x7ff0`, followed by `@M 40`, at 4 ticks per cycle. -/
theorem next_ldr_witness :
    (3 ≤ (⟨4, 4⟩ : Defs).MAX_OPERANDS ∧ 0 < (⟨4, 4⟩ : Defs).TICKS_PER_CYCLE ∧
        (ldrLine "0x2000".toList "x1".toList "0x10".toList "x5".toList
          (some ("@".toList, "0x7ff0".toList))).wf ⟨4, 4⟩ = true ∧
        initRegMap.get? "x1".toList = some 1 ∧ initRegMap.get? "x5".toList = some 5 ∧
        isDecimalField "40".toList = true) ∧
      ∃ p i, next ⟨4, 4⟩ (RiscvStream.mk0 ⟨4, 4⟩
          ["@I 0x2000 ldr x1 0x10(x5) @ 0x7ff0".toList, "@M 40".toList]
          false false true blankInstr) = .ok p ∧
        p.result = some i ∧ i.pc = 0x2000 ∧ i.executionType = .Load ∧
        i.readSet = [5] ∧ i.writeSet = [1] ∧
        i.memLoad = some (0x7ff0, 8) ∧ i.memStore = none ∧ i.lsCycles = 10 ∧
        p.log = [] ∧ p.stream.traceFile = [] ∧ p.stream.readFromFile = true :=
  ⟨by decide,
    next_ldr ⟨4, 4⟩ (by decide) (by decide) "0x2000".toList "x1".toList "0x10".toList
      "x5".toList (some ("@".toList, "0x7ff0".toList)) "40".toList (by decide) 1 5 (by decide)
      (by decide) (by decide) blankInstr⟩

/-! ## Claim C3 -/

/-- C3: with only memory-tracing enabled, when a well-formed load- or
store-class instruction line `l1` is followed in the source by a well-formed
instruction line `l2` (and then by well-formed lines `rest`), the first pull
returns the decode of `l1` with memory-access cycle count 1, logs the warning
"Expecting memory access cycles" and holds `l2` in the lookahead buffer with
the file at `rest`; the next pull is the pull of a stream that reads `l2`
from the source before `rest`, it returns the decode of `l2`, and the stream
it leaves still holds every instruction line of `rest`. -/
theorem next_missing_memory_line (d : Defs) (st : RiscvStream) (l1 l2 : InstrLine)
    (rest : List TraceLine) (hr : Ready d st) (hdc : st.traceDCache = true)
    (hrf : st.readFromFile = true)
    (hf : st.traceFile = l1.text :: l2.text :: rest.map TraceLine.text)
    (h1 : l1.wf d = true) (h2 : l2.wf d = true) (hrest : ∀ t ∈ rest, t.wf d = true)
    (hcls : (l1.decoded d).executionType = .Load ∨ (l1.decoded d).executionType = .Store) :
    ∃ p1 i1, next d st = .ok p1 ∧ p1.result = some i1 ∧ i1.decoded = l1.decoded d ∧
      i1.lsCycles = 1 ∧ p1.log = [Warning.expectingMemoryCycles l1.text] ∧
      p1.stream.readFromFile = false ∧ p1.stream.lastInstrLine = l2.text ∧
      p1.stream.traceFile = rest.map TraceLine.text ∧
      next d p1.stream = next d { p1.stream with
        readFromFile := true, traceFile := p1.stream.lastInstrLine :: p1.stream.traceFile } ∧
      ∃ p2 i2 rem, next d p1.stream = .ok p2 ∧ p2.result = some i2 ∧
        i2.decoded = l2.decoded d ∧ Holds p2.stream rem ∧ instrLines rem = instrLines rest := by
  obtain ⟨i, hi, _, _, _, _, _, hC, _⟩ :=
    next_instr_line d st l1 (l2.text :: rest.map TraceLine.text) hr hrf hf h1
  have hm : accessesMemory (l1.decoded d).executionType := by
    rcases hcls with e | e
    · exact Or.inl e
    · exact Or.inr (Or.inl e)
  have hnot : beginsWith l2.text "@M " = false :=
    text_memory_tag (.instr l2) (fun x e => by cases e)
  have hnext := hC _ _ hdc hm rfl hnot
  obtain ⟨q, hq⟩ : ∃ q : RiscvStream, { st with
      instr := { i with lsCycles := 1 }, lastInstrLine := l2.text,
      readFromFile := false, traceFile := rest.map TraceLine.text } = q := ⟨_, rfl⟩
  rw [hq] at hnext
  have q1 : q.readFromFile = false := by rw [← hq]
  have q2 : q.lastInstrLine = l2.text := by rw [← hq]
  have q3 : q.traceFile = rest.map TraceLine.text := by rw [← hq]
  have hrq : Ready d q := by
    rw [← hq]; exact Ready.of_tables d st _ hr rfl rfl rfl rfl rfl rfl rfl rfl rfl
  have hreplay := next_replay d q q1 (by rw [q2]; exact text_ne_nil (.instr l2))
  have hwf2 : ∀ t ∈ TraceLine.instr l2 :: rest, t.wf d = true := by
    intro t ht
    rcases List.mem_cons.mp ht with e | e
    · rw [e]; exact h2
    · exact hrest t e
  have ho := next_wf d q (.instr l2 :: rest) hrq hwf2
    (Or.inr (Or.inl ⟨q1, .instr l2, rest, rfl, q2, q3⟩))
  unfold PullOutcome at ho
  simp only [instrLines] at ho
  obtain ⟨p2, rem, hp2, ⟨i2, hres2, hdec2⟩, hh2, hil2, _, _⟩ := ho
  exact ⟨⟨some { i with lsCycles := 1 }, q, [Warning.expectingMemoryCycles l1.text]⟩,
    { i with lsCycles := 1 }, hnext, rfl, (decoded_lsCycles i 1).trans hi, rfl, rfl, q1, q2, q3,
    hreplay, p2, i2, rem, hp2, hres2, hdec2, hh2, hil2⟩


set_option maxRecDepth 100000 in
/-- Witness of C3: the load of the sample is followed by an addition. -/
theorem next_missing_memory_line_witness :
    (Ready ⟨4, 4⟩ (RiscvStream.mk0 ⟨4, 4⟩ (missingTrace.map TraceLine.text) false false true
          blankInstr) ∧
        (∀ t ∈ missingTrace, t.wf ⟨4, 4⟩ = true)) ∧
      observe (next ⟨4, 4⟩ (RiscvStream.mk0 ⟨4, 4⟩ (missingTrace.map TraceLine.text)
          false false true blankInstr)) =
        .ok ⟨some (⟨0x2000, 4, .Load, [5], [1], some (0x7ff0, 8), none⟩, 0, false, 1),
          [Warning.expectingMemoryCycles "@I 0x2000 ldr x1 0x10(x5) @ 0x7ff0".toList],
          "@I 0x1000 add x1 x2 x3".toList, false, ["@F 12".toList]⟩ ∧
      ∃ p1 i1, next ⟨4, 4⟩ (RiscvStream.mk0 ⟨4, 4⟩ (missingTrace.map TraceLine.text)
          false false true blankInstr) = .ok p1 ∧ p1.result = some i1 ∧ i1.lsCycles = 1 ∧
        ∃ p2 i2, next ⟨4, 4⟩ p1.stream = .ok p2 ∧ p2.result = some i2 ∧
          i2.decoded = ⟨0x1000, 4, .IntBase, [2, 3], [1], none, none⟩ := by
  have hready := mk0_ready ⟨4, 4⟩ (missingTrace.map TraceLine.text) true blankInstr
    (fun _ => by decide)
  have hwf : ∀ t ∈ missingTrace, t.wf ⟨4, 4⟩ = true := by decide
  refine ⟨⟨hready, hwf⟩, by decide, ?_⟩
  obtain ⟨p1, i1, h1, h2, _, h4, _, _, _, _, _, p2, i2, _, h5, h6, h7, _⟩ :=
    next_missing_memory_line ⟨4, 4⟩
      (RiscvStream.mk0 ⟨4, 4⟩ (missingTrace.map TraceLine.text) false false true blankInstr)
      ⟨"0x2000".toList, "ldr".toList, [.bare "x1".toList, .paren "0x10".toList "x5".toList],
        some ("@".toList, "0x7ff0".toList)⟩
      ⟨"0x1000".toList, "add".toList, [.bare "x1".toList, .bare "x2".toList,
        .bare "x3".toList], none⟩
      [.fetch "12".toList] hready rfl rfl rfl (by decide) (by decide) (by decide)
      (Or.inl (by decide))
  exact ⟨p1, i1, h1, h2, h4, p2, i2, h5, h6, h7.trans (by decide)⟩

/-! ## The operand scan always ends within its turns -/

theorem find_ge (s : Str) (c : Char) (p q : Nat) (h : find s c p = some q) :
    p ≤ q ∧ q < s.length := by
  unfold find at h
  simp only at h
  split_ifs at h with hk
  simp only [Option.some.injEq] at h
  simp only [List.length_drop] at hk
  omega

/-- The tokenizer at a position either fails, or ends the line, or moves the
cursor forward within the line. -/
theorem parseNext_progress (line : Str) (p : Nat) (tok : Str) (cur : Option Nat)
    (h : parseNext line (some p) = .ok (tok, cur)) :
    p ≤ line.length ∧ (cur = none ∨ ∃ q, cur = some q ∧ p < q ∧ q ≤ line.length) := by
  by_cases hp : p ≤ line.length
  · refine ⟨hp, ?_⟩
    rw [parseNext_eq line p hp] at h
    cases hn : normalize (rawToken line p) with
    | error e => rw [hn] at h; simp [Except.map] at h
    | ok t =>
      rw [hn] at h
      simp only [Except.map, Except.ok.injEq, Prod.mk.injEq] at h
      obtain ⟨_, hc⟩ := h
      cases hf : find line ' ' p with
      | none => left; rw [← hc]; simp [cursorAfter, hf]
      | some q =>
        right
        have := find_ge line ' ' p q hf
        refine ⟨q + 1, ?_, by omega, by omega⟩
        rw [← hc]; simp [cursorAfter, hf]
  · exfalso
    have hf : find line ' ' p = none := by
      unfold find
      have : line.drop p = [] := List.drop_eq_nil_of_le (by omega)
      simp [this]
    simp [parseNext, splitToken, hf, substr, hp, bind, Except.bind] at h

/-- The operand scan never uses up its turns: started inside the line at
position `p` with at least `line.length + 2 - p` turns, or at the end marker
with one turn, it returns a scan or fails in the tokenizer. -/
theorem scanOperands_fuel (d : Defs) (line : Str) :
    ∀ (fuel : Nat) (cur : Option Nat) (acc : List Str),
      (match cur with
       | none => 1 ≤ fuel
       | some p => p ≤ line.length ∧ line.length + 2 ≤ fuel + p) →
      scanOperands d line fuel cur acc ≠ .ok none := by
  intro fuel
  induction fuel with
  | zero =>
    intro cur acc h
    cases cur with
    | none => simp at h
    | some p => simp only [Nat.zero_add] at h; omega
  | succ fuel ih =>
    intro cur acc h
    rw [scanOperands]
    by_cases hlt : acc.length < d.MAX_OPERANDS
    · simp only [hlt, if_true]
      cases hpn : parseNext line cur with
      | error e => simp [bind, Except.bind]
      | ok r =>
        obtain ⟨operand, cur'⟩ := r
        simp only [bind, Except.bind]
        by_cases he : operand = []
        · simp [he, pure, Except.pure]
        · simp only [he, if_false, index, Nat.zero_le, if_true]
          by_cases hat : operand.getD 0 NUL = '@'
          · simp only [hat, if_true, pure, Except.pure]
            intro e; cases e
          · simp only [hat, if_false]
            apply ih
            cases cur with
            | none =>
              simp only [parseNext, Except.ok.injEq, Prod.mk.injEq] at hpn
              exact absurd hpn.1.symm he
            | some p =>
              obtain ⟨hp, hc⟩ := parseNext_progress line p operand cur' hpn
              simp only at h
              rcases hc with rfl | ⟨q, rfl, hq, hql⟩
              · simp only; omega
              · simp only; omega
    · simp [hlt, pure, Except.pure]

/-- The tokenising part of `parseInstr` never takes the default of an
unfinished scan: its operand scan always returns a scan or a fault. -/
theorem scanInstr_scan_ends (d : Defs) (line : Str) (pc opcode : Str) (c1 c2 : Option Nat)
    (h1 : parseNext line (some 3) = .ok (pc, c1)) (h2 : parseNext line c1 = .ok (opcode, c2)) :
    scanOperands d line (line.length + 2) c2 [] ≠ .ok none := by
  apply scanOperands_fuel
  obtain ⟨_, hc1⟩ := parseNext_progress line 3 pc c1 h1
  rcases hc1 with rfl | ⟨q, rfl, _, hq⟩
  · simp only [parseNext, Except.ok.injEq, Prod.mk.injEq] at h2
    rw [← h2.2]; simp only; omega
  · obtain ⟨_, hc2⟩ := parseNext_progress line q opcode c2 h2
    rcases hc2 with rfl | ⟨q', rfl, _, hq'⟩
    · simp only; omega
    · simp only; omega

/-! ## More on tables -/

theorem Table.subscript_fst {α : Type} (m : Table α) (k : Str) (dflt : α) :
    (m.subscript k dflt).1 = (m.get? k).getD dflt := by
  unfold Table.subscript
  cases m.get? k <;> rfl

theorem Table.subscript_snd {α : Type} (m : Table α) (k : Str) (dflt : α)
    (h : m.get? k ≠ none) : (m.subscript k dflt).2 = m := by
  unfold Table.subscript
  cases hk : m.get? k with
  | none => exact absurd hk h
  | some v => rfl

theorem Table.count_eq_zero {α : Type} (m : Table α) (k : Str) :
    m.count k = 0 ↔ m.get? k = none := by
  unfold Table.count
  cases m.get? k <;> simp

theorem Table.get?_assign {α : Type} (m : Table α) (k k' : Str) (v : α) :
    (m.assign k v).get? k' = if k = k' then some v else m.get? k' := by
  induction m with
  | nil => simp [Table.assign, Table.get?]
  | cons e m ih =>
    obtain ⟨k0, v0⟩ := e
    by_cases h0 : k0 = k
    · subst h0
      by_cases h1 : k0 = k' <;> simp [Table.assign, Table.get?, h1]
    · simp only [Table.assign, h0, if_false, Table.get?, ih]
      by_cases h1 : k0 = k'
      · have : ¬ (k = k') := fun h => h0 (h1.trans h.symm)
        simp [h1, this]
      · simp [h1]

/-- A lookup `regMap[k]` does not change what later lookups give. -/
theorem regId_subscript (m : Table Nat) (k k' : Str) :
    regId (m.subscript k 0).2 k' = regId m k' := by
  unfold regId
  rw [Table.subscript_fst, Table.subscript_fst]
  unfold Table.subscript
  cases hk : m.get? k with
  | some v => rfl
  | none =>
    simp only [Table.get?_assign]
    by_cases h : k = k'
    · subst h
      simp [hk]
    · simp [h]

theorem idsWithRole_subscript (m : Table Nat) (c : Char) (syn : Str) (k : Str)
    (ts : List Str) :
    ∀ i, idsWithRole (m.subscript k 0).2 c syn i ts = idsWithRole m c syn i ts := by
  induction ts with
  | nil => intro i; rfl
  | cons t ts ih =>
    intro i
    simp only [idsWithRole, regId_subscript, ih]

/-- The role loop of `parseInstr` on any operands and any `regMap`, when it
ends well: every position of an operand holds `W` or `R`, the identifiers
are appended to the two sets by role in operand order, every operand is
counted once, and `regMap` has undergone the lookups of the operands. -/
theorem assignRoles_inv (syn : Str) (ops : List Str) :
    ∀ (i : Nat) (r r' : Roles), assignRoles syn ops i r = .ok r' →
      (∀ j, j < ops.length → syn.getD (i + j) NUL = 'W' ∨ syn.getD (i + j) NUL = 'R') ∧
      (List.range r'.reg_read_count).map r'.regRead =
        (List.range r.reg_read_count).map r.regRead ++ idsWithRole r.regMap 'R' syn i ops ∧
      (List.range r'.reg_write_count).map r'.regWrite =
        (List.range r.reg_write_count).map r.regWrite ++ idsWithRole r.regMap 'W' syn i ops ∧
      r'.reg_read_count + r'.reg_write_count =
        r.reg_read_count + r.reg_write_count + ops.length ∧
      r'.regMap = lookedUp r.regMap ops := by
  induction ops with
  | nil =>
    intro i r r' h
    simp only [assignRoles, Except.ok.injEq] at h
    subst h
    simp [idsWithRole, lookedUp]
  | cons o os ih =>
    intro i r r' h
    have hnR : ¬ ('W' = 'R') := by decide
    have hnW : ¬ ('R' = 'W') := by decide
    simp only [assignRoles] at h
    by_cases hW : syn.getD i NUL = 'W'
    · simp only [hW, if_true] at h
      obtain ⟨h1, h2, h3, h4, h5⟩ := ih (i + 1) _ r' h
      refine ⟨?_, ?_, ?_, ?_, ?_⟩
      · intro j hj
        cases j with
        | zero => left; exact hW
        | succ j =>
          have := h1 j (by simp only [List.length_cons] at hj; omega)
          rwa [show i + 1 + j = i + (j + 1) by omega] at this
      · rw [h2]
        simp only [idsWithRole, hW, hnR, if_false, idsWithRole_subscript]
      · rw [h3, range_map_update]
        simp only [idsWithRole, hW, if_true, idsWithRole_subscript, regId, List.append_assoc,
          List.singleton_append]
      · rw [h4]; simp only [List.length_cons]; omega
      · rw [h5]; rfl
    · simp only [hW, if_false] at h
      by_cases hR : syn.getD i NUL = 'R'
      · simp only [hR, if_true] at h
        obtain ⟨h1, h2, h3, h4, h5⟩ := ih (i + 1) _ r' h
        refine ⟨?_, ?_, ?_, ?_, ?_⟩
        · intro j hj
          cases j with
          | zero => right; exact hR
          | succ j =>
            have := h1 j (by simp only [List.length_cons] at hj; omega)
            rwa [show i + 1 + j = i + (j + 1) by omega] at this
        · rw [h2, range_map_update]
          simp only [idsWithRole, hR, if_true, idsWithRole_subscript, regId, List.append_assoc,
            List.singleton_append]
        · rw [h3]
          simp only [idsWithRole, hR, hnW, if_false, idsWithRole_subscript]
        · rw [h4]; simp only [List.length_cons]; omega
        · rw [h5]; rfl
      · simp only [hR, if_false] at h
        cases h

/-! ## The assigning part of the decoder on an arbitrary stream -/

/-- What a successful run of the assigning part of `parseInstr` has done, on
any stream and any fields: the opcode is a key of `opcodeToTypeMap`, the
program counter converts, the role loop ends well, and every member the
function writes has the value the source gives it.  The two memory
descriptors follow `mem_accessed` and the character `memAccessMap[opcode]`. -/
theorem fillInstr_inv (d : Defs) (st st' : RiscvStream) (f : Fields)
    (h : fillInstr d st f = .ok st') :
    ∃ pcv r,
      st.opcodeToTypeMap.count f.opcode ≠ 0 ∧ stoull f.pc 16 = .ok pcv ∧
      assignRoles (st.syntaxMap.subscript f.opcode (List.replicate d.MAX_OPERANDS NUL)).1
        f.operands 0 ⟨st.regMap, st.instr.regRead, st.instr.regWrite, 0, 0⟩ = .ok r ∧
      st'.regMap = r.regMap ∧
      st'.opcodeToTypeMap = (st.opcodeToTypeMap.subscript f.opcode .IntBase).2 ∧
      st'.syntaxMap =
        (st.syntaxMap.subscript f.opcode (List.replicate d.MAX_OPERANDS NUL)).2 ∧
      st'.bytesMap = (st.bytesMap.subscript f.opcode 0).2 ∧
      st'.instr.pc = pcv ∧ st'.instr.bytes = (st.bytesMap.subscript f.opcode 0).1 ∧
      st'.instr.executionType = (st.opcodeToTypeMap.subscript f.opcode .IntBase).1 ∧
      st'.instr.regRead = r.regRead ∧ st'.instr.regWrite = r.regWrite ∧
      st'.instr.regReadCount = r.reg_read_count ∧
      st'.instr.regWriteCount = r.reg_write_count ∧
      ((f.mem_accessed = false ∧ st'.instr.memLoadCount = 0 ∧ st'.instr.memStoreCount = 0 ∧
          st'.memAccessMap = st.memAccessMap ∧ st'.memLengthMap = st.memLengthMap) ∨
       (f.mem_accessed = true ∧
          st'.memAccessMap = (st.memAccessMap.subscript f.opcode NUL).2 ∧
          st'.memLengthMap = (st.memLengthMap.subscript f.opcode 0).2 ∧
          ∃ base,
            stoull (if (st.opcodeToTypeMap.subscript f.opcode .IntBase).1 = .Atomic
              then atomicAddress else f.mem_address) 16 = .ok base ∧
            (((st.memAccessMap.subscript f.opcode NUL).1 = 'L' ∧
                st'.instr.memLoadCount = 1 ∧ st'.instr.memStoreCount = 0 ∧
                st'.instr.memLoadBase = base ∧
                st'.instr.memLoadLength = (st.memLengthMap.subscript f.opcode 0).1) ∨
             ((st.memAccessMap.subscript f.opcode NUL).1 = 'S' ∧
                st'.instr.memLoadCount = 0 ∧ st'.instr.memStoreCount = 1 ∧
                st'.instr.memStoreBase = base ∧
                st'.instr.memStoreLength = (st.memLengthMap.subscript f.opcode 0).1) ∨
             ((st.memAccessMap.subscript f.opcode NUL).1 = 'A' ∧
                st'.instr.memLoadCount = 1 ∧ st'.instr.memStoreCount = 1 ∧
                st'.instr.memLoadBase = base ∧ st'.instr.memStoreBase = base ∧
                st'.instr.memLoadLength = (st.memLengthMap.subscript f.opcode 0).1 ∧
                st'.instr.memStoreLength = (st.memLengthMap.subscript f.opcode 0).1)))) := by
  unfold fillInstr at h
  by_cases hc : st.opcodeToTypeMap.count f.opcode = 0
  · simp [hc, bind, Except.bind, throw, throwThe, MonadExceptOf.throw] at h
  simp only [hc, if_false, bind, Except.bind, pure, Except.pure, throw, throwThe,
    MonadExceptOf.throw] at h
  cases hpc : stoull f.pc 16 with
  | error e => simp [hpc] at h
  | ok pcv =>
    simp only [hpc] at h
    cases hr : assignRoles (st.syntaxMap.subscript f.opcode (List.replicate d.MAX_OPERANDS NUL)).1
        f.operands 0 ⟨st.regMap, st.instr.regRead, st.instr.regWrite, 0, 0⟩ with
    | error e => simp [hr] at h
    | ok r =>
      simp only [hr] at h
      refine ⟨pcv, r, hc, rfl, rfl, ?_⟩
      cases hm : f.mem_accessed with
      | false =>
        simp only [hm, Bool.false_eq_true, if_false, Except.ok.injEq] at h
        subst h
        simp
      | true =>
        simp only [hm, if_true] at h
        by_cases h0 : (st.memAccessMap.subscript f.opcode NUL).1 = NUL
        · simp [h0] at h
        simp only [h0, if_false] at h
        cases hb : stoull (if (st.opcodeToTypeMap.subscript f.opcode .IntBase).1 = .Atomic
              then atomicAddress else f.mem_address) 16 with
        | error e => 
          simp only [hb] at h
          split at h
          · simp at h
          · split at h
            · simp at h
            · split at h <;> simp at h
        | ok base =>
          simp only [hb] at h
          by_cases hL : (st.memAccessMap.subscript f.opcode NUL).1 = 'L'
          · simp only [hL, if_true, Except.ok.injEq] at h
            subst h
            simp only [hb]
            simp
            exact hL
          · simp only [hL, if_false] at h
            by_cases hS : (st.memAccessMap.subscript f.opcode NUL).1 = 'S'
            · simp only [hS, if_true, Except.ok.injEq] at h
              subst h
              simp only [hb]
              simp
              exact hS
            · simp only [hS, if_false] at h
              by_cases hA : (st.memAccessMap.subscript f.opcode NUL).1 = 'A'
              · simp only [hA, if_true, Except.ok.injEq] at h
                subst h
                simp only [hb]
                simp
                exact hA
              · simp [hA] at h

/-! ## The operand scan on an arbitrary line -/

/-- The tokenizer fails only with `out_of_range` or with the access past the
end of the raw token. -/
theorem parseNext_error (line : Str) (cur : Option Nat) (e : Fault)
    (h : parseNext line cur = .error e) : e = .outOfRange ∨ e = .indexPastEnd := by
  have hsub : ∀ (s : Str) (p : Nat) (n : Option Nat) (e : Fault),
      substr s p n = .error e → e = .outOfRange := by
    intro s p n e hs
    unfold substr at hs
    split_ifs at hs
    · cases n <;> simp at hs
    · simp only [Except.error.injEq] at hs
      exact hs.symm
  have hidx : ∀ (s : Str) (i : Option Nat) (e : Fault),
      index s i = .error e → e = .indexPastEnd := by
    intro s i e hs
    unfold index at hs
    cases i with
    | none => simp only [Except.error.injEq] at hs; exact hs.symm
    | some k =>
      simp only at hs
      split_ifs at hs
      simp only [Except.error.injEq] at hs
      exact hs.symm
  have hnorm : ∀ (s : Str) (e : Fault), normalize s = .error e →
      e = .outOfRange ∨ e = .indexPastEnd := by
    intro s e hs
    unfold normalize at hs
    cases hf : find s '(' 0 with
    | some pos =>
      simp only [hf] at hs
      exact Or.inl (hsub _ _ _ _ hs)
    | none =>
      simp only [hf, bind, Except.bind] at hs
      cases hi : index s (lengthMinusOne s) with
      | error e' =>
        simp only [hi, Except.error.injEq] at hs
        subst hs
        exact Or.inr (hidx _ _ _ hi)
      | ok c =>
        simp only [hi] at hs
        split_ifs at hs
        · exact Or.inl (hsub _ _ _ _ hs)
        · simp [pure, Except.pure] at hs
  cases cur with
  | none => simp [parseNext] at h
  | some p =>
    simp only [parseNext, splitToken, bind, Except.bind] at h
    cases hf : find line ' ' p with
    | none =>
      simp only [hf] at h
      cases hs : substr line p none with
      | error e' =>
        simp only [hs, Except.error.injEq] at h
        subst h
        exact Or.inl (hsub _ _ _ _ hs)
      | ok str =>
        simp only [hs, pure, Except.pure] at h
        cases hn : normalize str with
        | error e' =>
          simp only [hn, Except.error.injEq] at h
          subst h
          exact hnorm _ _ hn
        | ok t => simp [hn] at h
    | some q =>
      simp only [hf] at h
      cases hs : substr line p (some (q - p)) with
      | error e' =>
        simp only [hs, Except.error.injEq] at h
        subst h
        exact Or.inl (hsub _ _ _ _ hs)
      | ok str =>
        simp only [hs, pure, Except.pure] at h
        cases hn : normalize str with
        | error e' =>
          simp only [hn, Except.error.injEq] at h
          subst h
          exact hnorm _ _ hn
        | ok t => simp [hn] at h

/-- The operand scan fails only where the tokenizer fails, and it leaves at
most `MAX_OPERANDS` operands. -/
theorem scanOperands_inv (d : Defs) (line : Str) :
    ∀ (fuel : Nat) (cur : Option Nat) (acc : List Str), acc.length ≤ d.MAX_OPERANDS →
      (∀ e, scanOperands d line fuel cur acc = .error e →
        e = .outOfRange ∨ e = .indexPastEnd) ∧
      (∀ s, scanOperands d line fuel cur acc = .ok (some s) →
        s.operands.length ≤ d.MAX_OPERANDS) := by
  intro fuel
  induction fuel with
  | zero =>
    intro cur acc hacc
    constructor
    · intro e h; simp [scanOperands] at h
    · intro s h; simp [scanOperands] at h
  | succ fuel ih =>
    intro cur acc hacc
    by_cases hlt : acc.length < d.MAX_OPERANDS
    · cases hp : parseNext line cur with
      | error e' =>
        constructor
        · intro e h
          simp only [scanOperands, hlt, if_true, hp, bind, Except.bind, Except.error.injEq] at h
          subst h
          exact parseNext_error _ _ _ hp
        · intro s h
          simp [scanOperands, hlt, hp, bind, Except.bind] at h
      | ok res =>
        obtain ⟨operand, cur'⟩ := res
        by_cases hop : operand = []
        · constructor
          · intro e h
            simp [scanOperands, hlt, hp, hop, bind, Except.bind, pure, Except.pure] at h
          · intro s h
            simp only [scanOperands, hlt, if_true, hp, hop, bind, Except.bind, pure,
              Except.pure, Except.ok.injEq, Option.some.injEq] at h
            subst h
            exact hacc
        · have hidx : index operand (some 0) = .ok (operand.getD 0 NUL) := by
            simp [index]
          have hacc' : (if 'a'.toNat ≤ (operand.getD 0 NUL).toNat ∧
              (operand.getD 0 NUL).toNat ≤ 'z'.toNat then acc ++ [operand] else acc).length ≤
              d.MAX_OPERANDS := by
            split_ifs
            · simp only [List.length_append, List.length_singleton]; omega
            · exact hacc
          obtain ⟨ih1, ih2⟩ := ih cur' _ hacc'
          by_cases hat : operand.getD 0 NUL = '@'
          · constructor
            · intro e h
              simp only [scanOperands, hlt, if_true, hp, hop, hidx, hat, bind, Except.bind,
                pure, Except.pure, if_false] at h
              cases h
            · intro s h
              simp only [scanOperands, hlt, if_true, hp, hop, hidx, hat, bind, Except.bind,
                pure, Except.pure, if_false, Except.ok.injEq, Option.some.injEq] at h
              subst h
              rw [hat] at hacc'
              exact hacc'
          · constructor
            · intro e h
              simp only [scanOperands, hlt, if_true, hp, hop, hidx, hat, bind, Except.bind,
                if_false] at h
              exact ih1 e h
            · intro s h
              simp only [scanOperands, hlt, if_true, hp, hop, hidx, hat, bind, Except.bind,
                if_false] at h
              exact ih2 s h
    · constructor
      · intro e h
        simp [scanOperands, hlt, pure, Except.pure] at h
      · intro s h
        simp only [scanOperands, hlt, if_false, pure, Except.pure, Except.ok.injEq,
          Option.some.injEq] at h
        subst h
        exact hacc

/-- The tokenising part of `parseInstr`: it fails only where the tokenizer
fails, and the operands it leaves are at most `MAX_OPERANDS`. -/
theorem scanInstr_inv (d : Defs) (line : Str) :
    (∀ e, scanInstr d line = .error e → e = .outOfRange ∨ e = .indexPastEnd) ∧
    (∀ f, scanInstr d line = .ok f → f.operands.length ≤ d.MAX_OPERANDS) := by
  unfold scanInstr
  simp only [bind, Except.bind, pure, Except.pure]
  cases h1 : parseNext line (some 3) with
  | error e1 =>
    exact ⟨fun e he => by cases he; exact parseNext_error _ _ _ h1, fun f hf => by cases hf⟩
  | ok r1 =>
    obtain ⟨pc, c1⟩ := r1
    simp only
    cases h2 : parseNext line c1 with
    | error e2 =>
      exact ⟨fun e he => by cases he; exact parseNext_error _ _ _ h2, fun f hf => by cases hf⟩
    | ok r2 =>
      obtain ⟨opcode, c2⟩ := r2
      simp only
      obtain ⟨ih1, ih2⟩ := scanOperands_inv d line (line.length + 2) c2 [] (Nat.zero_le _)
      cases h3 : scanOperands d line (line.length + 2) c2 [] with
      | error e3 =>
        exact ⟨fun e he => by cases he; exact ih1 _ h3, fun f hf => by cases hf⟩
      | ok os =>
        have hlen : (os.getD ⟨[], false, none⟩).operands.length ≤ d.MAX_OPERANDS := by
          cases os with
          | none => exact Nat.zero_le _
          | some s => exact ih2 s h3
        simp only
        cases hm : (os.getD ⟨[], false, none⟩).mem_accessed with
        | false =>
          simp only [Bool.false_eq_true, if_false]
          exact ⟨fun e he => (by cases he), fun f hf => by cases hf; exact hlen⟩
        | true =>
          simp only [if_true]
          cases h4 : parseNext line (os.getD ⟨[], false, none⟩).current_pos with
          | error e4 =>
            exact ⟨fun e he => by cases he; exact parseNext_error _ _ _ h4,
              fun f hf => by cases hf⟩
          | ok r4 =>
            exact ⟨fun e he => (by cases he), fun f hf => by cases hf; exact hlen⟩

/-! ## Claim C18: the register table of `initMaps` -/

theorem Table.mem_of_get? {α : Type} (m : Table α) (k : Str) (v : α)
    (h : m.get? k = some v) : (k, v) ∈ m := by
  induction m with
  | nil => simp [Table.get?] at h
  | cons e m ih =>
    obtain ⟨k', v'⟩ := e
    by_cases hk : k' = k
    · simp only [Table.get?, hk, if_true, Option.some.injEq] at h
      rw [hk, h]
      exact List.mem_cons_self _ _
    · simp only [Table.get?, hk, if_false] at h
      exact List.mem_cons_of_mem _ (ih h)

set_option maxRecDepth 100000 in
/-- The facts about the entries of `regMap` that are checked entry by
entry. -/
theorem initRegMap_entries :
    (∀ e1 ∈ initRegMap, ∀ e2 ∈ initRegMap, e1.2 = e2.2 → e1.1 = e2.1) ∧
    (∀ e ∈ initRegMap, e.2 < initRegMap.length) ∧
    (∀ v ∈ List.range initRegMap.length, ∃ e ∈ initRegMap, initRegMap.get? e.1 = some v) ∧
    initRegMap.keys.Nodup ∧ initRegMap.keys.length = 64 ∧
    initRegMap.keys = wideNames ++ aliasNames ∧
    (∀ a ∈ aliasNames, ∀ b ∈ wideNames,
      (initRegMap.get? a).isSome ∧ (initRegMap.get? b).isSome ∧
        regId initRegMap b < regId initRegMap a) := by
  decide

/-- C18: the register table that `initMaps` builds is a bijection onto a
dense range.  The lookup is injective on the names of the table; the
identifiers are exactly the numbers `0` to `N - 1`, where `N = 64` is the
number of names (no name occurs twice); the names are `x0`..`x30`, `sp`,
`pc` and `w0`..`w30`; and every identifier of an alias `w0`..`w30` is
greater than every identifier of a 64-bit name. -/
theorem initRegMap_bijection :
    (∀ a b v, initRegMap.get? a = some v → initRegMap.get? b = some v → a = b) ∧
    (∀ v, (∃ a, initRegMap.get? a = some v) ↔ v < initRegMap.keys.length) ∧
    initRegMap.keys.Nodup ∧ initRegMap.keys.length = 64 ∧
    initRegMap.keys = wideNames ++ aliasNames ∧
    (∀ a ∈ aliasNames, ∀ b ∈ wideNames,
      (initRegMap.get? a).isSome ∧ (initRegMap.get? b).isSome ∧
        regId initRegMap b < regId initRegMap a) := by
  obtain ⟨h1, h2, h3, h4, h5, h6, h7⟩ := initRegMap_entries
  have hlen : initRegMap.keys.length = initRegMap.length := by
    simp [Table.keys]
  refine ⟨?_, ?_, h4, h5, h6, h7⟩
  · intro a b v ha hb
    exact h1 _ (Table.mem_of_get? _ _ _ ha) _ (Table.mem_of_get? _ _ _ hb) rfl
  · intro v
    rw [hlen]
    constructor
    · rintro ⟨a, ha⟩
      exact h2 _ (Table.mem_of_get? _ _ _ ha)
    · intro hv
      obtain ⟨e, _, he⟩ := h3 v (List.mem_range.mpr hv)
      exact ⟨e.1, he⟩

/-! ## Claim C19: the opcode tables of `initMaps` -/

set_option maxRecDepth 100000 in
/-- What holds of the opcode tables of `initMaps`: every opcode but `lsr` has
all five entries; the access kind is `L` for the load class, `S` for the
store class and none for every other class; an opcode with an access kind
has the length 4, 8 or 16; and the entries of `lsr` and `lsv`. -/
theorem initMaps_consistent :
    (∀ k ∈ typeTable.keys, k ≠ "lsr".toList → fullyRegistered k = true) ∧
    (∀ k ∈ typeTable.keys,
      (typeTable.get? k = some .Load → accessTable.get? k = some 'L') ∧
      (typeTable.get? k = some .Store → accessTable.get? k = some 'S') ∧
      (typeTable.get? k ≠ some .Load → typeTable.get? k ≠ some .Store →
        accessTable.get? k = some NUL)) ∧
    (∀ k ∈ typeTable.keys, accessTable.get? k ≠ some NUL →
      lengthTable.get? k = some 4 ∨ lengthTable.get? k = some 8 ∨
        lengthTable.get? k = some 16) ∧
    (typeTable.get? "lsr".toList = some .IntBase ∧
      roleTable.get? "lsr".toList = some "WR".toList ∧
      accessTable.get? "lsr".toList = some NUL ∧
      bytesTable.get? "lsr".toList = some 4 ∧
      lengthTable.get? "lsr".toList = none ∧
      fullyRegistered "lsr".toList = false ∧
      lengthTable.get? "lsv".toList = some 0 ∧
      typeTable.get? "lsv".toList = none ∧ roleTable.get? "lsv".toList = none ∧
      accessTable.get? "lsv".toList = none ∧ bytesTable.get? "lsv".toList = none) := by
  decide

/-- C19 fails at the opcode `lsr`: `initMaps` gives it a class, a role
string, an access kind and a byte length, but writes its memory-access
length under the key `lsv`; so `memLengthMap` has no entry for the registered
opcode `lsr`, and an entry for `lsv`, which no other table knows. -/
theorem initMaps_lsr_length_key :
    typeTable.get? "lsr".toList = some .IntBase ∧
    roleTable.get? "lsr".toList = some "WR".toList ∧
    accessTable.get? "lsr".toList = some NUL ∧
    bytesTable.get? "lsr".toList = some 4 ∧
    lengthTable.get? "lsr".toList = none ∧
    fullyRegistered "lsr".toList = false ∧
    lengthTable.get? "lsv".toList = some 0 ∧
    typeTable.get? "lsv".toList = none ∧ roleTable.get? "lsv".toList = none ∧
    accessTable.get? "lsv".toList = none ∧ bytesTable.get? "lsv".toList = none :=
  initMaps_consistent.2.2.2

/-! ## Claims C13 and C20: register names that `regMap` does not hold -/

set_option maxRecDepth 100000 in
/-- The decode of `@I 0x1000 add v0 xzr lr` on a freshly constructed stream:
the instruction it gives and the `regMap` it leaves; none of the three
operand names is in the `regMap` of `initMaps`. -/
theorem unknown_register_decode :
    (initRegMap.get? "v0".toList = none ∧ initRegMap.get? "xzr".toList = none ∧
      initRegMap.get? "lr".toList = none ∧ initRegMap.get? "x0".toList = some 0) ∧
    (parseInstr ⟨4, 4⟩ (RiscvStream.mk0 ⟨4, 4⟩ [] false false false blankInstr)
        "@I 0x1000 add v0 xzr lr".toList).map (fun st => (st.instr.decoded, st.regMap)) =
      .ok (⟨0x1000, 4, .IntBase, [0, 0], [0], none, none⟩,
        initRegMap ++ [("v0".toList, 0), ("xzr".toList, 0), ("lr".toList, 0)]) := by
  decide

/-- C13 fails on the line `@I 0x1000 add v0 xzr lr`: none of the three
operand names is in `regMap`, yet the decode succeeds; `regMap[name]` gives
each of them the value-initialised 0, the identifier of `x0`, so the
instruction comes out with write set `[0]` and read set `[0, 0]`. -/
theorem parseInstr_unknown_register :
    initRegMap.get? "v0".toList = none ∧ initRegMap.get? "xzr".toList = none ∧
    initRegMap.get? "lr".toList = none ∧ initRegMap.get? "x0".toList = some 0 ∧
    decodeLine ⟨4, 4⟩ "@I 0x1000 add v0 xzr lr".toList =
      .ok ⟨0x1000, 4, .IntBase, [0, 0], [0], none, none⟩ := by
  obtain ⟨⟨h1, h2, h3, h4⟩, h⟩ := unknown_register_decode
  refine ⟨h1, h2, h3, h4, ?_⟩
  unfold decodeLine
  cases hp : parseInstr ⟨4, 4⟩ (RiscvStream.mk0 ⟨4, 4⟩ [] false false false blankInstr)
      "@I 0x1000 add v0 xzr lr".toList with
  | error e => rw [hp] at h; cases h
  | ok st =>
    rw [hp] at h
    simp only [Except.map, Except.ok.injEq, Prod.mk.injEq] at h ⊢
    exact h.1

/-- C20 fails on the line `@I 0x1000 add v0 xzr lr`: after the decode
`regMap` holds three entries more than `initMaps` built, one for each operand
name it did not hold, each with the value 0. -/
theorem parseInstr_adds_register_names :
    (parseInstr ⟨4, 4⟩ (RiscvStream.mk0 ⟨4, 4⟩ [] false false false blankInstr)
        "@I 0x1000 add v0 xzr lr".toList).map (fun st => st.regMap) =
      .ok (initRegMap ++ [("v0".toList, 0), ("xzr".toList, 0), ("lr".toList, 0)]) := by
  obtain ⟨_, h⟩ := unknown_register_decode
  cases hp : parseInstr ⟨4, 4⟩ (RiscvStream.mk0 ⟨4, 4⟩ [] false false false blankInstr)
      "@I 0x1000 add v0 xzr lr".toList with
  | error e => rw [hp] at h; cases h
  | ok st =>
    rw [hp] at h
    simp only [Except.map, Except.ok.injEq, Prod.mk.injEq] at h ⊢
    exact h.2

/-! ## Claim C17: lines with no tag -/

set_option maxRecDepth 100000 in
/-- C17 fails for a blank line held in the lookahead buffer.  With
memory-tracing on, on the trace `@I 0x2000 ldr x1 x5 @ 0x10`, blank line,
`@I 0x1000 add x1 x2 x3`: the first pull returns the load and holds the blank
line; the second pull takes the blank line from the buffer and returns no
instruction, as at the end of the stream, without an error; the third pull
returns the addition.  The same blank line read from the source is the error
"Invalid trace line". -/
theorem next_blank_line_replayed :
    ((pulls ⟨4, 4⟩ 3 (RiscvStream.mk0 ⟨4, 4⟩
        ["@I 0x2000 ldr x1 x5 @ 0x10".toList, [], "@I 0x1000 add x1 x2 x3".toList]
        false false true blankInstr)).map
      (fun p => p.1.map (fun r => r.map Instruction.decoded))) =
      .ok [some ⟨0x2000, 4, .Load, [5], [1], some (0x10, 8), none⟩, none,
        some ⟨0x1000, 4, .IntBase, [2, 3], [1], none, none⟩] ∧
    observe (next ⟨4, 4⟩ (RiscvStream.mk0 ⟨4, 4⟩
        [[], "@I 0x1000 add x1 x2 x3".toList] false false true blankInstr)) =
      .error .invalidTraceLine := by
  decide

/-! ## Decoding on an arbitrary line -/

/-- A successful `parseInstr` is a successful tokenising part followed by a
successful assigning part. -/
theorem parseInstr_ok (d : Defs) (st st' : RiscvStream) (line : Str)
    (h : parseInstr d st line = .ok st') :
    ∃ f, scanInstr d line = .ok f ∧ fillInstr d st f = .ok st' := by
  unfold parseInstr at h
  cases hs : scanInstr d line with
  | error e => simp [hs, bind, Except.bind] at h
  | ok f =>
    simp only [hs, bind, Except.bind] at h
    exact ⟨f, rfl, h⟩

/-- The opcode check of `parseInstr`: the assigning part fails with "Invalid
opcode" exactly when the opcode token is no key of `opcodeToTypeMap`. -/
theorem fillInstr_invalidOpcode (d : Defs) (st : RiscvStream) (f : Fields) :
    fillInstr d st f = .error .invalidOpcode ↔ st.opcodeToTypeMap.get? f.opcode = none := by
  have hstoull : ∀ (s : Str) (b : Nat), stoull s b ≠ .error .invalidOpcode := by
    intro s b h
    unfold stoull at h
    simp only at h
    split_ifs at h <;> cases h
  have hroles : ∀ (syn : Str) (ops : List Str) (i : Nat) (r : Roles),
      assignRoles syn ops i r ≠ .error .invalidOpcode := by
    intro syn ops
    induction ops with
    | nil => intro i r h; simp [assignRoles] at h
    | cons o os ih =>
      intro i r h
      simp only [assignRoles] at h
      split_ifs at h
      · exact ih _ _ h
      · exact ih _ _ h
      · cases h
  constructor
  · intro h
    by_contra hne
    have hc : ¬ (st.opcodeToTypeMap.count f.opcode = 0) := by
      rw [Table.count_eq_zero]; exact hne
    unfold fillInstr at h
    simp only [hc, if_false, bind, Except.bind, pure, Except.pure, throw, throwThe,
      MonadExceptOf.throw] at h
    cases hpc : stoull f.pc 16 with
    | error e =>
      simp only [hpc, Except.error.injEq] at h
      rw [h] at hpc
      exact hstoull _ _ hpc
    | ok pcv =>
      simp only [hpc] at h
      cases hr : assignRoles
          (st.syntaxMap.subscript f.opcode (List.replicate d.MAX_OPERANDS NUL)).1
          f.operands 0 ⟨st.regMap, st.instr.regRead, st.instr.regWrite, 0, 0⟩ with
      | error e =>
        simp only [hr, Except.error.injEq] at h
        rw [h] at hr
        exact hroles _ _ _ _ hr
      | ok r =>
        simp only [hr] at h
        cases hm : f.mem_accessed with
        | false => simp [hm] at h
        | true =>
          simp only [hm, if_true] at h
          cases hb : stoull (if (st.opcodeToTypeMap.subscript f.opcode .IntBase).1 = .Atomic
              then atomicAddress else f.mem_address) 16 with
          | error e =>
            have he : e ≠ .invalidOpcode := by
              intro he; rw [he] at hb; exact hstoull _ _ hb
            simp only [hb] at h
            split_ifs at h <;> simp only [Except.error.injEq] at h <;>
              first | exact he h | cases h
          | ok base =>
            simp only [hb] at h
            split_ifs at h <;> cases h
  · intro h
    have hc : st.opcodeToTypeMap.count f.opcode = 0 := (Table.count_eq_zero _ _).mpr h
    simp [fillInstr, hc, bind, Except.bind, throw, throwThe, MonadExceptOf.throw]

/-- The opcode token of a tokenised line is the second token the tokenizer
returns, the one after the program counter. -/
theorem scanInstr_opcode (d : Defs) (line : Str) (f : Fields) (h : scanInstr d line = .ok f) :
    ∃ c1 c2, parseNext line (some 3) = .ok (f.pc, c1) ∧
      parseNext line c1 = .ok (f.opcode, c2) := by
  unfold scanInstr at h
  simp only [bind, Except.bind, pure, Except.pure] at h
  cases h1 : parseNext line (some 3) with
  | error e => simp [h1] at h
  | ok r1 =>
    obtain ⟨pc, c1⟩ := r1
    simp only [h1] at h
    cases h2 : parseNext line c1 with
    | error e => simp [h2] at h
    | ok r2 =>
      obtain ⟨opcode, c2⟩ := r2
      simp only [h2] at h
      cases h3 : scanOperands d line (line.length + 2) c2 [] with
      | error e => simp [h3] at h
      | ok os =>
        simp only [h3] at h
        split_ifs at h
        · cases h4 : parseNext line (os.getD ⟨[], false, none⟩).current_pos with
          | error e => simp [h4] at h
          | ok r4 =>
            simp only [h4, Except.ok.injEq] at h
            subst h
            exact ⟨c1, c2, rfl, h2⟩
        · simp only [Except.ok.injEq] at h
          subst h
          exact ⟨c1, c2, rfl, h2⟩

/-! ## Claim C12: the opcode check -/

set_option maxRecDepth 100000 in
/-- C12 as stated fails: the field `add,` is no key of `opcodeToTypeMap`,
yet the line `@I 0x1000 add, x1 x2 x3` decodes, as an addition.  The
tokenizer returns every token normalised, the opcode too, so the key looked
up is `add`. -/
theorem parseInstr_opcode_comma :
    typeTable.get? "add,".toList = none ∧
    decodeLine ⟨4, 4⟩ "@I 0x1000 add, x1 x2 x3".toList =
      .ok ⟨0x1000, 4, .IntBase, [2, 3], [1], none, none⟩ := by
  decide

/-- C12, amended: for every instruction line that the tokenizer splits
without a fault, and every stream, let `t` be the opcode token, that is the
second token the tokenizer returns (normalised: without a trailing comma,
or the text between parentheses).  When `t` is no key of `opcodeToTypeMap`
the decode fails with "Invalid opcode" and gives no instruction; when `t`
is a key the decode does not fail with "Invalid opcode".  The keys are
compared exactly, so `ADD` is no key. -/
theorem parseInstr_invalid_opcode (d : Defs) (st : RiscvStream) (line : Str) (f : Fields)
    (hs : scanInstr d line = .ok f) :
    (∃ pc c1 c2, parseNext line (some 3) = .ok (pc, c1) ∧
      parseNext line c1 = .ok (f.opcode, c2)) ∧
    (st.opcodeToTypeMap.get? f.opcode = none → parseInstr d st line = .error .invalidOpcode) ∧
    (st.opcodeToTypeMap.get? f.opcode ≠ none → parseInstr d st line ≠ .error .invalidOpcode) := by
  obtain ⟨c1, c2, h1, h2⟩ := scanInstr_opcode d line f hs
  have hp : parseInstr d st line = fillInstr d st f := by
    simp only [parseInstr, hs, bind, Except.bind]
  refine ⟨⟨f.pc, c1, c2, h1, h2⟩, ?_, ?_⟩
  · intro h
    rw [hp]
    exact (fillInstr_invalidOpcode d st f).mpr h
  · intro h hf
    rw [hp] at hf
    exact h ((fillInstr_invalidOpcode d st f).mp hf)

set_option maxRecDepth 100000 in
/-- Witness of C12: `ADD` is no key, and the line `@I 0x1000 ADD x1 x2 x3`
fails with "Invalid opcode". -/
theorem parseInstr_invalid_opcode_witness :
    scanInstr ⟨4, 4⟩ "@I 0x1000 ADD x1 x2 x3".toList =
        .ok ⟨"0x1000".toList, "ADD".toList, ["x1".toList, "x2".toList, "x3".toList],
          false, []⟩ ∧
      typeTable.get? "ADD".toList = none ∧
      parseInstr ⟨4, 4⟩ (RiscvStream.mk0 ⟨4, 4⟩ [] false false false blankInstr)
        "@I 0x1000 ADD x1 x2 x3".toList = .error .invalidOpcode :=
  have h : scanInstr ⟨4, 4⟩ "@I 0x1000 ADD x1 x2 x3".toList =
        .ok ⟨"0x1000".toList, "ADD".toList, ["x1".toList, "x2".toList, "x3".toList],
          false, []⟩ ∧
      typeTable.get? "ADD".toList = none := by decide
  ⟨h.1, h.2,
    (parseInstr_invalid_opcode ⟨4, 4⟩ (RiscvStream.mk0 ⟨4, 4⟩ [] false false false blankInstr)
      "@I 0x1000 ADD x1 x2 x3".toList
      ⟨"0x1000".toList, "ADD".toList, ["x1".toList, "x2".toList, "x3".toList], false, []⟩
      h.1).2.1 h.2⟩

/-! ## Claim C15: register sets by position -/

/-- On a stream with the opcode tables of `initMaps`, the array
`syntaxMap[opcode]` of a registered opcode is its role string of `initMaps`
stored in `MAX_OPERANDS` characters. -/
theorem roleArray_initial (d : Defs) (st : RiscvStream) (k : Str)
    (ht : registryInitial d st) (hk : st.opcodeToTypeMap.get? k ≠ none) :
    roleArray d st k = storedRoles d k := by
  obtain ⟨t1, t2, _, _, _⟩ := ht
  have hty : typeTable.get? k ≠ none := by
    rw [t1] at hk; exact hk
  obtain ⟨ty, hty'⟩ := Option.ne_none_iff_exists'.mp hty
  obtain ⟨_, hr, _⟩ := registered_everywhere k (Table.get?_mem_keys _ _ _ hty')
  obtain ⟨role, hrole⟩ := Option.isSome_iff_exists.mp hr
  simp only [roleArray, Table.subscript_fst, t2, syntaxMap_get?, hrole, Option.map_some',
    Option.getD_some, storedRoles]

/-- C15: for every instruction line that decodes successfully, on any
stream: let `t_0..t_(k-1)` be the register-operand tokens the scan has
collected, in line order, and `s` the role array `syntaxMap[opcode]` (on the
tables of `initMaps`: the role string of the opcode stored in `MAX_OPERANDS`
characters).  Every position below `k` holds `W` or `R`; the write set is the
list of the identifiers `regMap[t_i]` at the positions with `s[i] = 'W'`, in
increasing `i`; the read set is the list of those at the positions with
`s[i] = 'R'`; the read count plus the write count is `k`, and `k`, hence
each set, is at most `MAX_OPERANDS`. -/
theorem parseInstr_roles (d : Defs) (st st' : RiscvStream) (line : Str)
    (hp : parseInstr d st line = .ok st') :
    ∃ f, scanInstr d line = .ok f ∧
      (∀ i, i < f.operands.length →
        (roleArray d st f.opcode).getD i NUL = 'W' ∨
          (roleArray d st f.opcode).getD i NUL = 'R') ∧
      st'.instr.writeSet = idsWithRole st.regMap 'W' (roleArray d st f.opcode) 0 f.operands ∧
      st'.instr.readSet = idsWithRole st.regMap 'R' (roleArray d st f.opcode) 0 f.operands ∧
      st'.instr.regReadCount + st'.instr.regWriteCount = f.operands.length ∧
      f.operands.length ≤ d.MAX_OPERANDS ∧
      st'.instr.readSet.length ≤ d.MAX_OPERANDS ∧
      st'.instr.writeSet.length ≤ d.MAX_OPERANDS ∧
      (registryInitial d st → roleArray d st f.opcode = storedRoles d f.opcode) := by
  obtain ⟨f, hs, hf⟩ := parseInstr_ok d st st' line hp
  obtain ⟨pcv, r, hc, _, hr, _, _, _, _, _, _, _, e1, e2, e3, e4, _⟩ :=
    fillInstr_inv d st st' f hf
  obtain ⟨a1, a2, a3, a4, _⟩ := assignRoles_inv _ _ _ _ _ hr
  have hlen := (scanInstr_inv d line).2 f hs
  simp only [List.range_zero, List.map_nil, List.nil_append, Nat.add_zero, Nat.zero_add] at a2 a3 a4
  have hkey : st.opcodeToTypeMap.get? f.opcode ≠ none := by
    intro h; exact hc ((Table.count_eq_zero _ _).mpr h)
  refine ⟨f, hs, ?_, ?_, ?_, ?_, hlen, ?_, ?_, fun ht => roleArray_initial d st _ ht hkey⟩
  · intro i hi
    have := a1 i hi
    simpa only [Nat.zero_add] using this
  · simp only [Instruction.writeSet, e2, e4]; exact a3
  · simp only [Instruction.readSet, e1, e3]; exact a2
  · rw [e3, e4]; exact a4
  · simp only [Instruction.readSet, List.length_map, List.length_range, e3]; omega
  · simp only [Instruction.writeSet, List.length_map, List.length_range, e4]; omega

set_option maxRecDepth 100000 in
/-- Witness of C15: the line `@I 0x1000 add x1 x2 x3` decodes, with write
set `[1]` and read set `[2, 3]`. -/
theorem parseInstr_roles_witness :
    (parseInstr ⟨4, 4⟩ (RiscvStream.mk0 ⟨4, 4⟩ [] false false false blankInstr)
        "@I 0x1000 add x1 x2 x3".toList).map (fun st => (st.instr.writeSet, st.instr.readSet)) =
      .ok ([1], [2, 3]) ∧
    ∃ st', parseInstr ⟨4, 4⟩ (RiscvStream.mk0 ⟨4, 4⟩ [] false false false blankInstr)
        "@I 0x1000 add x1 x2 x3".toList = .ok st' ∧
      ∃ f, scanInstr ⟨4, 4⟩ "@I 0x1000 add x1 x2 x3".toList = .ok f ∧
        st'.instr.regReadCount + st'.instr.regWriteCount = f.operands.length ∧
        f.operands.length ≤ 4 := by
  have hd : (parseInstr ⟨4, 4⟩ (RiscvStream.mk0 ⟨4, 4⟩ [] false false false blankInstr)
      "@I 0x1000 add x1 x2 x3".toList).map (fun st => (st.instr.writeSet, st.instr.readSet)) =
      .ok ([1], [2, 3]) := by decide
  refine ⟨hd, ?_⟩
  cases hp : parseInstr ⟨4, 4⟩ (RiscvStream.mk0 ⟨4, 4⟩ [] false false false blankInstr)
      "@I 0x1000 add x1 x2 x3".toList with
  | error e => rw [hp] at hd; cases hd
  | ok st' =>
    obtain ⟨f, hs, _, _, _, hcount, hlen, _⟩ :=
      parseInstr_roles ⟨4, 4⟩ _ st' "@I 0x1000 add x1 x2 x3".toList hp
    exact ⟨st', rfl, f, hs, hcount, hlen⟩

/-! ## The memory descriptors of a decode -/

/-- The memory descriptors in terms of the scan: for every instruction line
that decodes successfully on a stream with the opcode tables of `initMaps`.
When the operand scan has met a
memory marker and the address token `a` after it: if the access kind of the
opcode is `L`, the load count is 1, the load base is the value `stoull`
reads from `a` in base 16 (the value of `a` when `a` is a hexadecimal
token), the load length is the entry of the opcode in `memLengthMap`, and
the store count is 0; if the kind is `S`, the same holds of the store
descriptor and the load count is 0.  When the access kind of the opcode is
none, both counts are 0 (and no marker was met). -/
theorem parseInstr_memory_descriptors (d : Defs) (st st' : RiscvStream) (line : Str)
    (ht : registryInitial d st) (hp : parseInstr d st line = .ok st') :
    ∃ f, scanInstr d line = .ok f ∧
      (f.mem_accessed = true → accessKind f.opcode = 'L' →
        st'.instr.memLoadCount = 1 ∧ st'.instr.memStoreCount = 0 ∧
        stoull f.mem_address 16 = .ok st'.instr.memLoadBase ∧
        (isHexToken f.mem_address = true →
          st'.instr.memLoadBase = hexTokenValue f.mem_address) ∧
        lengthTable.get? f.opcode = some st'.instr.memLoadLength ∧
        st'.instr.memStore = none) ∧
      (f.mem_accessed = true → accessKind f.opcode = 'S' →
        st'.instr.memStoreCount = 1 ∧ st'.instr.memLoadCount = 0 ∧
        stoull f.mem_address 16 = .ok st'.instr.memStoreBase ∧
        (isHexToken f.mem_address = true →
          st'.instr.memStoreBase = hexTokenValue f.mem_address) ∧
        lengthTable.get? f.opcode = some st'.instr.memStoreLength ∧
        st'.instr.memLoad = none) ∧
      (accessKind f.opcode = NUL →
        f.mem_accessed = false ∧ st'.instr.memLoadCount = 0 ∧ st'.instr.memStoreCount = 0 ∧
        st'.instr.memLoad = none ∧ st'.instr.memStore = none) := by
  obtain ⟨f, hs, hf⟩ := parseInstr_ok d st st' line hp
  obtain ⟨pcv, r, hc, _, _, _, _, _, _, _, _, _, _, _, _, _, hmem⟩ :=
    fillInstr_inv d st st' f hf
  obtain ⟨t1, t2, t3, t4, t5⟩ := ht
  have hkey : typeTable.get? f.opcode ≠ none := by
    intro h
    apply hc
    rw [Table.count_eq_zero, t1]
    exact h
  obtain ⟨ty, hty⟩ := Option.ne_none_iff_exists'.mp hkey
  have hmemkeys := Table.get?_mem_keys _ _ _ hty
  have hnat : ty ≠ .Atomic := fun e => no_atomic_opcode _ hmemkeys (by rw [hty, e])
  obtain ⟨_, _, hacc⟩ := registered_everywhere f.opcode hmemkeys
  obtain ⟨acc, hacc⟩ := Option.isSome_iff_exists.mp hacc
  have hkind : (st.memAccessMap.subscript f.opcode NUL).1 = accessKind f.opcode := by
    rw [Table.subscript_fst, t3]; rfl
  have hty1 : (st.opcodeToTypeMap.subscript f.opcode .IntBase).1 = ty := by
    rw [Table.subscript_fst, t1]
    show (typeTable.get? f.opcode).getD _ = ty
    rw [hty]; rfl
  have hlen : accessKind f.opcode ≠ NUL →
      lengthTable.get? f.opcode = some (st.memLengthMap.subscript f.opcode 0).1 := by
    intro hk
    have hne : accessTable.get? f.opcode ≠ some NUL := by
      intro e
      apply hk
      simp only [accessKind, e, Option.getD_some]
    have := access_has_length f.opcode (Table.get?_mem_keys _ _ _ hacc) hne
    obtain ⟨len, hl⟩ := Option.isSome_iff_exists.mp this
    rw [Table.subscript_fst, t4]
    show _ = some ((lengthTable.get? f.opcode).getD 0)
    rw [hl]; rfl
  have hL : ¬ ('L' = NUL) := by decide
  have hS : ¬ ('S' = NUL) := by decide
  have hA : ¬ ('A' = NUL) := by decide
  have hSL : ¬ ('S' = 'L') := by decide
  have hAL : ¬ ('A' = 'L') := by decide
  have hAS : ¬ ('A' = 'S') := by decide
  refine ⟨f, hs, ?_, ?_, ?_⟩
  · intro hm hk
    rcases hmem with ⟨hm', _⟩ | ⟨_, _, _, base, hbase, hcase⟩
    · rw [hm] at hm'; cases hm'
    · rw [hty1] at hbase
      simp only [hnat, if_false] at hbase
      rw [hkind, hk] at hcase
      rcases hcase with ⟨_, c1, c2, c3, c4⟩ | ⟨e, _⟩ | ⟨e, _⟩
      · refine ⟨c1, c2, by rw [c3]; exact hbase, ?_, ?_, ?_⟩
        · intro hx
          obtain ⟨_, _, _, hv⟩ := hexToken_facts _ hx
          rw [hv] at hbase
          rw [c3]
          exact (Except.ok.inj hbase).symm
        · rw [c4]; exact hlen (by rw [hk]; exact hL)
        · simp only [Instruction.memStore, c2, if_true]
      · exact absurd e.symm hSL
      · exact absurd e.symm hAL
  · intro hm hk
    rcases hmem with ⟨hm', _⟩ | ⟨_, _, _, base, hbase, hcase⟩
    · rw [hm] at hm'; cases hm'
    · rw [hty1] at hbase
      simp only [hnat, if_false] at hbase
      rw [hkind, hk] at hcase
      rcases hcase with ⟨e, _⟩ | ⟨_, c1, c2, c3, c4⟩ | ⟨e, _⟩
      · exact absurd e hSL
      · refine ⟨c2, c1, by rw [c3]; exact hbase, ?_, ?_, ?_⟩
        · intro hx
          obtain ⟨_, _, _, hv⟩ := hexToken_facts _ hx
          rw [hv] at hbase
          rw [c3]
          exact (Except.ok.inj hbase).symm
        · rw [c4]; exact hlen (by rw [hk]; exact hS)
        · simp only [Instruction.memLoad, c1, if_true]
      · exact absurd e.symm hAS
  · intro hk
    rcases hmem with ⟨hm', c1, c2, _⟩ | ⟨_, _, _, base, hbase, hcase⟩
    · exact ⟨hm', c1, c2, by simp only [Instruction.memLoad, c1, if_true],
        by simp only [Instruction.memStore, c2, if_true]⟩
    · rw [hkind, hk] at hcase
      rcases hcase with ⟨e, _⟩ | ⟨e, _⟩ | ⟨e, _⟩
      · exact absurd e.symm hL
      · exact absurd e.symm hS
      · exact absurd e.symm hA

theorem mk0_registryInitial (d : Defs) (trace : List Str) (bp ic dc : Bool)
    (instr0 : Instruction) : registryInitial d (RiscvStream.mk0 d trace bp ic dc instr0) := by
  simp only [registryInitial, RiscvStream.mk0, and_self]

/-! ## Claim C16: missing fetch and branch annotations -/

/-- The line `getline` leaves in its argument: the first line of the file,
or the empty string when the file has no line left. -/
theorem getline_line (file : List Str) : (getline file).2.1 = file.headD [] := by
  cases file <;> rfl

/-- The instruction branch of the pull on a well-formed line when the line
that follows in the file is not the annotation the switches ask for. -/
theorem onInstrLine_missing (d : Defs) (st : RiscvStream) (l : InstrLine) (log : List Warning)
    (ht : tablesInitial d st) (h : l.wf d = true) :
    (st.traceICache = true → beginsWith (st.traceFile.headD []) "@F " = false →
      onInstrLine d st l.text log = .error .expectingFetchCycles) ∧
    (st.traceICache = false → st.traceBP = true →
      beginsWith (st.traceFile.headD []) "@B " = false →
      onInstrLine d st l.text log = .error .expectingBranchPrediction) ∧
    (st.traceICache = true → st.traceBP = true → 0 < d.TICKS_PER_CYCLE →
      ∀ t rest, st.traceFile = ("@F ".toList ++ t) :: rest → isDecimalField t = true →
        beginsWith (rest.headD []) "@B " = false →
        onInstrLine d st l.text log = .error .expectingBranchPrediction) := by
  obtain ⟨i, hp, _⟩ := parseInstr_wf d st l h ht
  refine ⟨?_, ?_, ?_⟩
  · intro hic hline
    rw [← getline_line] at hline
    simp only [onInstrLine, hp, hic, hline, bind, Except.bind, if_true, throw, throwThe,
      MonadExceptOf.throw]
  · intro hic hbp hline
    rw [← getline_line] at hline
    simp only [onInstrLine, hp, hic, hbp, hline, bind, Except.bind, if_true, if_false, throw,
      throwThe, MonadExceptOf.throw, pure, Except.pure, Bool.false_eq_true]
  · intro hic hbp hd t rest hfile ht hline
    rw [← getline_line] at hline
    simp only [isDecimalField, Bool.and_eq_true, bne_iff_ne, ne_eq, decide_eq_true_eq] at ht
    obtain ⟨⟨hne, hall⟩, hv⟩ := ht
    have hcyc := (parseCycles_digits d hd t hne hall hv "@F ".toList rfl).1
    have htag : beginsWith ("@F ".toList ++ t) "@F " = true := by
      simp [beginsWith]
    have hg : getline (("@F ".toList ++ t) :: rest) = (true, "@F ".toList ++ t, rest) := rfl
    simp only [onInstrLine, hp, hic, hbp, hfile, hg, htag, hcyc, hline, bind, Except.bind,
      if_true, if_false, throw, throwThe, MonadExceptOf.throw, pure, Except.pure,
      Bool.true_eq_false, Bool.false_eq_true]

/-- C16: on a stream with the tables of `initMaps`, for every well-formed
instruction line the pull takes, from the source or from the lookahead
buffer, with `file` the lines that follow it in the source.  With
fetch-tracing on, the pull fails with "Expecting fetch cycles" when the first
line of `file` does not begin with `@F `, an exhausted source included (the
failed read leaves the empty line).  With branch-tracing on, the pull fails
with "Expecting branch prediction result" when the line after the
instruction line (fetch-tracing off), or after the instruction line and its
well-formed fetch line (fetch-tracing on, positive ticks-per-cycle divisor),
does not begin with `@B `.  In each case the pull returns no instruction. -/
theorem next_annotation_missing (d : Defs) (st : RiscvStream) (l : InstrLine)
    (file : List Str) (ht : tablesInitial d st) (h : l.wf d = true)
    (hsrc : (st.readFromFile = true ∧ st.traceFile = l.text :: file) ∨
      (st.readFromFile = false ∧ st.lastInstrLine = l.text ∧ st.traceFile = file)) :
    (st.traceICache = true → beginsWith (file.headD []) "@F " = false →
      next d st = .error .expectingFetchCycles) ∧
    (st.traceICache = false → st.traceBP = true →
      beginsWith (file.headD []) "@B " = false →
      next d st = .error .expectingBranchPrediction) ∧
    (st.traceICache = true → st.traceBP = true → 0 < d.TICKS_PER_CYCLE →
      ∀ t rest, file = ("@F ".toList ++ t) :: rest → isDecimalField t = true →
        beginsWith (rest.headD []) "@B " = false →
        next d st = .error .expectingBranchPrediction) := by
  have htag := text_instr_tag l
  have hne : l.text ≠ [] := text_ne_nil (.instr l)
  rcases hsrc with ⟨hrf, hf⟩ | ⟨hrf, hl, hf⟩
  · have hnext : next d st = onInstrLine d { st with traceFile := file } l.text [] := by
      simp only [next, hrf, if_true, hf, nextFromFile, htag]
    rw [hnext]
    have ht' : tablesInitial d { st with traceFile := file } := by
      obtain ⟨t1, t2, t3, t4, t5, t6⟩ := ht
      exact ⟨t1, t2, t3, t4, t5, t6⟩
    have := onInstrLine_missing d { st with traceFile := file } l [] ht' h
    simp only at this
    exact this
  · subst hf
    have hnext : next d st = onInstrLine d { st with readFromFile := true } l.text [] := by
      simp only [next, hrf, hl, hne, htag, if_true, if_false, Bool.false_eq_true]
    rw [hnext]
    have ht' : tablesInitial d { st with readFromFile := true } := by
      obtain ⟨t1, t2, t3, t4, t5, t6⟩ := ht
      exact ⟨t1, t2, t3, t4, t5, t6⟩
    have := onInstrLine_missing d { st with readFromFile := true } l [] ht' h
    simp only at this
    exact this

set_option maxRecDepth 100000 in
/-- Witness of C16: with fetch- and branch-tracing on, the trace
`@I 0x1000 add x1 x2 x3`, `@B 1` has no fetch line after the instruction
line, and the pull fails with "Expecting fetch cycles". -/
theorem next_annotation_missing_witness :
    (tablesInitial ⟨4, 4⟩ (RiscvStream.mk0 ⟨4, 4⟩
        ["@I 0x1000 add x1 x2 x3".toList, "@B 1".toList] true true false blankInstr) ∧
      (addLine "0x1000".toList "x1".toList "x2".toList "x3".toList).wf ⟨4, 4⟩ = true ∧
      beginsWith (["@B 1".toList].headD []) "@F " = false) ∧
    next ⟨4, 4⟩ (RiscvStream.mk0 ⟨4, 4⟩
        ["@I 0x1000 add x1 x2 x3".toList, "@B 1".toList] true true false blankInstr) =
      .error .expectingFetchCycles := by
  have ht : tablesInitial ⟨4, 4⟩ (RiscvStream.mk0 ⟨4, 4⟩
      ["@I 0x1000 add x1 x2 x3".toList, "@B 1".toList] true true false blankInstr) := by
    simp only [tablesInitial, RiscvStream.mk0, and_self]
  have hf := mk0_fields ⟨4, 4⟩ ["@I 0x1000 add x1 x2 x3".toList, "@B 1".toList] true true false
    blankInstr
  have hic : (RiscvStream.mk0 ⟨4, 4⟩ ["@I 0x1000 add x1 x2 x3".toList, "@B 1".toList]
      true true false blankInstr).traceICache = true := by
    simp only [RiscvStream.mk0]
  have hall : (addLine "0x1000".toList "x1".toList "x2".toList "x3".toList).wf ⟨4, 4⟩ = true ∧
      beginsWith (["@B 1".toList].headD []) "@F " = false ∧
      ["@I 0x1000 add x1 x2 x3".toList, "@B 1".toList] =
        (addLine "0x1000".toList "x1".toList "x2".toList "x3".toList).text ::
          ["@B 1".toList] := by decide
  exact ⟨⟨ht, hall.1, hall.2.1⟩,
    (next_annotation_missing ⟨4, 4⟩ _
      (addLine "0x1000".toList "x1".toList "x2".toList "x3".toList) ["@B 1".toList] ht
      hall.1 (Or.inl ⟨hf.2.1, hf.1.trans hall.2.2⟩)).1 hic hall.2.1⟩

/-! ## Untagged lines from the source and from the buffer -/

/-- A line that begins with none of the tags: read from the source it is the
error "Invalid trace line", also after stray annotation lines; held in the
lookahead buffer it is that error when it is not empty, and when it is empty
the pull returns no instruction and no error. -/
theorem next_untagged_line (d : Defs) (st : RiscvStream) (line : Str)
    (h1 : beginsWith line "@I " = false) (h2 : isStray line = false) :
    (∀ file, st.readFromFile = true → st.traceFile = line :: file →
      next d st = .error .invalidTraceLine) ∧
    (st.readFromFile = false → st.lastInstrLine = line → line ≠ [] →
      next d st = .error .invalidTraceLine) ∧
    (st.readFromFile = false → st.lastInstrLine = [] →
      next d st = .ok ⟨none, { st with readFromFile := true }, []⟩) := by
  refine ⟨?_, ?_, ?_⟩
  · intro file hrf hf
    simp only [next, hrf, if_true, hf, nextFromFile, h1, h2, Bool.false_eq_true, if_false]
  · intro hrf hl hne
    simp only [next, hrf, hl, hne, h1, h2, Bool.false_eq_true, if_false]
  · intro hrf hl
    simp only [next, hrf, hl, Bool.false_eq_true, if_false, if_true]

/-! ## What a decode does to the tables -/

/-- Looking up names that the table holds leaves the table as it is. -/
theorem lookedUp_known (names : List Str) :
    ∀ m : Table Nat, (∀ n ∈ names, m.get? n ≠ none) → lookedUp m names = m := by
  induction names with
  | nil => intro m _; rfl
  | cons n ns ih =>
    intro m h
    have hn : (m.subscript n 0).2 = m :=
      Table.subscript_snd m n 0 (h n (List.mem_cons_self _ _))
    simp only [lookedUp, List.foldl_cons, hn]
    exact ih m (fun x hx => h x (List.mem_cons_of_mem _ hx))

/-- A successful decode on a stream with the opcode tables of `initMaps`
leaves the five opcode tables as they are; `regMap` undergoes the lookups of
the scanned operands, so it gains an entry with value 0 for every operand
name it did not hold, and is unchanged when it held them all. -/
theorem parseInstr_tables (d : Defs) (st st' : RiscvStream) (line : Str)
    (ht : registryInitial d st) (hp : parseInstr d st line = .ok st') :
    registryInitial d st' ∧
      ∃ f, scanInstr d line = .ok f ∧ st'.regMap = lookedUp st.regMap f.operands ∧
        ((∀ n ∈ f.operands, st.regMap.get? n ≠ none) → st'.regMap = st.regMap) := by
  obtain ⟨f, hs, hf⟩ := parseInstr_ok d st st' line hp
  obtain ⟨pcv, r, hc, _, hr, e1, e2, e3, e4, _, _, _, _, _, _, _, hmem⟩ :=
    fillInstr_inv d st st' f hf
  obtain ⟨_, _, _, _, hreg⟩ := assignRoles_inv _ _ _ _ _ hr
  obtain ⟨t1, t2, t3, t4, t5⟩ := ht
  have hkey : typeTable.get? f.opcode ≠ none := by
    intro h
    apply hc
    rw [Table.count_eq_zero, t1]
    exact h
  obtain ⟨ty, hty⟩ := Option.ne_none_iff_exists'.mp hkey
  have hmemkeys := Table.get?_mem_keys _ _ _ hty
  obtain ⟨hb, hrole, hacc⟩ := registered_everywhere f.opcode hmemkeys
  obtain ⟨acc, hacc'⟩ := Option.isSome_iff_exists.mp hacc
  have k1 : st.opcodeToTypeMap.get? f.opcode ≠ none := by rw [t1]; exact hkey
  have k2 : st.syntaxMap.get? f.opcode ≠ none := by
    rw [t2, syntaxMap_get?]
    obtain ⟨role, hrole'⟩ := Option.isSome_iff_exists.mp hrole
    rw [hrole']; simp
  have k3 : st.memAccessMap.get? f.opcode ≠ none := by
    rw [t3]
    show accessTable.get? f.opcode ≠ none
    rw [hacc']; simp
  have k5 : st.bytesMap.get? f.opcode ≠ none := by
    rw [t5]
    obtain ⟨b, hb'⟩ := Option.isSome_iff_exists.mp hb
    show bytesTable.get? f.opcode ≠ none
    rw [hb']; simp
  rw [Table.subscript_snd _ _ _ k1] at e2
  rw [Table.subscript_snd _ _ _ k2] at e3
  rw [Table.subscript_snd _ _ _ k5] at e4
  have hA : ¬ ('L' = NUL) := by decide
  have hB : ¬ ('S' = NUL) := by decide
  have hC : ¬ ('A' = NUL) := by decide
  have e56 : st'.memAccessMap = st.memAccessMap ∧ st'.memLengthMap = st.memLengthMap := by
    rcases hmem with ⟨_, _, _, m1, m2⟩ | ⟨_, m1, m2, base, _, hcase⟩
    · exact ⟨m1, m2⟩
    · rw [Table.subscript_snd _ _ _ k3] at m1
      refine ⟨m1, ?_⟩
      have hkind : (st.memAccessMap.subscript f.opcode NUL).1 = acc := by
        rw [Table.subscript_fst, t3]
        show (accessTable.get? f.opcode).getD NUL = acc
        rw [hacc']; rfl
      have hne : accessTable.get? f.opcode ≠ some NUL := by
        rw [hacc']
        intro e
        have e' : acc = NUL := Option.some.inj e
        rw [hkind, e'] at hcase
        rcases hcase with ⟨x, _⟩ | ⟨x, _⟩ | ⟨x, _⟩
        · exact hA x.symm
        · exact hB x.symm
        · exact hC x.symm
      have hl := access_has_length f.opcode (Table.get?_mem_keys _ _ _ hacc') hne
      have k4 : st.memLengthMap.get? f.opcode ≠ none := by
        rw [t4]
        obtain ⟨len, hl'⟩ := Option.isSome_iff_exists.mp hl
        show lengthTable.get? f.opcode ≠ none
        rw [hl']; simp
      rw [Table.subscript_snd _ _ _ k4] at m2
      exact m2
  refine ⟨⟨by rw [e2]; exact t1, by rw [e3]; exact t2, by rw [e56.1]; exact t3,
    by rw [e56.2]; exact t4, by rw [e4]; exact t5⟩, f, hs, ?_, ?_⟩
  · rw [e1]; exact hreg
  · intro hall
    rw [e1, hreg]
    exact lookedUp_known _ _ hall

/-! ## A pull with any switches -/

/-- The instruction branch of the pull once `parseInstr` has succeeded, for
any setting of the three switches, when each line a switch asks for is there
and is read well: a line `fl` that begins with `@F ` when fetch-tracing is
on, then a line `bl` that begins with `@B ` when branch-tracing is on, then a
line `ml` that begins with `@M ` when memory-tracing is on and the class is
load, store or atomic.  The pull consumes exactly these lines, sets the three
fields from them, logs the misprediction of a regular instruction, and leaves
the lookahead flag as it was. -/
theorem onInstrLine_annotated (d : Defs) (st : RiscvStream) (line : Str) (log : List Warning)
    (i : Instruction) (hp : parseInstr d st line = .ok { st with instr := i })
    (fl bl ml : Str) (cf cm : Nat) (flag : Bool) (rest : List Str)
    (hfile : st.traceFile =
      (if st.traceICache = true then [fl] else []) ++
      (if st.traceBP = true then [bl] else []) ++
      (if st.traceDCache = true ∧ (i.executionType = .Load ∨ i.executionType = .Store ∨
          i.executionType = .Atomic) then [ml] else []) ++ rest)
    (tF : st.traceICache = true → beginsWith fl "@F " = true)
    (hf : st.traceICache = true → parseFetchCycles d fl = .ok cf)
    (tB : st.traceBP = true → beginsWith bl "@B " = true)
    (hb : st.traceBP = true → parseBranch bl = .ok flag)
    (tM : st.traceDCache = true → (i.executionType = .Load ∨ i.executionType = .Store ∨
        i.executionType = .Atomic) → beginsWith ml "@M " = true)
    (hm : st.traceDCache = true → (i.executionType = .Load ∨ i.executionType = .Store ∨
        i.executionType = .Atomic) → parseMemoryCycles d ml = .ok cm) :
    onInstrLine d st line log =
      .ok ⟨some (annotate i (if st.traceICache = true then some cf else none)
            (if st.traceBP = true then some flag else none)
            (if st.traceDCache = true ∧ (i.executionType = .Load ∨ i.executionType = .Store ∨
                i.executionType = .Atomic) then some cm else none)),
        { st with instr := (annotate i (if st.traceICache = true then some cf else none)
            (if st.traceBP = true then some flag else none)
            (if st.traceDCache = true ∧ (i.executionType = .Load ∨ i.executionType = .Store ∨
                i.executionType = .Atomic) then some cm else none)),
                  traceFile := rest, lastInstrLine := line },
        log ++ (if st.traceBP = true ∧ flag = true ∧ i.executionType ≠ .BranchCond ∧
            i.executionType ≠ .BranchUncond ∧ i.executionType ≠ .Syscall
          then [Warning.mispredictionRegular line] else [])⟩ := by
  have g : ∀ (x : Str) (r : List Str), getline (x :: r) = (true, x, r) := fun _ _ => rfl
  cases hic : st.traceICache <;> cases hbp : st.traceBP <;> cases hdc : st.traceDCache <;>
    by_cases hmem : (i.executionType = .Load ∨ i.executionType = .Store ∨
        i.executionType = .Atomic) <;>
    by_cases hw : (flag = true ∧ i.executionType ≠ .BranchCond ∧
        i.executionType ≠ .BranchUncond ∧ i.executionType ≠ .Syscall) <;>
    simp only [hic, hbp, hdc, hmem, if_true, if_false, Bool.false_eq_true, true_and, false_and,
      and_true, and_false, List.nil_append, List.singleton_append, List.append_nil,
      forall_true_left, forall_const, false_implies, implies_true] at hfile hf hb hm tF tB tM ⊢ <;>
    simp [onInstrLine, hp, hfile, g, tF, tB, tM, hf, hb, hm, hic, hbp, hdc, hmem, hw, annotate,
      bind, Except.bind, pure, Except.pure]

/-- A pull that starts on a well-formed instruction line, from the source or
from the lookahead buffer, on a stream with the tables of `initMaps` and any
setting of the switches, when every annotation line a switch asks for follows
and is read well.  The pull returns the decoded instruction with the three
fields set from the lines read, consumes exactly these lines, and leaves the
stream reading from the source. -/
theorem next_annotated (d : Defs) (st : RiscvStream) (l : InstrLine)
    (fl bl ml : Str) (cf cm : Nat) (flag : Bool) (rest : List Str)
    (ht : tablesInitial d st) (h : l.wf d = true)
    (hsrc : (st.readFromFile = true ∧ st.traceFile = l.text ::
        ((if st.traceICache = true then [fl] else []) ++
        (if st.traceBP = true then [bl] else []) ++
        (if st.traceDCache = true ∧ ((l.decoded d).executionType = .Load ∨
            (l.decoded d).executionType = .Store ∨ (l.decoded d).executionType = .Atomic)
          then [ml] else []) ++ rest)) ∨
      (st.readFromFile = false ∧ st.lastInstrLine = l.text ∧ st.traceFile =
        (if st.traceICache = true then [fl] else []) ++
        (if st.traceBP = true then [bl] else []) ++
        (if st.traceDCache = true ∧ ((l.decoded d).executionType = .Load ∨
            (l.decoded d).executionType = .Store ∨ (l.decoded d).executionType = .Atomic)
          then [ml] else []) ++ rest))
    (tF : st.traceICache = true → beginsWith fl "@F " = true)
    (hf : st.traceICache = true → parseFetchCycles d fl = .ok cf)
    (tB : st.traceBP = true → beginsWith bl "@B " = true)
    (hb : st.traceBP = true → parseBranch bl = .ok flag)
    (tM : st.traceDCache = true → ((l.decoded d).executionType = .Load ∨
        (l.decoded d).executionType = .Store ∨ (l.decoded d).executionType = .Atomic) →
      beginsWith ml "@M " = true)
    (hm : st.traceDCache = true → ((l.decoded d).executionType = .Load ∨
        (l.decoded d).executionType = .Store ∨ (l.decoded d).executionType = .Atomic) →
      parseMemoryCycles d ml = .ok cm) :
    ∃ i p, i.decoded = l.decoded d ∧ i.fetchCycles = st.instr.fetchCycles ∧
      i.mispredicted = st.instr.mispredicted ∧ i.lsCycles = st.instr.lsCycles ∧
      next d st = .ok p ∧
      p.result = some (annotate i (if st.traceICache = true then some cf else none)
        (if st.traceBP = true then some flag else none)
        (if st.traceDCache = true ∧ ((l.decoded d).executionType = .Load ∨
            (l.decoded d).executionType = .Store ∨ (l.decoded d).executionType = .Atomic)
          then some cm else none)) ∧
      p.stream.instr = annotate i (if st.traceICache = true then some cf else none)
        (if st.traceBP = true then some flag else none)
        (if st.traceDCache = true ∧ ((l.decoded d).executionType = .Load ∨
            (l.decoded d).executionType = .Store ∨ (l.decoded d).executionType = .Atomic)
          then some cm else none) ∧
      p.stream.traceFile = rest ∧ p.stream.readFromFile = true ∧
      p.stream.lastInstrLine = l.text ∧
      p.log = (if st.traceBP = true ∧ flag = true ∧
          (l.decoded d).executionType ≠ .BranchCond ∧
          (l.decoded d).executionType ≠ .BranchUncond ∧
          (l.decoded d).executionType ≠ .Syscall
        then [Warning.mispredictionRegular l.text] else []) ∧
      tablesInitial d p.stream ∧ p.stream.traceICache = st.traceICache ∧
      p.stream.traceBP = st.traceBP ∧ p.stream.traceDCache = st.traceDCache := by
  have htag := text_instr_tag l
  have hne : l.text ≠ [] := text_ne_nil (.instr l)
  obtain ⟨t1, t2, t3, t4, t5, t6⟩ := ht
  generalize hL : (if st.traceICache = true then [fl] else []) ++
        (if st.traceBP = true then [bl] else []) ++
        (if st.traceDCache = true ∧ ((l.decoded d).executionType = .Load ∨
            (l.decoded d).executionType = .Store ∨ (l.decoded d).executionType = .Atomic)
          then [ml] else []) ++ rest = lines at hsrc
  rcases hsrc with ⟨hrf, hfile⟩ | ⟨hrf, hl, hfile⟩
  · have hnext : next d st = onInstrLine d { st with traceFile := lines } l.text [] := by
      simp only [next, hrf, if_true, hfile, nextFromFile, htag]
    have ht0 : tablesInitial d { st with traceFile := lines } := ⟨t1, t2, t3, t4, t5, t6⟩
    obtain ⟨i, hp, hdec, g1, g2, g3⟩ := parseInstr_wf d { st with traceFile := lines } l h ht0
    have hcls : i.executionType = (l.decoded d).executionType := by
      rw [← hdec]; rfl
    have key := onInstrLine_annotated d { st with traceFile := lines } l.text [] i hp
      fl bl ml cf cm flag rest (by rw [hcls]; exact hL.symm) tF hf tB hb
      (by rw [hcls]; exact tM) (by rw [hcls]; exact hm)
    rw [hcls] at key
    exact ⟨i, _, hdec, g1, g2, g3, hnext.trans key, rfl, rfl, rfl, hrf, rfl, by simp,
      ⟨t1, t2, t3, t4, t5, t6⟩, rfl, rfl, rfl⟩
  · subst hfile
    have hnext : next d st = onInstrLine d { st with readFromFile := true } l.text [] := by
      simp only [next, hrf, hl, hne, htag, if_true, if_false, Bool.false_eq_true]
    have ht0 : tablesInitial d { st with readFromFile := true } := ⟨t1, t2, t3, t4, t5, t6⟩
    obtain ⟨i, hp, hdec, g1, g2, g3⟩ :=
      parseInstr_wf d { st with readFromFile := true } l h ht0
    have hcls : i.executionType = (l.decoded d).executionType := by
      rw [← hdec]; rfl
    have key := onInstrLine_annotated d { st with readFromFile := true } l.text [] i hp
      fl bl ml cf cm flag rest (by rw [hcls]; exact hL.symm) tF hf tB hb
      (by rw [hcls]; exact tM) (by rw [hcls]; exact hm)
    rw [hcls] at key
    exact ⟨i, _, hdec, g1, g2, g3, hnext.trans key, rfl, rfl, rfl, rfl, rfl, by simp,
      ⟨t1, t2, t3, t4, t5, t6⟩, rfl, rfl, rfl⟩

/-- The branch parser on a line `@B b` whose field begins with `0` or `1`
and holds no `(`: the flag is true for `0` and false for `1`. -/
theorem parseBranch_flag (b : Str) (c : Char) (hc : b.head? = some c)
    (h01 : c = '0' ∨ c = '1') (hp : '(' ∉ b) :
    parseBranch ("@B ".toList ++ b) = .ok (decide (c = '0')) := by
  obtain ⟨b', rfl⟩ : ∃ b', b = c :: b' := by
    cases b with
    | nil => simp at hc
    | cons x xs =>
      simp only [List.head?_cons, Option.some.injEq] at hc
      exact ⟨xs, by rw [hc]⟩
  have hcs : (c != ' ') = true := by
    rcases h01 with rfl | rfl <;> decide
  have hraw : rawToken ("@B ".toList ++ c :: b') 3 = c :: b'.takeWhile (fun x => x != ' ') := by
    show ((("@B ".toList ++ c :: b').drop 3).takeWhile (fun x => x != ' ')) = _
    have : ("@B ".toList ++ c :: b').drop 3 = c :: b' := rfl
    rw [this, List.takeWhile_cons, hcs]
    rfl
  have hne : rawToken ("@B ".toList ++ c :: b') 3 ≠ [] := by rw [hraw]; simp
  have hpr : '(' ∉ rawToken ("@B ".toList ++ c :: b') 3 := by
    rw [hraw]
    intro hmem
    apply hp
    rcases List.mem_cons.mp hmem with e | e
    · rw [e]; exact List.mem_cons_self _ _
    · exact List.mem_cons_of_mem _ ((List.takeWhile_prefix _).subset e)
  have h3 : 3 ≤ ("@B ".toList ++ c :: b').length := by
    simp only [List.length_append, List.length_cons]
    have : "@B ".toList.length = 3 := rfl
    omega
  obtain ⟨tok, htok, hres⟩ := parseBranch_of_field _ h3 hne
  have hhead : tok.head? = some c := by
    by_cases hl : (rawToken ("@B ".toList ++ c :: b') 3).getLast? = some ','
    · rcases List.eq_nil_or_concat (rawToken ("@B ".toList ++ c :: b') 3) with e | ⟨init, x, e⟩
      · exact absurd e hne
      · rw [List.concat_eq_append] at e
        have hx : x = ',' := by
          rw [e] at hl
          simpa using hl
        subst hx
        have hin : '(' ∉ init := by
          intro hm
          apply hpr
          rw [e]
          exact List.mem_append_left _ hm
        rw [e, normalize_comma init hin] at htok
        have htok' : init = tok := Except.ok.inj htok
        rw [← htok']
        rw [hraw] at e
        cases init with
        | nil =>
          simp only [List.nil_append, List.cons.injEq] at e
          rcases h01 with rfl | rfl
          · exact absurd e.1 (by decide)
          · exact absurd e.1 (by decide)
        | cons y ys =>
          simp only [List.cons_append, List.cons.injEq] at e
          rw [← e.1]
          rfl
    · rw [normalize_plain _ hpr hne hl] at htok
      have htok' : rawToken ("@B ".toList ++ c :: b') 3 = tok := Except.ok.inj htok
      rw [← htok', hraw]
      rfl
  rw [hres, hhead]
  rcases h01 with rfl | rfl
  · simp
  · have : ¬ (some '1' = some '0') := by decide
    simp [this]

/-- The class a well-formed line decodes to is the class `initMaps` gives its
opcode, and that is never the atomic class. -/
theorem decoded_class_not_atomic (d : Defs) (l : InstrLine) (h : l.wf d = true) :
    (l.decoded d).executionType ≠ .Atomic := by
  obtain ⟨_, ⟨ty, hty⟩, _⟩ := InstrLine.wf_parts d l h
  have hk := no_atomic_opcode l.opcode (Table.get?_mem_keys _ _ _ hty)
  intro e
  apply hk
  simp only [InstrLine.decoded, hty, Option.getD_some] at e
  rw [hty, e]

/-! ## Claim C23: all three annotations -/

/-- C23: with all three switches on and a positive ticks-per-cycle divisor,
on a stream with the tables of `initMaps` that reads from the source, for
every well-formed instruction line followed by `@F f`, `@B b` and, for the
load and store classes, `@M m`, where `f` and `m` are decimal fields whose
cycle counts fit 32 bits and `b` begins with `0` or `1` (and holds no `(`).
One pull returns the decoded instruction with fetch-cycle count `f div d`,
misprediction flag true exactly when `b` begins with `0`, and, for a load or
store, memory-access cycle count `m div d`; it consumes the instruction line
and its three annotation lines (two for another class, whose memory-access
cycle count keeps its value), so the source stands at the line after them
and the lookahead buffer is not in use. -/
theorem next_all_annotations (d : Defs) (st : RiscvStream) (l : InstrLine) (f b m : Str)
    (c : Char) (rest : List Str) (ht : tablesInitial d st) (h : l.wf d = true)
    (hic : st.traceICache = true) (hbp : st.traceBP = true) (hdc : st.traceDCache = true)
    (hd : 0 < d.TICKS_PER_CYCLE) (hrf : st.readFromFile = true)
    (hf : isDecimalField f = true) (hfq : digitsValue 10 f / d.TICKS_PER_CYCLE < 2 ^ 32)
    (hb : b.head? = some c) (h01 : c = '0' ∨ c = '1') (hbpar : '(' ∉ b)
    (hm : isDecimalField m = true) (hmq : digitsValue 10 m / d.TICKS_PER_CYCLE < 2 ^ 32) :
    (((l.decoded d).executionType = .Load ∨ (l.decoded d).executionType = .Store) →
      st.traceFile = l.text :: ("@F ".toList ++ f) :: ("@B ".toList ++ b) ::
        ("@M ".toList ++ m) :: rest →
      ∃ p i, next d st = .ok p ∧ p.result = some i ∧ i.decoded = l.decoded d ∧
        i.fetchCycles = digitsValue 10 f / d.TICKS_PER_CYCLE ∧
        i.mispredicted = decide (c = '0') ∧
        i.lsCycles = digitsValue 10 m / d.TICKS_PER_CYCLE ∧
        p.stream.traceFile = rest ∧ p.stream.readFromFile = true) ∧
    ((l.decoded d).executionType ≠ .Load → (l.decoded d).executionType ≠ .Store →
      st.traceFile = l.text :: ("@F ".toList ++ f) :: ("@B ".toList ++ b) :: rest →
      ∃ p i, next d st = .ok p ∧ p.result = some i ∧ i.decoded = l.decoded d ∧
        i.fetchCycles = digitsValue 10 f / d.TICKS_PER_CYCLE ∧
        i.mispredicted = decide (c = '0') ∧
        i.lsCycles = st.instr.lsCycles ∧
        p.stream.traceFile = rest ∧ p.stream.readFromFile = true) := by
  have hna := decoded_class_not_atomic d l h
  have dec : ∀ t, isDecimalField t = true →
      t ≠ [] ∧ t.all (isDigitOf 10) = true ∧ digitsValue 10 t < 2 ^ 64 := by
    intro t ht
    simp only [isDecimalField, Bool.and_eq_true, bne_iff_ne, ne_eq, decide_eq_true_eq] at ht
    exact ⟨ht.1.1, ht.1.2, ht.2⟩
  obtain ⟨f1, f2, f3⟩ := dec f hf
  obtain ⟨m1, m2, m3⟩ := dec m hm
  have hcf := (parseCycles_digits d hd f f1 f2 f3 "@F ".toList rfl).1
  have hcm := (parseCycles_digits d hd m m1 m2 m3 "@M ".toList rfl).2
  rw [Nat.mod_eq_of_lt hfq] at hcf
  rw [Nat.mod_eq_of_lt hmq] at hcm
  have hflag := parseBranch_flag b c hb h01 hbpar
  have tF : beginsWith ("@F ".toList ++ f) "@F " = true := by simp [beginsWith]
  have tB : beginsWith ("@B ".toList ++ b) "@B " = true := by simp [beginsWith]
  have tM : beginsWith ("@M ".toList ++ m) "@M " = true := by simp [beginsWith]
  constructor
  · intro hcls hfile
    have hmem : (l.decoded d).executionType = .Load ∨ (l.decoded d).executionType = .Store ∨
        (l.decoded d).executionType = .Atomic := by
      rcases hcls with e | e
      · exact Or.inl e
      · exact Or.inr (Or.inl e)
    obtain ⟨i, p, hdec, _, _, _, hnext, hres, _, htf, hrf', _⟩ :=
      next_annotated d st l ("@F ".toList ++ f) ("@B ".toList ++ b) ("@M ".toList ++ m)
        (digitsValue 10 f / d.TICKS_PER_CYCLE) (digitsValue 10 m / d.TICKS_PER_CYCLE)
        (decide (c = '0')) rest ht h
        (Or.inl ⟨hrf, by simp only [hic, hbp, hdc, hmem, and_self, if_true]; exact hfile⟩)
        (fun _ => tF) (fun _ => hcf) (fun _ => tB) (fun _ => hflag) (fun _ _ => tM)
        (fun _ _ => hcm)
    simp only [hic, hbp, hdc, hmem, and_self, if_true] at hres
    exact ⟨p, _, hnext, hres, hdec, rfl, rfl, rfl, htf, hrf'⟩
  · intro hnl hns hfile
    have hmem : ¬ ((l.decoded d).executionType = .Load ∨ (l.decoded d).executionType = .Store ∨
        (l.decoded d).executionType = .Atomic) := by
      rintro (e | e | e)
      · exact hnl e
      · exact hns e
      · exact hna e
    obtain ⟨i, p, hdec, _, _, g3, hnext, hres, _, htf, hrf', _⟩ :=
      next_annotated d st l ("@F ".toList ++ f) ("@B ".toList ++ b) ("@M ".toList ++ m)
        (digitsValue 10 f / d.TICKS_PER_CYCLE) (digitsValue 10 m / d.TICKS_PER_CYCLE)
        (decide (c = '0')) rest ht h
        (Or.inl ⟨hrf, by
          simp only [hic, hbp, hdc, hmem, and_false, if_true, if_false, List.append_nil]
          exact hfile⟩)
        (fun _ => tF) (fun _ => hcf) (fun _ => tB) (fun _ => hflag) (fun _ _ => tM)
        (fun _ _ => hcm)
    simp only [hic, hbp, hdc, hmem, and_false, if_true, if_false] at hres
    exact ⟨p, _, hnext, hres, hdec, rfl, rfl, g3, htf, hrf'⟩

set_option maxRecDepth 100000 in
/-- Witness of C23: the load `@I 0x2000 ldr x1 0x10(x5) @ 0x7ff0` followed by
`@F 12`, `@B 0`, `@M 40` and another instruction line, at 4 ticks per
cycle: fetch-cycle count 3, misprediction flag true, memory-access cycle
count 10, and the source stands at the fifth line. -/
theorem next_all_annotations_witness :
    ((ldrLine "0x2000".toList "x1".toList "0x10".toList "x5".toList
        (some ("@".toList, "0x7ff0".toList))).wf ⟨4, 4⟩ = true ∧
      isDecimalField "12".toList = true ∧ isDecimalField "40".toList = true ∧
      digitsValue 10 "12".toList / 4 = 3 ∧ digitsValue 10 "40".toList / 4 = 10) ∧
    ∃ p i, next ⟨4, 4⟩ (RiscvStream.mk0 ⟨4, 4⟩
        ["@I 0x2000 ldr x1 0x10(x5) @ 0x7ff0".toList, "@F 12".toList, "@B 0".toList,
          "@M 40".toList, "@I 0x1000 add x1 x2 x3".toList] true true true blankInstr) = .ok p ∧
      p.result = some i ∧
      i.decoded = ⟨0x2000, 4, .Load, [5], [1], some (0x7ff0, 8), none⟩ ∧
      i.fetchCycles = 3 ∧ i.mispredicted = true ∧ i.lsCycles = 10 ∧
      p.stream.traceFile = ["@I 0x1000 add x1 x2 x3".toList] ∧
      p.stream.readFromFile = true := by
  have hall : ((ldrLine "0x2000".toList "x1".toList "0x10".toList "x5".toList
        (some ("@".toList, "0x7ff0".toList))).wf ⟨4, 4⟩ = true ∧
      isDecimalField "12".toList = true ∧ isDecimalField "40".toList = true ∧
      digitsValue 10 "12".toList / 4 = 3 ∧ digitsValue 10 "40".toList / 4 = 10) ∧
      (ldrLine "0x2000".toList "x1".toList "0x10".toList "x5".toList
        (some ("@".toList, "0x7ff0".toList))).decoded ⟨4, 4⟩ =
        ⟨0x2000, 4, .Load, [5], [1], some (0x7ff0, 8), none⟩ ∧
      ["@I 0x2000 ldr x1 0x10(x5) @ 0x7ff0".toList, "@F 12".toList, "@B 0".toList,
          "@M 40".toList, "@I 0x1000 add x1 x2 x3".toList] =
        (ldrLine "0x2000".toList "x1".toList "0x10".toList "x5".toList
          (some ("@".toList, "0x7ff0".toList))).text :: ("@F ".toList ++ "12".toList) ::
          ("@B ".toList ++ "0".toList) :: ("@M ".toList ++ "40".toList) ::
          ["@I 0x1000 add x1 x2 x3".toList] := by decide
  obtain ⟨hyp, hdec, htext⟩ := hall
  refine ⟨hyp, ?_⟩
  have ht : tablesInitial ⟨4, 4⟩ (RiscvStream.mk0 ⟨4, 4⟩
      ["@I 0x2000 ldr x1 0x10(x5) @ 0x7ff0".toList, "@F 12".toList, "@B 0".toList,
        "@M 40".toList, "@I 0x1000 add x1 x2 x3".toList] true true true blankInstr) := by
    simp only [tablesInitial, RiscvStream.mk0, and_self]
  have hfld := mk0_fields ⟨4, 4⟩
      ["@I 0x2000 ldr x1 0x10(x5) @ 0x7ff0".toList, "@F 12".toList, "@B 0".toList,
        "@M 40".toList, "@I 0x1000 add x1 x2 x3".toList] true true true blankInstr
  obtain ⟨p, i, h1, h2, h3, h4, h5, h6, h7, h8⟩ :=
    (next_all_annotations ⟨4, 4⟩ _
      (ldrLine "0x2000".toList "x1".toList "0x10".toList "x5".toList
        (some ("@".toList, "0x7ff0".toList))) "12".toList "0".toList "40".toList '0'
      ["@I 0x1000 add x1 x2 x3".toList] ht hyp.1
      (by simp only [RiscvStream.mk0]) (by simp only [RiscvStream.mk0]) hfld.2.2.1
      (by decide) hfld.2.1 hyp.2.1 (by rw [hyp.2.2.2.1]; decide) rfl (Or.inl rfl) (by decide)
      hyp.2.2.1 (by rw [hyp.2.2.2.2]; decide)).1
      (by rw [hdec]; exact Or.inl rfl) (hfld.1.trans htext)
  refine ⟨p, i, h1, h2, h3.trans hdec, ?_, ?_, ?_, h7, h8⟩
  · rw [h4]; exact hyp.2.2.2.1
  · rw [h5]; rfl
  · rw [h6]; exact hyp.2.2.2.2

/-! ## Claim C24: a misprediction on any class -/

/-- C24: with branch-tracing on, on a stream with the tables of `initMaps`
and any setting of the other two switches, for every well-formed instruction
line, of any class, whose branch line `@B b` has a field that begins with
`0` (and holds no `(`); the fetch line before it and the memory line after
it, where the switches ask for them, are lines that are read well.  The pull
succeeds and returns the decoded instruction with the misprediction flag
true, and the flag stays true in the stream.  When the class is none of
conditional branch, unconditional branch, system call, the pull logs the
warning "Misprediction for a regular instruction" and nothing else;
otherwise it logs nothing. -/
theorem next_mispredicted (d : Defs) (st : RiscvStream) (l : InstrLine)
    (fl b ml : Str) (cf cm : Nat) (rest : List Str)
    (ht : tablesInitial d st) (h : l.wf d = true) (hbp : st.traceBP = true)
    (hb : b.head? = some '0') (hbpar : '(' ∉ b)
    (hsrc : (st.readFromFile = true ∧ st.traceFile = l.text ::
        ((if st.traceICache = true then [fl] else []) ++ ["@B ".toList ++ b] ++
        (if st.traceDCache = true ∧ ((l.decoded d).executionType = .Load ∨
            (l.decoded d).executionType = .Store ∨ (l.decoded d).executionType = .Atomic)
          then [ml] else []) ++ rest)) ∨
      (st.readFromFile = false ∧ st.lastInstrLine = l.text ∧ st.traceFile =
        (if st.traceICache = true then [fl] else []) ++ ["@B ".toList ++ b] ++
        (if st.traceDCache = true ∧ ((l.decoded d).executionType = .Load ∨
            (l.decoded d).executionType = .Store ∨ (l.decoded d).executionType = .Atomic)
          then [ml] else []) ++ rest))
    (tF : st.traceICache = true → beginsWith fl "@F " = true)
    (hf : st.traceICache = true → parseFetchCycles d fl = .ok cf)
    (tM : st.traceDCache = true → ((l.decoded d).executionType = .Load ∨
        (l.decoded d).executionType = .Store ∨ (l.decoded d).executionType = .Atomic) →
      beginsWith ml "@M " = true)
    (hm : st.traceDCache = true → ((l.decoded d).executionType = .Load ∨
        (l.decoded d).executionType = .Store ∨ (l.decoded d).executionType = .Atomic) →
      parseMemoryCycles d ml = .ok cm) :
    ∃ p i, next d st = .ok p ∧ p.result = some i ∧ i.decoded = l.decoded d ∧
      i.mispredicted = true ∧ p.stream.instr.mispredicted = true ∧
      (regularClass (l.decoded d).executionType →
        p.log = [Warning.mispredictionRegular l.text]) ∧
      (¬ regularClass (l.decoded d).executionType → p.log = []) := by
  have hflag := parseBranch_flag b '0' hb (Or.inl rfl) hbpar
  have tB : beginsWith ("@B ".toList ++ b) "@B " = true := by simp [beginsWith]
  obtain ⟨i, p, hdec, _, _, _, hnext, hres, hinstr, _, _, _, hlog, _⟩ :=
    next_annotated d st l fl ("@B ".toList ++ b) ml cf cm true rest ht h
      (by simp only [hbp, if_true]; exact hsrc)
      tF hf (fun _ => tB) (fun _ => hflag) tM hm
  simp only [hbp, if_true] at hres hinstr
  refine ⟨p, _, hnext, hres, hdec, rfl, by rw [hinstr]; rfl, ?_, ?_⟩
  · intro hreg
    rw [hlog]
    have : st.traceBP = true ∧ true = true ∧ (l.decoded d).executionType ≠ .BranchCond ∧
        (l.decoded d).executionType ≠ .BranchUncond ∧
        (l.decoded d).executionType ≠ .Syscall := ⟨hbp, rfl, hreg⟩
    rw [if_pos this]
  · intro hreg
    rw [hlog]
    have : ¬ (st.traceBP = true ∧ true = true ∧ (l.decoded d).executionType ≠ .BranchCond ∧
        (l.decoded d).executionType ≠ .BranchUncond ∧
        (l.decoded d).executionType ≠ .Syscall) := fun x => hreg x.2.2
    rw [if_neg this]

set_option maxRecDepth 100000 in
/-- Witness of C24: with only branch-tracing on, the addition
`@I 0x1000 add x1 x2 x3` followed by `@B 0` is returned with the flag true
and the warning. -/
theorem next_mispredicted_witness :
    ((addLine "0x1000".toList "x1".toList "x2".toList "x3".toList).wf ⟨4, 4⟩ = true ∧
      "0".toList.head? = some '0' ∧ '(' ∉ "0".toList ∧
      regularClass ((addLine "0x1000".toList "x1".toList "x2".toList
        "x3".toList).decoded ⟨4, 4⟩).executionType) ∧
    ∃ p i, next ⟨4, 4⟩ (RiscvStream.mk0 ⟨4, 4⟩
        ["@I 0x1000 add x1 x2 x3".toList, "@B 0".toList] true false false blankInstr) = .ok p ∧
      p.result = some i ∧ i.mispredicted = true ∧ p.stream.instr.mispredicted = true ∧
      p.log = [Warning.mispredictionRegular "@I 0x1000 add x1 x2 x3".toList] := by
  have hall : ((addLine "0x1000".toList "x1".toList "x2".toList "x3".toList).wf ⟨4, 4⟩ = true ∧
      "0".toList.head? = some '0' ∧ '(' ∉ "0".toList ∧
      (((addLine "0x1000".toList "x1".toList "x2".toList
          "x3".toList).decoded ⟨4, 4⟩).executionType ≠ .BranchCond ∧
        ((addLine "0x1000".toList "x1".toList "x2".toList
          "x3".toList).decoded ⟨4, 4⟩).executionType ≠ .BranchUncond ∧
        ((addLine "0x1000".toList "x1".toList "x2".toList
          "x3".toList).decoded ⟨4, 4⟩).executionType ≠ .Syscall)) ∧
      ["@I 0x1000 add x1 x2 x3".toList, "@B 0".toList] =
        (addLine "0x1000".toList "x1".toList "x2".toList "x3".toList).text ::
          ([] ++ ["@B ".toList ++ "0".toList] ++ [] ++ []) ∧
      (addLine "0x1000".toList "x1".toList "x2".toList "x3".toList).text =
        "@I 0x1000 add x1 x2 x3".toList := by decide
  obtain ⟨hyp, htext, hline⟩ := hall
  refine ⟨hyp, ?_⟩
  have ht : tablesInitial ⟨4, 4⟩ (RiscvStream.mk0 ⟨4, 4⟩
      ["@I 0x1000 add x1 x2 x3".toList, "@B 0".toList] true false false blankInstr) := by
    simp only [tablesInitial, RiscvStream.mk0, and_self]
  have hfld := mk0_fields ⟨4, 4⟩ ["@I 0x1000 add x1 x2 x3".toList, "@B 0".toList]
    true false false blankInstr
  have hic : (RiscvStream.mk0 ⟨4, 4⟩ ["@I 0x1000 add x1 x2 x3".toList, "@B 0".toList]
      true false false blankInstr).traceICache = false := by simp only [RiscvStream.mk0]
  have hbp : (RiscvStream.mk0 ⟨4, 4⟩ ["@I 0x1000 add x1 x2 x3".toList, "@B 0".toList]
      true false false blankInstr).traceBP = true := by simp only [RiscvStream.mk0]
  obtain ⟨p, i, h1, h2, _, h4, h5, h6, _⟩ :=
    next_mispredicted ⟨4, 4⟩ _
      (addLine "0x1000".toList "x1".toList "x2".toList "x3".toList) [] "0".toList [] 0 0 []
      ht hyp.1 hbp hyp.2.1 hyp.2.2.1
      (Or.inl ⟨hfld.2.1, by
        rw [hfld.1, hic, hfld.2.2.1]
        simp only [Bool.false_eq_true, false_and, if_false]
        exact htext⟩)
      (fun e => by rw [hic] at e; cases e) (fun e => by rw [hic] at e; cases e)
      (fun e => by rw [hfld.2.2.1] at e; cases e) (fun e => by rw [hfld.2.2.1] at e; cases e)
  exact ⟨p, i, h1, h2, h4, h5, by rw [h6 hyp.2.2.2, hline]⟩

/-! ## Claim C26: what an instruction keeps from earlier ones -/

set_option maxRecDepth 100000 in
/-- C26 as stated fails.  With memory-tracing on, the line
`@I 0x1000 add x1 x2 x3` read after the load `@I 0x2000 ldr x1 x5 @ 0x7ff0`
with its memory line `@M 40` is returned with the load base `0x7ff0`, the
load length 8 and the memory-access cycle count 10 of the load, while the
same line read first on a fresh stream is returned with the values of the
fresh instruction (here 0): `parseInstr` clears the two memory counts and
leaves the bases, the lengths and the three annotation fields as they
are. -/
theorem next_keeps_earlier_fields :
    (pulls ⟨4, 4⟩ 2 (RiscvStream.mk0 ⟨4, 4⟩
        ["@I 0x2000 ldr x1 x5 @ 0x7ff0".toList, "@M 40".toList,
          "@I 0x1000 add x1 x2 x3".toList] false false true blankInstr)).map
      (fun r => r.1.map (fun o => o.map
        (fun i => (i.decoded, [i.memLoadBase, i.memLoadLength, i.lsCycles])))) =
      .ok [some (⟨0x2000, 4, .Load, [5], [1], some (0x7ff0, 8), none⟩, [0x7ff0, 8, 10]),
        some (⟨0x1000, 4, .IntBase, [2, 3], [1], none, none⟩, [0x7ff0, 8, 10])] ∧
    (pulls ⟨4, 4⟩ 1 (RiscvStream.mk0 ⟨4, 4⟩
        ["@I 0x1000 add x1 x2 x3".toList] false false true blankInstr)).map
      (fun r => r.1.map (fun o => o.map
        (fun i => (i.decoded, [i.memLoadBase, i.memLoadLength, i.lsCycles])))) =
      .ok [some (⟨0x1000, 4, .IntBase, [2, 3], [1], none, none⟩, [0, 0, 0])] := by
  decide

/-! ## The operand scan and the operand cap -/

/-- With `MAX_OPERANDS` operands collected the loop is left at once, the
cursor where it stands. -/
theorem scanOperands_full (d : Defs) (line : Str) (fuel : Nat) (cur : Option Nat)
    (acc : List Str) (h : ¬ acc.length < d.MAX_OPERANDS) :
    scanOperands d line (fuel + 1) cur acc = .ok (some ⟨acc, false, cur⟩) := by
  rw [scanOperands]
  simp only [h, if_false, pure, Except.pure]

/-- The operand scan over recognised register operands followed, or not, by
a memory marker and an address: it collects the first `MAX_OPERANDS`
registers, and reads the marker when fewer than `MAX_OPERANDS` operands
precede it. -/
theorem scanOperands_anatomy (d : Defs) (ops : List Operand) (mem : Option (Str × Str))
    (hops : ∀ o ∈ ops, o.wf = true)
    (hmem : ∀ m a, mem = some (m, a) → isMarker m = true ∧ isHexToken a = true)
    (pre : Str) (fuel : Nat) :
    ∃ cur, scanOperands d (pre ++ joinTokens (ops.map Operand.raw ++ memTokens mem))
          (fuel + 1 + 1 + ops.length)
          (cursorOf pre (ops.map Operand.raw ++ memTokens mem)) [] =
        .ok (some ⟨(ops.map Operand.reg).take d.MAX_OPERANDS,
          mem.isSome && decide (ops.length < d.MAX_OPERANDS), cur⟩) ∧
      ∀ m a, mem = some (m, a) → ops.length < d.MAX_OPERANDS →
        parseNext (pre ++ joinTokens (ops.map Operand.raw ++ memTokens mem)) cur =
          .ok (a, none) := by
  by_cases hle : ops.length ≤ d.MAX_OPERANDS
  · obtain ⟨pre', e, hscan⟩ := scanOperands_operands d ops (memTokens mem) pre []
      (fuel + 1 + 1) hops (by simpa using hle)
    rw [hscan, e]
    have htake : (ops.map Operand.reg).take d.MAX_OPERANDS = ops.map Operand.reg :=
      List.take_of_length_le (by simpa using hle)
    simp only [List.nil_append, htake]
    cases hm : mem with
    | none =>
      refine ⟨none, ?_, fun m a e' => by simp at e'⟩
      simp only [memTokens, cursorOf, Option.isSome_none, Bool.false_and]
      exact scanOperands_end d _ _ (fuel + 1)
    | some ma =>
      obtain ⟨m, a⟩ := ma
      obtain ⟨hmk, hax⟩ := hmem m a hm
      obtain ⟨has, hane, han, _⟩ := hexToken_facts a hax
      refine ⟨if ops.length < d.MAX_OPERANDS then cursorOf (advance pre' m [a]) [a]
          else some pre'.length, ?_, ?_⟩
      · simp only [memTokens, cursorOf_cons]
        rw [scanOperands_marker d pre' m a _ (fuel + 1) hmk]
        simp [cursorOf_cons]
      · intro m' a' e' hlt
        simp only [Option.some.injEq, Prod.mk.injEq] at e'
        obtain ⟨rfl, rfl⟩ := e'
        simp only [hlt, if_true, memTokens, cursorOf_cons]
        rw [join_advance pre' m [a], parseNext_token (advance pre' m [a]) a [] has, han]
        rfl
  · obtain ⟨o1, o2, rfl, hlen⟩ : ∃ o1 o2, ops = o1 ++ o2 ∧ o1.length = d.MAX_OPERANDS :=
      ⟨ops.take d.MAX_OPERANDS, ops.drop d.MAX_OPERANDS, (List.take_append_drop _ _).symm,
        by rw [List.length_take]; omega⟩
    have hsplit : (o1 ++ o2).map Operand.raw ++ memTokens mem =
        o1.map Operand.raw ++ (o2.map Operand.raw ++ memTokens mem) := by
      rw [List.map_append, List.append_assoc]
    obtain ⟨pre', e, hscan⟩ := scanOperands_operands d o1 (o2.map Operand.raw ++ memTokens mem)
      pre [] (fuel + 1 + 1 + o2.length) (fun o ho => hops o (List.mem_append_left _ ho))
      (by simp [hlen])
    have hfuel : fuel + 1 + 1 + (o1 ++ o2).length = fuel + 1 + 1 + o2.length + o1.length := by
      rw [List.length_append]; omega
    have hnlt : ¬ (o1 ++ o2).length < d.MAX_OPERANDS := by
      rw [List.length_append]; omega
    have htake : ((o1 ++ o2).map Operand.reg).take d.MAX_OPERANDS = o1.map Operand.reg := by
      rw [List.map_append, List.take_left' (by simpa using hlen)]
    refine ⟨cursorOf pre' (o2.map Operand.raw ++ memTokens mem), ?_,
      fun m a _ hlt => absurd hlt hnlt⟩
    rw [hsplit, hfuel, hscan, htake]
    simp only [List.nil_append, hnlt, decide_False, Bool.and_false]
    have hfull : ¬ (o1.map Operand.reg).length < d.MAX_OPERANDS := by
      rw [List.length_map]; omega
    have hf2 : fuel + 1 + 1 + o2.length = (fuel + 1 + o2.length) + 1 := by omega
    rw [hf2]
    exact scanOperands_full d _ _ _ _ hfull

/-- The tokenising part of `parseInstr` on a line made of a hexadecimal
program counter, a registered opcode, recognised register operands and, or
not, a memory marker with a hexadecimal address: the operands are the first
`MAX_OPERANDS` registers; memory is marked accessed, and the address taken,
when there is a marker and fewer than `MAX_OPERANDS` operands precede it. -/
theorem scanInstr_anatomy (d : Defs) (l : InstrLine) (hpc : isHexToken l.pc = true)
    (hty : (typeTable.get? l.opcode).isSome = true) (hops : ∀ o ∈ l.operands, o.wf = true)
    (hmem : ∀ m a, l.mem = some (m, a) → isMarker m = true ∧ isHexToken a = true) :
    scanInstr d l.text =
      .ok ⟨l.pc, l.opcode, (l.operands.map Operand.reg).take d.MAX_OPERANDS, l.markerSeen d,
        match l.mem with
        | none => []
        | some (_, a) => if l.markerSeen d then a else []⟩ := by
  obtain ⟨ty, hty⟩ := Option.isSome_iff_exists.mp hty
  obtain ⟨pcs, pcne, pcn, _⟩ := hexToken_facts l.pc hpc
  obtain ⟨ops, opne, opp, opl⟩ := opcode_names l.opcode (Table.get?_mem_keys _ _ _ hty)
  generalize hrest : l.operands.map Operand.raw ++ memTokens l.mem = rest
  have htext : l.text = "@I ".toList ++ joinTokens (l.pc :: l.opcode :: rest) := by
    rw [← hrest]; rfl
  generalize hp1 : advance "@I ".toList l.pc (l.opcode :: rest) = pre1
  generalize hp2 : advance pre1 l.opcode rest = pre2
  have h1 : parseNext l.text (some 3) = .ok (l.pc, some pre1.length) := by
    have := parseNext_token "@I ".toList l.pc (l.opcode :: rest) pcs
    rw [pcn, hp1] at this
    rw [htext]
    exact this
  have e1 : l.text = pre1 ++ joinTokens (l.opcode :: rest) := by
    rw [htext, join_advance, hp1]
  have h2 : parseNext l.text (some pre1.length) = .ok (l.opcode, cursorOf pre2 rest) := by
    rw [e1, parseNext_token pre1 l.opcode rest ops, normalize_plain l.opcode opp opne opl, hp2]
    rfl
  have e2 : l.text = pre2 ++ joinTokens rest := by
    rw [e1, join_advance, hp2]
  have hlen : l.operands.length ≤ l.text.length := by
    have hne : ∀ t ∈ l.operands.map Operand.raw, t ≠ [] := by
      intro t ht
      obtain ⟨o, ho, rfl⟩ := List.mem_map.mp ht
      exact (Operand.registerToken o (hops o ho)).2.1
    have := length_joinTokens _ hne
    have hsub : (joinTokens (l.operands.map Operand.raw)).length ≤ (joinTokens rest).length := by
      rw [← hrest]
      exact length_joinTokens_append _ _
    rw [e2]
    simp only [List.length_append, List.length_map] at this ⊢
    omega
  obtain ⟨cur, hscan, haddr⟩ :=
    scanOperands_anatomy d l.operands l.mem hops hmem pre2 (l.text.length - l.operands.length)
  have hfuel : l.text.length - l.operands.length + 1 + 1 + l.operands.length =
      l.text.length + 2 := by omega
  rw [hrest, ← e2] at hscan haddr
  rw [hfuel] at hscan
  unfold scanInstr
  simp only [h1, h2, hscan, bind, Except.bind, Option.getD]
  cases hm : l.mem with
  | none =>
    simp [InstrLine.markerSeen, hm, pure, Except.pure]
  | some ma =>
    obtain ⟨m, a⟩ := ma
    by_cases hlt : l.operands.length < d.MAX_OPERANDS
    · simp [InstrLine.markerSeen, hm, hlt, haddr m a hm hlt, pure, Except.pure]
    · simp [InstrLine.markerSeen, hm, hlt, pure, Except.pure]

/-! ## Claim C22: the memory marker after the operands -/

set_option maxRecDepth 100000 in
/-- C22, counterexample: with `MAX_OPERANDS = 4`, on the line
`@I 0x1000 madd x1 x2 x3 x4 @ 0x10` the marker follows four register
operands; the scan stops after the fourth operand without reading the
marker: memory is not marked accessed and no address is taken.  With three
operands before it the marker is read. -/
theorem scanInstr_marker_after_cap :
    scanInstr ⟨4, 4⟩ "@I 0x1000 madd x1 x2 x3 x4 @ 0x10".toList =
        .ok ⟨"0x1000".toList, "madd".toList,
          ["x1".toList, "x2".toList, "x3".toList, "x4".toList], false, []⟩ ∧
      scanInstr ⟨4, 4⟩ "@I 0x1000 madd x1 x2 x3 @ 0x10".toList =
        .ok ⟨"0x1000".toList, "madd".toList,
          ["x1".toList, "x2".toList, "x3".toList], true, "0x10".toList⟩ := by
  decide

/-! ## Claim C21: operands beyond the role string -/

/-- The role loop fails only with "Invalid operand", and only at a position
whose role is neither `W` nor `R`. -/
theorem assignRoles_error (syn : Str) (ops : List Str) :
    ∀ (i : Nat) (r : Roles) (e : Fault), assignRoles syn ops i r = .error e →
      e = .invalidOperand ∧
        ∃ j, j < ops.length ∧ syn.getD (i + j) NUL ≠ 'W' ∧ syn.getD (i + j) NUL ≠ 'R' := by
  induction ops with
  | nil => intro i r e h; simp [assignRoles] at h
  | cons o os ih =>
    intro i r e h
    simp only [assignRoles] at h
    split_ifs at h with hW hR
    · obtain ⟨he, j, hj, hjw, hjr⟩ := ih _ _ _ h
      refine ⟨he, j + 1, by simp only [List.length_cons]; omega, ?_, ?_⟩
      · rw [show i + (j + 1) = i + 1 + j by omega]; exact hjw
      · rw [show i + (j + 1) = i + 1 + j by omega]; exact hjr
    · obtain ⟨he, j, hj, hjw, hjr⟩ := ih _ _ _ h
      refine ⟨he, j + 1, by simp only [List.length_cons]; omega, ?_, ?_⟩
      · rw [show i + (j + 1) = i + 1 + j by omega]; exact hjw
      · rw [show i + (j + 1) = i + 1 + j by omega]; exact hjr
    · simp only [Except.error.injEq] at h
      exact ⟨h.symm, 0, by simp, hW, hR⟩

/-- The role loop over positions that all hold `W` or `R` succeeds. -/
theorem assignRoles_total (syn : Str) (ops : List Str) :
    ∀ (i : Nat) (r : Roles),
      (∀ j, j < ops.length → syn.getD (i + j) NUL = 'W' ∨ syn.getD (i + j) NUL = 'R') →
      ∃ r', assignRoles syn ops i r = .ok r' := by
  induction ops with
  | nil => intro i r _; exact ⟨r, rfl⟩
  | cons o os ih =>
    intro i r h
    have h0 := h 0 (by simp)
    have hrest : ∀ j, j < os.length →
        syn.getD (i + 1 + j) NUL = 'W' ∨ syn.getD (i + 1 + j) NUL = 'R' := by
      intro j hj
      have := h (j + 1) (by simp only [List.length_cons]; omega)
      rw [show i + (j + 1) = i + 1 + j by omega] at this
      exact this
    simp only [assignRoles]
    split_ifs with hW hR
    · exact ih _ _ hrest
    · exact ih _ _ hrest
    · rcases h0 with h0 | h0
      · exact absurd h0 hW
      · exact absurd h0 hR

/-- With a registered opcode and a program counter `stoull` accepts, the
assignments of `parseInstr` fail with "Invalid operand" exactly when the
role array does not hold `W` or `R` at every operand position. -/
theorem fillInstr_invalidOperand (d : Defs) (st : RiscvStream) (f : Fields) (pcv : Nat)
    (hk : st.opcodeToTypeMap.get? f.opcode ≠ none) (hpc : stoull f.pc 16 = .ok pcv) :
    fillInstr d st f = .error .invalidOperand ↔
      rolesCover (roleArray d st f.opcode) f.operands.length = false := by
  have hstoull : ∀ (s : Str) (b : Nat), stoull s b ≠ .error .invalidOperand := by
    intro s b h
    unfold stoull at h
    simp only at h
    split_ifs at h <;> cases h
  have hc : ¬ (st.opcodeToTypeMap.count f.opcode = 0) := by
    rw [Table.count_eq_zero]; exact hk
  cases hr : assignRoles (roleArray d st f.opcode) f.operands 0
      ⟨st.regMap, st.instr.regRead, st.instr.regWrite, 0, 0⟩ with
  | error e =>
    obtain ⟨he, j, hj, hjw, hjr⟩ := assignRoles_error _ _ _ _ _ hr
    subst he
    have hcov : rolesCover (roleArray d st f.opcode) f.operands.length = false := by
      cases hcv : rolesCover (roleArray d st f.opcode) f.operands.length with
      | false => rfl
      | true =>
        have := rolesCover_spec _ _ hcv j hj
        rw [Nat.zero_add] at hjw hjr
        rcases this with h | h
        · exact absurd h hjw
        · exact absurd h hjr
    refine ⟨fun _ => hcov, fun _ => ?_⟩
    unfold roleArray at hr
    unfold fillInstr
    simp only [hc, if_false, bind, Except.bind, pure, Except.pure, hpc, hr]
  | ok r =>
    have hcov : rolesCover (roleArray d st f.opcode) f.operands.length = true := by
      have := (assignRoles_inv _ _ _ _ _ hr).1
      simp only [rolesCover, List.all_eq_true, List.mem_range, Bool.or_eq_true, beq_iff_eq]
      intro j hj
      have := this j hj
      rw [Nat.zero_add] at this
      exact this
    rw [hcov]
    refine ⟨fun h => ?_, fun h => by cases h⟩
    exfalso
    unfold roleArray at hr
    unfold fillInstr at h
    simp only [hc, if_false, bind, Except.bind, pure, Except.pure, throw, throwThe,
      MonadExceptOf.throw, hpc, hr] at h
    cases hm : f.mem_accessed with
    | false => simp [hm] at h
    | true =>
      simp only [hm, if_true] at h
      cases hb : stoull (if (st.opcodeToTypeMap.subscript f.opcode .IntBase).1 = .Atomic
          then atomicAddress else f.mem_address) 16 with
      | error e =>
        have he : e ≠ .invalidOperand := by
          intro he; rw [he] at hb; exact hstoull _ _ hb
        simp only [hb] at h
        split_ifs at h <;> simp only [Except.error.injEq] at h <;>
          first | exact he h | cases h
      | ok base =>
        simp only [hb] at h
        split_ifs at h <;> cases h

/-- Every role string of `initMaps` consists of the letters `W` and `R`. -/
theorem roleTable_letters :
    ∀ kv ∈ roleTable, ∀ c ∈ kv.2, c = 'W' ∨ c = 'R' := by
  decide

/-- The array stored for a role string holds `W` or `R` at the first `n`
positions, `n` within the array, exactly when the string has `n` letters or
more. -/
theorem rolesCover_strncpy (s : Str) (n k : Nat) (hs : ∀ c ∈ s, c = 'W' ∨ c = 'R')
    (hk : k ≤ n) : rolesCover (strncpy s n) k = true ↔ k ≤ s.length := by
  constructor
  · intro h
    by_contra hlt
    have hpos : s.length < k := by omega
    have := rolesCover_spec _ _ h s.length hpos
    have hg : (strncpy s n).getD s.length NUL = NUL := by
      unfold strncpy
      rw [List.getD_append_right _ _ _ _ (by rw [List.length_take]; omega)]
      rw [List.getD_eq_getElem?_getD, List.getElem?_replicate]
      split_ifs <;> rfl
    rw [hg] at this
    revert this
    decide
  · intro h
    simp only [rolesCover, List.all_eq_true, List.mem_range, Bool.or_eq_true, beq_iff_eq]
    intro i hi
    have his : i < s.length := by omega
    have hg : (strncpy s n).getD i NUL = s.get ⟨i, his⟩ := by
      unfold strncpy
      rw [List.getD_append _ _ _ _ (by rw [List.length_take]; omega)]
      rw [List.getD_eq_getElem?_getD, List.getElem?_take]
      have hin : i < n := by omega
      simp [his, hin]
    rw [hg]
    exact hs _ (List.get_mem _ _ _)

/-- On a line made of a hexadecimal program counter, a registered opcode,
recognised register operands and, or not, a memory marker with a hexadecimal
address, decoded on the opcode tables of `initMaps`: the decode fails with
"Invalid operand" exactly when the scanned register operands (the first
`MAX_OPERANDS` of the line) outnumber the letters of the opcode's role
string. -/
theorem parseInstr_invalidOperand (d : Defs) (st : RiscvStream) (l : InstrLine)
    (ht : registryInitial d st) (hpc : isHexToken l.pc = true)
    (hty : (typeTable.get? l.opcode).isSome = true) (hops : ∀ o ∈ l.operands, o.wf = true)
    (hmem : ∀ m a, l.mem = some (m, a) → isMarker m = true ∧ isHexToken a = true) :
    parseInstr d st l.text = .error .invalidOperand ↔
      ((roleTable.get? l.opcode).getD []).length < min l.operands.length d.MAX_OPERANDS := by
  obtain ⟨ty, hty'⟩ := Option.isSome_iff_exists.mp hty
  have hk : st.opcodeToTypeMap.get? l.opcode ≠ none := by
    rw [ht.1]
    simp only [initOpcodeTables, hty']
    exact fun h => by cases h
  obtain ⟨_, hr, _⟩ := registered_everywhere l.opcode (Table.get?_mem_keys _ _ _ hty')
  obtain ⟨role, hrole⟩ := Option.isSome_iff_exists.mp hr
  have hletters := roleTable_letters _ (Table.mem_of_get? _ _ _ hrole)
  obtain ⟨_, _, _, hpcv⟩ := hexToken_facts l.pc hpc
  simp only [parseInstr, scanInstr_anatomy d l hpc hty hops hmem, bind, Except.bind]
  rw [fillInstr_invalidOperand d st _ _ hk hpcv, roleArray_initial d st _ ht hk]
  simp only [storedRoles, hrole, Option.getD_some, List.length_take, List.length_map]
  have := rolesCover_strncpy role d.MAX_OPERANDS (min d.MAX_OPERANDS l.operands.length)
    hletters (Nat.min_le_left _ _)
  rw [Nat.min_comm l.operands.length d.MAX_OPERANDS]
  constructor
  · intro h
    by_contra hn
    rw [this.mpr (by omega)] at h
    cases h
  · intro h
    cases hcv : rolesCover (strncpy role d.MAX_OPERANDS) (min d.MAX_OPERANDS l.operands.length) with
    | false => rfl
    | true => have := this.mp hcv; omega

set_option maxRecDepth 100000 in
/-- C21, the failing input: the role string `initMaps` stores for `mov` is
`W`, one letter, so the line `@I 0x1000 mov x1 x2`, a move between two
recognised registers, fails with "Invalid operand"; `mov` with one register
decodes, and so does `mrs x1 x2`, whose role string is `WR`. -/
theorem parseInstr_mov_two_registers :
    roleTable.get? "mov".toList = some "W".toList ∧
    roleTable.get? "mrs".toList = some "WR".toList ∧
    initRegMap.get? "x1".toList = some 1 ∧ initRegMap.get? "x2".toList = some 2 ∧
    decodeLine ⟨4, 4⟩ "@I 0x1000 mov x1 x2".toList = .error .invalidOperand ∧
    decodeLine ⟨4, 4⟩ "@I 0x1000 mov x1".toList =
      .ok ⟨0x1000, 4, .IntBase, [], [1], none, none⟩ ∧
    decodeLine ⟨4, 4⟩ "@I 0x1000 mrs x1 x2".toList =
      .ok ⟨0x1000, 4, .IntBase, [2], [1], none, none⟩ := by
  decide

/-! ## Claim C25: the tokens of a line -/

/-- At the end marker every call returns the empty token and leaves the
marker. -/
theorem nextTokens_end (line : Str) (k : Nat) :
    nextTokens line k none = .ok (List.replicate k ([], none)) := by
  induction k with
  | zero => rfl
  | succ k ih =>
    simp only [nextTokens, parseNext, ih, bind, Except.bind, pure, Except.pure,
      List.replicate_succ]

theorem nextTokens_from (ts : List Str) (k : Nat) :
    ∀ pre : Str, ts ≠ [] →
      (∀ t ∈ ts, t ≠ [] ∧ ' ' ∉ t ∧ '(' ∉ t ∧ t.getLast? ≠ some ',') →
      nextTokens (pre ++ joinTokens ts) (ts.length + k) (some pre.length) =
        .ok (ts.zip (cursorsFrom pre.length ts) ++ List.replicate k ([], none)) := by
  induction ts with
  | nil => intro pre h; exact absurd rfl h
  | cons t us ih =>
    intro pre _ hall
    obtain ⟨tne, tsp, tpar, tlast⟩ := hall t (List.mem_cons_self _ _)
    have hn := normalize_plain t tpar tne tlast
    have hp := parseNext_token pre t us tsp
    rw [hn] at hp
    have hlen : (t :: us).length + k = (us.length + k) + 1 := by
      simp only [List.length_cons]; omega
    rw [hlen]
    simp only [nextTokens, hp, Except.map, bind, Except.bind, pure, Except.pure]
    cases us with
    | nil =>
      simp only [cursorOf, List.length_nil, Nat.zero_add, nextTokens_end, cursorsFrom,
        List.zip_cons_cons, List.zip_nil_left, List.cons_append, List.nil_append]
    | cons u vs =>
      have hrec := ih (advance pre t (u :: vs)) (by simp)
        (fun x hx => hall x (List.mem_cons_of_mem _ hx))
      rw [join_advance]
      have hadv : (advance pre t (u :: vs)).length = pre.length + t.length + 1 := by
        simp [advance]; omega
      rw [hadv] at hrec
      simp only [cursorOf_cons, hrec, hadv, cursorsFrom, List.zip_cons_cons, List.cons_append]

/-- C25: for every non-empty list of tokens, each non-empty, without a space
and without `(`, and not ending in a comma: on the tokens joined by single
spaces, the successive calls of `parseNext` from position 0 return exactly
these tokens in order; each call leaves the cursor just past the space that
follows the token it returns, the call that returns the last token leaves
the end marker, and every later call returns the empty token and leaves the
end marker. -/
theorem nextTokens_joined (ts : List Str) (k : Nat) (hne : ts ≠ [])
    (hall : ∀ t ∈ ts, t ≠ [] ∧ ' ' ∉ t ∧ '(' ∉ t ∧ t.getLast? ≠ some ',') :
    nextTokens (joinTokens ts) (ts.length + k) (some 0) =
      .ok (ts.zip (cursorsFrom 0 ts) ++ List.replicate k ([], none)) := by
  have := nextTokens_from ts k [] hne hall
  simpa using this

/-- Witness of C25: the three tokens of `add x1 x2`, then two more calls. -/
theorem nextTokens_joined_witness :
    (["add".toList, "x1".toList, "x2".toList] ≠ [] ∧
      ∀ t ∈ ["add".toList, "x1".toList, "x2".toList],
        t ≠ [] ∧ ' ' ∉ t ∧ '(' ∉ t ∧ t.getLast? ≠ some ',') ∧
    joinTokens ["add".toList, "x1".toList, "x2".toList] = "add x1 x2".toList ∧
    nextTokens (joinTokens ["add".toList, "x1".toList, "x2".toList])
        (["add".toList, "x1".toList, "x2".toList].length + 2) (some 0) =
      .ok [("add".toList, some 4), ("x1".toList, some 7), ("x2".toList, none),
        ([], none), ([], none)] :=
  ⟨by decide, by decide,
    (nextTokens_joined ["add".toList, "x1".toList, "x2".toList] 2 (by decide)
      (by decide)).trans (by decide)⟩

/-! ## Atomic opcodes -/

/-- No opcode block of `initMaps` declares the access kind `A`. -/
theorem no_atomic_kind : ∀ kv ∈ accessTable, kv.2 ≠ 'A' := by
  decide

/-- On the opcode tables of `initMaps` no line decodes to the class atomic,
and no decode sets both the load and the store descriptor: the branches of
`parseInstr` for the class `Atomic` and the kind `A` are never taken. -/
theorem parseInstr_never_atomic (d : Defs) (st st' : RiscvStream) (line : Str)
    (ht : registryInitial d st) (hp : parseInstr d st line = .ok st') :
    st'.instr.executionType ≠ .Atomic ∧
      ¬ (st'.instr.memLoadCount = 1 ∧ st'.instr.memStoreCount = 1) := by
  obtain ⟨f, _, hfill⟩ := parseInstr_ok d st st' line hp
  obtain ⟨_, _, hc, _, _, _, _, _, _, _, _, hty, _, _, _, _, hmem⟩ :=
    fillInstr_inv d st st' f hfill
  obtain ⟨t1, _, t3, _, _⟩ := ht
  constructor
  · rw [hty, Table.subscript_fst, t1]
    have hne : typeTable.get? f.opcode ≠ none := by
      have := (Table.count_eq_zero st.opcodeToTypeMap f.opcode).not.mp hc
      rw [t1] at this
      exact this
    obtain ⟨ty, hty'⟩ := Option.ne_none_iff_exists'.mp hne
    have := no_atomic_opcode f.opcode (Table.get?_mem_keys _ _ _ hty')
    show (typeTable.get? f.opcode).getD .IntBase ≠ .Atomic
    rw [hty'] at this ⊢
    exact fun e => this (by rw [← e]; rfl)
  · rintro ⟨c1, c2⟩
    rcases hmem with ⟨_, z1, _⟩ | ⟨_, _, _, base, _, hcase⟩
    · rw [z1] at c1; cases c1
    · rcases hcase with ⟨_, _, z2, _⟩ | ⟨_, z1, _⟩ | ⟨hA, _⟩
      · rw [z2] at c2; cases c2
      · rw [z1] at c1; cases c1
      · rw [Table.subscript_fst, t3] at hA
        cases hk : accessTable.get? f.opcode with
        | none =>
          have hk' : (initOpcodeTables d).memAccessMap.get? f.opcode = none := hk
          rw [hk'] at hA
          revert hA
          decide
        | some c =>
          have hk' : (initOpcodeTables d).memAccessMap.get? f.opcode = some c := hk
          rw [hk'] at hA
          have := no_atomic_kind _ (Table.mem_of_get? _ _ _ hk)
          exact this hA

/-! ## Claim C10: the leading character of the branch field -/

theorem isPlainToken_facts (raw : Str) (h : isPlainToken raw = true) :
    ' ' ∉ raw ∧ raw ≠ [] ∧ normalize raw = .ok (tokenOf raw) := by
  simp only [isPlainToken, Bool.and_eq_true, decide_eq_true_eq] at h
  obtain ⟨t, ht⟩ := normalize_ok raw h.2
  exact ⟨h.1, h.2, by simp only [tokenOf, ht]⟩

theorem registerOperands_cons (t : Str) (ts : List Str) :
    registerOperands (t :: ts) =
      (if isRegisterName (tokenOf t) = true then [tokenOf t] else []) ++ registerOperands ts := by
  simp only [registerOperands, List.map_cons, List.filter_cons]
  split_ifs <;> rfl

/-- One turn of the operand scan on an operand token: a token that begins
with a lowercase letter is collected, any other is passed over. -/
theorem scanOperands_token (d : Defs) (pre t : Str) (ts : List Str) (acc : List Str)
    (fuel : Nat) (hlt : acc.length < d.MAX_OPERANDS) (ht : isOperandToken t = true) :
    scanOperands d (pre ++ joinTokens (t :: ts)) (fuel + 1) (some pre.length) acc =
      scanOperands d (advance pre t ts ++ joinTokens ts) fuel
        (cursorOf (advance pre t ts) ts)
        (acc ++ (if isRegisterName (tokenOf t) = true then [tokenOf t] else [])) := by
  simp only [isOperandToken, Bool.and_eq_true, decide_eq_true_eq] at ht
  obtain ⟨⟨hpl, hne⟩, hat⟩ := ht
  obtain ⟨hs, _, hn⟩ := isPlainToken_facts t hpl
  have hat' : (tokenOf t).getD 0 NUL ≠ '@' := by
    intro e
    apply hat
    cases hk : tokenOf t with
    | nil => exact absurd hk hne
    | cons c r =>
      rw [hk] at e
      simp only [List.getD_cons_zero] at e
      rw [e]; rfl
  rw [scanOperands]
  simp only [hlt, if_true, parseNext_token pre t ts hs, hn, Except.map, bind, Except.bind, hne,
    if_false, index, Nat.zero_le, hat', pure, Except.pure]
  rw [join_advance]
  by_cases hr : isRegisterName (tokenOf t) = true
  · have hr' := hr
    simp only [isRegisterName, decide_eq_true_eq] at hr'
    simp only [hr, hr', and_self, if_true]
  · have hr' := hr
    simp only [isRegisterName, decide_eq_true_eq] at hr'
    have hrf : isRegisterName (tokenOf t) = false := by simpa using hr
    simp only [hrf, hr', if_false, Bool.false_eq_true, List.append_nil]

/-- One turn of the operand scan on a marker token, with room for another
turn: memory is marked accessed and the cursor stands after the marker. -/
theorem scanOperands_marker_token (d : Defs) (pre m : Str) (ts : List Str) (acc : List Str)
    (fuel : Nat) (hlt : acc.length < d.MAX_OPERANDS) (hm : isMarkerToken m = true) :
    scanOperands d (pre ++ joinTokens (m :: ts)) (fuel + 1) (some pre.length) acc =
      .ok (some ⟨acc, true, cursorOf (advance pre m ts) ts⟩) := by
  simp only [isMarkerToken, Bool.and_eq_true, decide_eq_true_eq] at hm
  obtain ⟨hpl, hat⟩ := hm
  obtain ⟨hs, _, hn⟩ := isPlainToken_facts m hpl
  obtain ⟨r, hk⟩ : ∃ r, tokenOf m = '@' :: r := by
    cases hk : tokenOf m with
    | nil => rw [hk] at hat; cases hat
    | cons c r =>
      rw [hk] at hat
      simp only [List.head?_cons, Option.some.injEq] at hat
      exact ⟨r, by rw [hat]⟩
  have hr : ¬ ('a'.toNat ≤ '@'.toNat ∧ '@'.toNat ≤ 'z'.toNat) := by decide
  rw [scanOperands]
  simp only [hlt, if_true, parseNext_token pre m ts hs, hn, hk, Except.map, bind, Except.bind,
    if_false, index, Nat.zero_le, List.getD_cons_zero, hr, pure, Except.pure, reduceCtorEq]

/-- The operand scan over operand tokens with room for every register among
them and one more turn: it collects the registers and stands before the
tokens that follow. -/
theorem scanOperands_tokens (d : Defs) (ops : List Str) (tail : List Str) :
    ∀ (pre : Str) (acc : List Str) (fuel : Nat), ops.all isOperandToken = true →
      acc.length + (registerOperands ops).length < d.MAX_OPERANDS →
      ∃ pre', pre ++ joinTokens (ops ++ tail) = pre' ++ joinTokens tail ∧
        scanOperands d (pre ++ joinTokens (ops ++ tail)) (fuel + ops.length)
            (cursorOf pre (ops ++ tail)) acc =
          scanOperands d (pre' ++ joinTokens tail) fuel (cursorOf pre' tail)
            (acc ++ registerOperands ops) := by
  induction ops with
  | nil =>
    intro pre acc fuel _ _
    exact ⟨pre, rfl, by simp [registerOperands]⟩
  | cons t ts ih =>
    intro pre acc fuel hall hroom
    simp only [List.all_cons, Bool.and_eq_true] at hall
    rw [registerOperands_cons] at hroom ⊢
    have hlt : acc.length < d.MAX_OPERANDS := by omega
    obtain ⟨pre', e, hscan⟩ := ih (advance pre t (ts ++ tail))
      (acc ++ (if isRegisterName (tokenOf t) = true then [tokenOf t] else [])) fuel hall.2
      (by simp only [List.length_append] at hroom ⊢; omega)
    refine ⟨pre', ?_, ?_⟩
    · rw [List.cons_append, join_advance, e]
    · rw [List.cons_append, cursorOf_cons, List.length_cons, ← Nat.add_assoc,
        scanOperands_token d pre t (ts ++ tail) acc (fuel + ts.length) hlt hall.1, hscan,
        List.append_assoc]

/-- The operand scan over operand tokens that hold `MAX_OPERANDS` registers
or more, counted with those collected before: it stops after the register
that fills the array, memory not marked accessed. -/
theorem scanOperands_tokens_full (d : Defs) (ops : List Str) (tail : List Str) :
    ∀ (pre : Str) (acc : List Str) (fuel : Nat), ops.all isOperandToken = true →
      acc.length ≤ d.MAX_OPERANDS →
      d.MAX_OPERANDS ≤ acc.length + (registerOperands ops).length →
      ∃ cur, scanOperands d (pre ++ joinTokens (ops ++ tail)) (fuel + 1 + ops.length)
            (cursorOf pre (ops ++ tail)) acc =
          .ok (some ⟨(acc ++ registerOperands ops).take d.MAX_OPERANDS, false, cur⟩) := by
  induction ops with
  | nil =>
    intro pre acc fuel _ hle hge
    simp only [registerOperands, List.map_nil, List.filter_nil, List.length_nil,
      Nat.add_zero] at hge
    have hn : ¬ acc.length < d.MAX_OPERANDS := by omega
    refine ⟨cursorOf pre ([] ++ tail), ?_⟩
    simp only [List.length_nil, Nat.add_zero, registerOperands, List.map_nil, List.filter_nil,
      List.append_nil]
    rw [scanOperands_full d _ _ _ _ hn, List.take_of_length_le hle]
  | cons t ts ih =>
    intro pre acc fuel hall hle hge
    simp only [List.all_cons, Bool.and_eq_true] at hall
    by_cases hlt : acc.length < d.MAX_OPERANDS
    · rw [registerOperands_cons] at hge ⊢
      obtain ⟨cur, hscan⟩ := ih (advance pre t (ts ++ tail))
        (acc ++ (if isRegisterName (tokenOf t) = true then [tokenOf t] else [])) fuel hall.2
        (by
          simp only [List.length_append]
          split_ifs
          · simp only [List.length_singleton]; omega
          · simp only [List.length_nil]; omega)
        (by simp only [List.length_append] at hge ⊢; omega)
      refine ⟨cur, ?_⟩
      have hf : fuel + 1 + (t :: ts).length = (fuel + 1 + ts.length) + 1 := by
        simp only [List.length_cons]; omega
      rw [List.cons_append, cursorOf_cons, hf,
        scanOperands_token d pre t (ts ++ tail) acc (fuel + 1 + ts.length) hlt hall.1, hscan,
        List.append_assoc]
    · refine ⟨cursorOf pre (t :: ts ++ tail), ?_⟩
      rw [show fuel + 1 + (t :: ts).length = (fuel + (t :: ts).length) + 1 by omega,
        scanOperands_full d _ _ _ _ hlt]
      have hl : acc.length = d.MAX_OPERANDS := by omega
      rw [List.take_left' hl]
/-- The tokenising part of `parseInstr` on a line of raw tokens between
single spaces: a program counter, an opcode, operand tokens, a marker token,
an address token and whatever follows.  The operands are the first
`MAX_OPERANDS` register operands; memory is marked accessed, and the token
of the address taken, when fewer than `MAX_OPERANDS` register operands
precede the marker. -/
theorem scanInstr_tokens (d : Defs) (pc opcode : Str) (ops : List Str) (m a : Str)
    (rest : List Str) (hpc : isPlainToken pc = true) (hop : isPlainToken opcode = true)
    (hops : ops.all isOperandToken = true) (hm : isMarkerToken m = true)
    (ha : isPlainToken a = true) :
    scanInstr d ("@I ".toList ++ joinTokens (pc :: opcode :: (ops ++ m :: a :: rest))) =
      .ok ⟨tokenOf pc, tokenOf opcode, (registerOperands ops).take d.MAX_OPERANDS,
        decide ((registerOperands ops).length < d.MAX_OPERANDS),
        if (registerOperands ops).length < d.MAX_OPERANDS then tokenOf a else []⟩ := by
  obtain ⟨pcs, _, pcn⟩ := isPlainToken_facts pc hpc
  obtain ⟨ops', _, opn⟩ := isPlainToken_facts opcode hop
  obtain ⟨as, _, an⟩ := isPlainToken_facts a ha
  generalize hline : "@I ".toList ++ joinTokens (pc :: opcode :: (ops ++ m :: a :: rest)) = line
  generalize hp1 : advance "@I ".toList pc (opcode :: (ops ++ m :: a :: rest)) = pre1
  generalize hp2 : advance pre1 opcode (ops ++ m :: a :: rest) = pre2
  have h1 : parseNext line (some 3) = .ok (tokenOf pc, some pre1.length) := by
    have := parseNext_token "@I ".toList pc (opcode :: (ops ++ m :: a :: rest)) pcs
    rw [pcn, hp1, hline] at this
    exact this
  have e1 : line = pre1 ++ joinTokens (opcode :: (ops ++ m :: a :: rest)) := by
    rw [← hline, join_advance, hp1]
  have h2 : parseNext line (some pre1.length) =
      .ok (tokenOf opcode, cursorOf pre2 (ops ++ m :: a :: rest)) := by
    rw [e1, parseNext_token pre1 opcode _ ops', opn, hp2]
    rfl
  have e2 : line = pre2 ++ joinTokens (ops ++ m :: a :: rest) := by
    rw [e1, join_advance, hp2]
  have hlen : ops.length ≤ line.length := by
    have hne : ∀ t ∈ ops, t ≠ [] := by
      intro t ht
      have := List.all_eq_true.mp hops t ht
      simp only [isOperandToken, Bool.and_eq_true] at this
      exact (isPlainToken_facts t this.1.1).2.1
    have := length_joinTokens _ hne
    have hsub := length_joinTokens_append ops (m :: a :: rest)
    rw [e2]
    simp only [List.length_append]
    omega
  unfold scanInstr
  by_cases hlt : (registerOperands ops).length < d.MAX_OPERANDS
  · obtain ⟨pre', e, hscan⟩ := scanOperands_tokens d ops (m :: a :: rest) pre2 []
      (line.length - ops.length + 1 + 1) hops (by simpa using hlt)
    have hfuel : line.length - ops.length + 1 + 1 + ops.length = line.length + 2 := by omega
    have eline : line = pre' ++ joinTokens (m :: a :: rest) := e2.trans e
    rw [hfuel, ← e2, cursorOf_cons, List.nil_append,
      scanOperands_marker_token d pre' m (a :: rest) _ _ hlt hm] at hscan
    have haddr : parseNext line (cursorOf (advance pre' m (a :: rest)) (a :: rest)) =
        .ok (tokenOf a, cursorOf (advance (advance pre' m (a :: rest)) a rest) rest) := by
      rw [eline, join_advance, cursorOf_cons, parseNext_token _ a rest as, an]
      rfl
    simp only [h1, h2, hscan, haddr, bind, Except.bind, Option.getD, if_true, pure,
      Except.pure, hlt, decide_True, List.take_of_length_le (Nat.le_of_lt hlt)]
  · obtain ⟨cur, hscan⟩ := scanOperands_tokens_full d ops (m :: a :: rest) pre2 []
      (line.length - ops.length + 1) hops (Nat.zero_le _) (by simpa using Nat.le_of_not_lt hlt)
    have hfuel : line.length - ops.length + 1 + 1 + ops.length = line.length + 2 := by omega
    rw [hfuel, ← e2, List.nil_append] at hscan
    simp only [h1, h2, hscan, bind, Except.bind, Option.getD, Bool.false_eq_true, if_false,
      pure, Except.pure, hlt, decide_False]

/-! ## Claim C22: the marker on a line of any tokens -/

/-- C22, amended: on a line of non-empty raw tokens between single spaces,
made of a program counter, an opcode, operand tokens (each with a non-empty
token that does not begin with `@`), a marker (a raw token whose token
begins with `@`), an address token and whatever follows.  When fewer than
`MAX_OPERANDS` register operands (operand tokens that begin with a lowercase
letter) precede the marker, the scan ends at the marker with all of them
collected, memory is marked accessed and the token after the marker is the
memory address.  With `MAX_OPERANDS` register operands or more before the
marker, the scan ends after the register that fills the array, without
reading the marker: memory is not marked accessed and no address is
taken. -/
theorem scanInstr_marker_tokens (d : Defs) (pc opcode : Str) (ops : List Str) (m a : Str)
    (rest : List Str) (hpc : isPlainToken pc = true) (hop : isPlainToken opcode = true)
    (hops : ops.all isOperandToken = true) (hm : isMarkerToken m = true)
    (ha : isPlainToken a = true) :
    ((registerOperands ops).length < d.MAX_OPERANDS →
      scanInstr d ("@I ".toList ++ joinTokens (pc :: opcode :: (ops ++ m :: a :: rest))) =
        .ok ⟨tokenOf pc, tokenOf opcode, registerOperands ops, true, tokenOf a⟩) ∧
    (d.MAX_OPERANDS ≤ (registerOperands ops).length →
      scanInstr d ("@I ".toList ++ joinTokens (pc :: opcode :: (ops ++ m :: a :: rest))) =
        .ok ⟨tokenOf pc, tokenOf opcode, (registerOperands ops).take d.MAX_OPERANDS,
          false, []⟩) := by
  have h := scanInstr_tokens d pc opcode ops m a rest hpc hop hops hm ha
  constructor
  · intro hlt
    rw [h]
    simp only [hlt, decide_True, if_true, List.take_of_length_le (Nat.le_of_lt hlt)]
  · intro hge
    have hlt : ¬ (registerOperands ops).length < d.MAX_OPERANDS := by omega
    rw [h]
    simp only [hlt, decide_False, if_false]

set_option maxRecDepth 100000 in
/-- Witness of C22, amended: `ldr x1, #8 @ 0x10`, whose operand tokens are a
register followed by a comma and an immediate, with `MAX_OPERANDS = 4`
(marker read) and with `MAX_OPERANDS = 1` (marker not read). -/
theorem scanInstr_marker_tokens_witness :
    (isPlainToken "0x2000".toList = true ∧ isPlainToken "ldr".toList = true ∧
      ["x1,".toList, "#8".toList].all isOperandToken = true ∧
      isMarkerToken "@".toList = true ∧ isPlainToken "0x10".toList = true ∧
      registerOperands ["x1,".toList, "#8".toList] = ["x1".toList]) ∧
    scanInstr ⟨4, 4⟩ "@I 0x2000 ldr x1, #8 @ 0x10".toList =
      .ok ⟨"0x2000".toList, "ldr".toList, ["x1".toList], true, "0x10".toList⟩ ∧
    scanInstr ⟨1, 4⟩ "@I 0x2000 ldr x1, #8 @ 0x10".toList =
      .ok ⟨"0x2000".toList, "ldr".toList, ["x1".toList], false, []⟩ :=
  have hl : isPlainToken "0x2000".toList = true ∧ isPlainToken "ldr".toList = true ∧
      ["x1,".toList, "#8".toList].all isOperandToken = true ∧
      isMarkerToken "@".toList = true ∧ isPlainToken "0x10".toList = true ∧
      registerOperands ["x1,".toList, "#8".toList] = ["x1".toList] := by decide
  ⟨hl,
    (scanInstr_marker_tokens ⟨4, 4⟩ "0x2000".toList "ldr".toList ["x1,".toList, "#8".toList]
      "@".toList "0x10".toList [] hl.1 hl.2.1 hl.2.2.1 hl.2.2.2.1 hl.2.2.2.2.1).1 (by decide),
    (scanInstr_marker_tokens ⟨1, 4⟩ "0x2000".toList "ldr".toList ["x1,".toList, "#8".toList]
      "@".toList "0x10".toList [] hl.1 hl.2.1 hl.2.2.1 hl.2.2.2.1 hl.2.2.2.2.1).2 (by decide)⟩

/-! ## Claim C14: the memory descriptors of a line -/

set_option maxRecDepth 100000 in
/-- C14 as stated fails.  With `MAX_OPERANDS = 3` the line
`@I 0x10 ldp x1, x2, 0x0(sp) @ 0x100`, whose opcode has the access kind
load, carries a marker and the address `0x100` and decodes successfully, but
with neither descriptor: its three register operands fill the operand array,
so the scan ends before the marker.  With `MAX_OPERANDS = 4` the same line
decodes with the load descriptor (0x100, 16). -/
theorem parseInstr_marker_unread :
    accessKind "ldp".toList = 'L' ∧
    decodeLine ⟨3, 4⟩ "@I 0x10 ldp x1, x2, 0x0(sp) @ 0x100".toList =
      .ok ⟨0x10, 4, .Load, [31], [1, 2], none, none⟩ ∧
    decodeLine ⟨4, 4⟩ "@I 0x10 ldp x1, x2, 0x0(sp) @ 0x100".toList =
      .ok ⟨0x10, 4, .Load, [31], [1, 2], some (0x100, 16), none⟩ := by
  decide

/-- C14, amended: on a stream with the opcode tables of `initMaps`, for
every successfully decoded line of non-empty raw tokens between single
spaces made of a program counter, an opcode, operand tokens, a marker (a raw
token whose token begins with `@`), a hexadecimal address `a` and whatever
follows.  When fewer than `MAX_OPERANDS` register operands precede the
marker: with the access kind load the load descriptor is set (count 1, base
`a`, the length `initMaps` declares for the opcode) and the store descriptor
is cleared; with the kind store the store descriptor is set likewise and the
load descriptor is cleared.  With `MAX_OPERANDS` register operands or more
before the marker both descriptors are cleared.  And for every successfully
decoded line, of any shape, whose opcode has the kind none both descriptors
are cleared. -/
theorem parseInstr_descriptors_of_line (d : Defs) (st st' : RiscvStream) (pc opcode : Str)
    (ops : List Str) (m a : Str) (rest : List Str) (ht : registryInitial d st)
    (hpc : isPlainToken pc = true) (hop : isPlainToken opcode = true)
    (hops : ops.all isOperandToken = true) (hm : isMarkerToken m = true)
    (ha : isPlainToken a = true) (hhex : isHexToken (tokenOf a) = true)
    (hp : parseInstr d st
      ("@I ".toList ++ joinTokens (pc :: opcode :: (ops ++ m :: a :: rest))) = .ok st') :
    ((registerOperands ops).length < d.MAX_OPERANDS →
      (accessKind (tokenOf opcode) = 'L' →
        st'.instr.memLoadCount = 1 ∧ st'.instr.memLoadBase = hexTokenValue (tokenOf a) ∧
        lengthTable.get? (tokenOf opcode) = some st'.instr.memLoadLength ∧
        st'.instr.memStoreCount = 0 ∧ st'.instr.memStore = none) ∧
      (accessKind (tokenOf opcode) = 'S' →
        st'.instr.memStoreCount = 1 ∧ st'.instr.memStoreBase = hexTokenValue (tokenOf a) ∧
        lengthTable.get? (tokenOf opcode) = some st'.instr.memStoreLength ∧
        st'.instr.memLoadCount = 0 ∧ st'.instr.memLoad = none)) ∧
    (d.MAX_OPERANDS ≤ (registerOperands ops).length →
      st'.instr.memLoadCount = 0 ∧ st'.instr.memStoreCount = 0 ∧
      st'.instr.memLoad = none ∧ st'.instr.memStore = none) ∧
    (∀ (line : Str) (st'' : RiscvStream) (pcT opT : Str) (c1 c2 : Option Nat),
      parseInstr d st line = .ok st'' → parseNext line (some 3) = .ok (pcT, c1) →
      parseNext line c1 = .ok (opT, c2) → accessKind opT = NUL →
      st''.instr.memLoadCount = 0 ∧ st''.instr.memStoreCount = 0 ∧
      st''.instr.memLoad = none ∧ st''.instr.memStore = none) := by
  have hscan := scanInstr_tokens d pc opcode ops m a rest hpc hop hops hm ha
  obtain ⟨f, hs, hL, hS, _⟩ := parseInstr_memory_descriptors d st st' _ ht hp
  rw [hscan] at hs
  have hf := (Except.ok.inj hs).symm
  refine ⟨fun hlt => ?_, fun hge => ?_, ?_⟩
  · have hacc : f.mem_accessed = true := by rw [hf]; simp only [hlt, decide_True]
    have hop' : f.opcode = tokenOf opcode := by rw [hf]
    have hadr : f.mem_address = tokenOf a := by rw [hf]; simp only [hlt, if_true]
    rw [hop', hadr] at hL hS
    constructor
    · intro hk
      obtain ⟨c1, c2, _, c4, c5, c6⟩ := hL hacc hk
      exact ⟨c1, c4 hhex, c5, c2, c6⟩
    · intro hk
      obtain ⟨c1, c2, _, c4, c5, c6⟩ := hS hacc hk
      exact ⟨c1, c4 hhex, c5, c2, c6⟩
  · have hlt : ¬ (registerOperands ops).length < d.MAX_OPERANDS := by omega
    have hacc : f.mem_accessed = false := by rw [hf]; simp only [hlt, decide_False]
    obtain ⟨f', hs', hfill⟩ := parseInstr_ok d st st' _ hp
    rw [hscan] at hs'
    have hf' := (Except.ok.inj hs').symm
    rw [hf', ← hf] at hfill
    obtain ⟨_, _, _, _, _, _, _, _, _, _, _, _, _, _, _, _, hmem⟩ :=
      fillInstr_inv d st st' f hfill
    rcases hmem with ⟨_, c1, c2, _⟩ | ⟨hm', _⟩
    · exact ⟨c1, c2, by simp only [Instruction.memLoad, c1, if_true],
        by simp only [Instruction.memStore, c2, if_true]⟩
    · rw [hacc] at hm'; cases hm'
  · intro line st'' pcT opT c1 c2 hp' h1 h2 hk
    obtain ⟨f', hs', _, _, hN⟩ := parseInstr_memory_descriptors d st st'' line ht hp'
    obtain ⟨c1', c2', g1, g2⟩ := scanInstr_opcode d line f' hs'
    rw [h1] at g1
    have e1 := Except.ok.inj g1
    simp only [Prod.mk.injEq] at e1
    rw [e1.2, g2] at h2
    have e2 := Except.ok.inj h2
    simp only [Prod.mk.injEq] at e2
    rw [e2.1] at hN
    exact (hN hk).2

set_option maxRecDepth 100000 in
/-- Witness of C14, amended: `@I 0x2000 ldr x1, #8(x5) @ 0x7ff0` with
`MAX_OPERANDS = 4` decodes with the load descriptor (0x7ff0, 8) and no store
descriptor. -/
theorem parseInstr_descriptors_of_line_witness :
    (parseInstr ⟨4, 4⟩ (RiscvStream.mk0 ⟨4, 4⟩ [] false false false blankInstr)
        "@I 0x2000 ldr x1, #8(x5) @ 0x7ff0".toList).map (fun st => st.instr.decoded) =
      .ok ⟨0x2000, 4, .Load, [5], [1], some (0x7ff0, 8), none⟩ ∧
    ∃ st', parseInstr ⟨4, 4⟩ (RiscvStream.mk0 ⟨4, 4⟩ [] false false false blankInstr)
        "@I 0x2000 ldr x1, #8(x5) @ 0x7ff0".toList = .ok st' ∧
      st'.instr.memLoadCount = 1 ∧ st'.instr.memLoadBase = 0x7ff0 ∧
      lengthTable.get? "ldr".toList = some st'.instr.memLoadLength ∧
      st'.instr.memStoreCount = 0 ∧ st'.instr.memStore = none := by
  have hd : (parseInstr ⟨4, 4⟩ (RiscvStream.mk0 ⟨4, 4⟩ [] false false false blankInstr)
      "@I 0x2000 ldr x1, #8(x5) @ 0x7ff0".toList).map (fun st => st.instr.decoded) =
      .ok ⟨0x2000, 4, .Load, [5], [1], some (0x7ff0, 8), none⟩ := by decide
  have hl : isPlainToken "0x2000".toList = true ∧ isPlainToken "ldr".toList = true ∧
      ["x1,".toList, "#8(x5)".toList].all isOperandToken = true ∧
      isMarkerToken "@".toList = true ∧ isPlainToken "0x7ff0".toList = true ∧
      isHexToken (tokenOf "0x7ff0".toList) = true ∧
      (registerOperands ["x1,".toList, "#8(x5)".toList]).length < 4 ∧
      accessKind (tokenOf "ldr".toList) = 'L' ∧
      hexTokenValue (tokenOf "0x7ff0".toList) = 0x7ff0 ∧
      tokenOf "ldr".toList = "ldr".toList := by decide
  refine ⟨hd, ?_⟩
  cases hp : parseInstr ⟨4, 4⟩ (RiscvStream.mk0 ⟨4, 4⟩ [] false false false blankInstr)
      "@I 0x2000 ldr x1, #8(x5) @ 0x7ff0".toList with
  | error e => rw [hp] at hd; cases hd
  | ok st' =>
    have key := ((parseInstr_descriptors_of_line ⟨4, 4⟩ _ st' "0x2000".toList "ldr".toList
      ["x1,".toList, "#8(x5)".toList] "@".toList "0x7ff0".toList []
      (mk0_registryInitial _ _ _ _ _ _) hl.1 hl.2.1 hl.2.2.1 hl.2.2.2.1 hl.2.2.2.2.1
      hl.2.2.2.2.2.1 hp).1 hl.2.2.2.2.2.2.1).1 hl.2.2.2.2.2.2.2.1
    rw [hl.2.2.2.2.2.2.2.2.1, hl.2.2.2.2.2.2.2.2.2] at key
    exact ⟨st', rfl, key⟩

/-! ## A pull on a stream with any history -/

/-- An entry of a table is found as well when further entries follow the
table. -/
theorem Table.get?_append {α : Type} (m e : Table α) (k : Str) (v : α)
    (h : m.get? k = some v) : Table.get? (m ++ e) k = some v := by
  induction m with
  | nil => simp [Table.get?] at h
  | cons kv rest ih =>
    obtain ⟨k', v'⟩ := kv
    simp only [List.cons_append, Table.get?] at h ⊢
    split_ifs at h ⊢ with hk
    · exact h
    · exact ih h

/-- The role loop over recognised registers on a `regMap` that holds every
entry of `initMaps` (and any further ones): `regMap` is left as it is, and
the reads and writes are appended to the two sets in operand order. -/
theorem assignRoles_known (syn : Str) (ops : List Operand) :
    ∀ (i : Nat) (r : Roles), (∀ o ∈ ops, o.wf = true) →
      (∀ k v, initRegMap.get? k = some v → r.regMap.get? k = some v) →
      (∀ j, j < ops.length → syn.getD (i + j) NUL = 'W' ∨ syn.getD (i + j) NUL = 'R') →
      ∃ r', assignRoles syn (ops.map Operand.reg) i r = .ok r' ∧ r'.regMap = r.regMap ∧
        (List.range r'.reg_read_count).map r'.regRead =
          (List.range r.reg_read_count).map r.regRead ++ regsWithRole 'R' syn i ops ∧
        (List.range r'.reg_write_count).map r'.regWrite =
          (List.range r.reg_write_count).map r.regWrite ++ regsWithRole 'W' syn i ops := by
  induction ops with
  | nil =>
    intro i r _ _ _
    exact ⟨r, rfl, rfl, by simp [regsWithRole], by simp [regsWithRole]⟩
  | cons o os ih =>
    intro i r hwf hr hroles
    obtain ⟨v, hv⟩ := Operand.wf_get? o (hwf o (List.mem_cons_self _ _))
    have hsub : r.regMap.subscript o.reg 0 = (v, r.regMap) :=
      Table.subscript_of_get? _ _ _ _ (hr _ _ hv)
    have hwf' : ∀ x ∈ os, x.wf = true := fun x hx => hwf x (List.mem_cons_of_mem _ hx)
    have hroles' : ∀ j, j < os.length →
        syn.getD (i + 1 + j) NUL = 'W' ∨ syn.getD (i + 1 + j) NUL = 'R' := by
      intro j hj
      have := hroles (j + 1) (by simp only [List.length_cons]; omega)
      rwa [show i + (j + 1) = i + 1 + j by omega] at this
    have h0 := hroles 0 (by simp)
    simp only [Nat.add_zero] at h0
    simp only [List.map_cons, assignRoles, hsub]
    rcases h0 with hW | hR
    · have hnR : ¬ ('W' = 'R') := by decide
      obtain ⟨r', h1, h2, h3, h4⟩ := ih (i + 1)
        { r with regMap := r.regMap
                 regWrite := Function.update r.regWrite r.reg_write_count v
                 reg_write_count := r.reg_write_count + 1 } hwf' hr hroles'
      refine ⟨r', ?_, h2, ?_, ?_⟩
      · simp only [hW, if_true]; exact h1
      · rw [h3]; simp only [regsWithRole, hW, hnR, if_false]
      · rw [h4, range_map_update]
        simp only [regsWithRole, hW, if_true, hv, Option.getD_some, List.append_assoc,
          List.singleton_append]
    · have hnW : ¬ ('R' = 'W') := by decide
      obtain ⟨r', h1, h2, h3, h4⟩ := ih (i + 1)
        { r with regMap := r.regMap
                 regRead := Function.update r.regRead r.reg_read_count v
                 reg_read_count := r.reg_read_count + 1 } hwf' hr hroles'
      refine ⟨r', ?_, h2, ?_, ?_⟩
      · simp only [hR, hnW, if_false, if_true]; exact h1
      · rw [h3, range_map_update]
        simp only [regsWithRole, hR, if_true, hv, Option.getD_some, List.append_assoc,
          List.singleton_append]
      · rw [h4]; simp only [regsWithRole, hR, hnW, if_false]

/-- The assignments of `parseInstr` for a well-formed line, on a stream with
the opcode tables of `initMaps` and a `regMap` that holds every entry of
`initMaps`: only `instr` changes, its decoded content is that of the line,
the three annotation fields keep their values, and so do the base and the
length of a descriptor that is absent. -/
theorem fillInstr_known (d : Defs) (st : RiscvStream) (l : InstrLine) (h : l.wf d = true)
    (ht : registryInitial d st)
    (hk : ∀ k v, initRegMap.get? k = some v → st.regMap.get? k = some v) :
    ∃ i, fillInstr d st ⟨l.pc, l.opcode, l.operands.map Operand.reg, l.markerSeen d,
          match l.mem with
          | none => []
          | some (_, a) => if l.markerSeen d then a else []⟩ = .ok { st with instr := i } ∧
      i.decoded = l.decoded d ∧ i.fetchCycles = st.instr.fetchCycles ∧
      i.mispredicted = st.instr.mispredicted ∧ i.lsCycles = st.instr.lsCycles ∧
      (i.memLoad = none → i.memLoadBase = st.instr.memLoadBase ∧
        i.memLoadLength = st.instr.memLoadLength) ∧
      (i.memStore = none → i.memStoreBase = st.instr.memStoreBase ∧
        i.memStoreLength = st.instr.memStoreLength) := by
  obtain ⟨hpc, ⟨ty, hty⟩, hops, hroles, hmem⟩ := InstrLine.wf_parts d l h
  obtain ⟨_, _, _, hpcv⟩ := hexToken_facts l.pc hpc
  have hkey := Table.get?_mem_keys _ _ _ hty
  obtain ⟨hb, hr, ha⟩ := registered_everywhere l.opcode hkey
  obtain ⟨b, hb⟩ := Option.isSome_iff_exists.mp hb
  obtain ⟨role, hr⟩ := Option.isSome_iff_exists.mp hr
  obtain ⟨acc, ha⟩ := Option.isSome_iff_exists.mp ha
  have hnat : ty ≠ .Atomic := fun e => no_atomic_opcode l.opcode hkey (by rw [hty, e])
  have hsyn : (initOpcodeTables d).syntaxMap.get? l.opcode = some (storedRoles d l.opcode) := by
    rw [syntaxMap_get?, hr]; simp [storedRoles, hr]
  obtain ⟨r', hr1, hr2, hr3, hr4⟩ := assignRoles_known (storedRoles d l.opcode) l.operands 0
    ⟨st.regMap, st.instr.regRead, st.instr.regWrite, 0, 0⟩ hops hk
    (fun j hj => by
      simpa using rolesCover_spec _ _ hroles j hj)
  simp only [List.range_zero, List.map_nil, List.nil_append] at hr3 hr4
  obtain ⟨e2, e3, e4, e5, e6⟩ := ht
  have hty' : st.opcodeToTypeMap.get? l.opcode = some ty := by rw [e2]; exact hty
  have hb' : st.bytesMap.get? l.opcode = some b := by rw [e6]; exact hb
  have hs' : st.syntaxMap.get? l.opcode = some (storedRoles d l.opcode) := by rw [e3]; exact hsyn
  have hacc : accessKind l.opcode = acc := by simp only [accessKind, ha, Option.getD_some]
  have core := fillInstr_core d st ⟨l.pc, l.opcode, l.operands.map Operand.reg, l.markerSeen d,
          match l.mem with
          | none => []
          | some (_, a) => if l.markerSeen d then a else []⟩ ty b (hexTokenValue l.pc)
          (storedRoles d l.opcode) r' hty' hnat hpcv hb' hs' hr1 hr2
  have hdec : ∀ i : Instruction, i.pc = hexTokenValue l.pc → i.bytes = b → i.executionType = ty →
      i.readSet = regsWithRole 'R' (storedRoles d l.opcode) 0 l.operands →
      i.writeSet = regsWithRole 'W' (storedRoles d l.opcode) 0 l.operands →
      i.memLoad = l.descriptor d 'L' → i.memStore = l.descriptor d 'S' →
      i.decoded = l.decoded d := by
    intro i h1 h2 h3 h4 h5 h6 h7
    simp only [Instruction.decoded, InstrLine.decoded, h1, h2, h3, h4, h5, h6, h7, hb, hty,
      Option.getD_some]
  rcases Bool.eq_false_or_eq_true (l.markerSeen d) with hseen | hseen
  swap
  · refine ⟨_, core.1 hseen, ?_, rfl, rfl, rfl, fun _ => ⟨rfl, rfl⟩, fun _ => ⟨rfl, rfl⟩⟩
    refine hdec _ rfl rfl rfl hr3 hr4 ?_ ?_
    · simp only [Instruction.memLoad, if_true, InstrLine.descriptor, hseen]
      cases l.mem <;> simp
    · simp only [Instruction.memStore, if_true, InstrLine.descriptor, hseen]
      cases l.mem <;> simp
  · obtain ⟨m, a, hm⟩ : ∃ m a, l.mem = some (m, a) := by
      cases hm : l.mem with
      | none => simp [InstrLine.markerSeen, hm] at hseen
      | some ma => exact ⟨ma.1, ma.2, rfl⟩
    · obtain ⟨_, hax, hkind⟩ := hmem m a hm
      obtain ⟨_, _, _, hav⟩ := hexToken_facts a hax
      have hnn : accessTable.get? l.opcode ≠ some NUL := by
        rw [ha]
        rcases hkind with e | e <;> · rw [hacc] at e; rw [e]; decide
      obtain ⟨len, hlen⟩ := Option.isSome_iff_exists.mp
        (access_has_length l.opcode (Table.get?_mem_keys _ _ _ ha) hnn)
      have hlen' : st.memLengthMap.get? l.opcode = some len := by rw [e5]; exact hlen
      have haddr : stoull (match l.mem with
          | none => []
          | some (_, a) => if l.markerSeen d then a else []) 16 = .ok (hexTokenValue a) := by
        simp only [hm, hseen, if_true]; exact hav
      rcases hkind with hk' | hk'
      · have ha' : st.memAccessMap.get? l.opcode = some 'L' := by
          rw [e4]; show accessTable.get? l.opcode = some 'L'; rw [ha, ← hacc, hk']
        refine ⟨_, core.2.1 _ len hseen ha' haddr hlen', ?_, rfl, rfl, rfl,
          fun hn => ?_, fun _ => ⟨rfl, rfl⟩⟩
        · refine hdec _ rfl rfl rfl hr3 hr4 ?_ ?_
          · simp [Instruction.memLoad, InstrLine.descriptor, hm, hseen, hk', hlen]
          · simp [Instruction.memStore, InstrLine.descriptor, hm, hseen, hk']
        · simp [Instruction.memLoad] at hn
      · have ha' : st.memAccessMap.get? l.opcode = some 'S' := by
          rw [e4]; show accessTable.get? l.opcode = some 'S'; rw [ha, ← hacc, hk']
        refine ⟨_, core.2.2 _ len hseen ha' haddr hlen', ?_, rfl, rfl, rfl,
          fun _ => ⟨rfl, rfl⟩, fun hn => ?_⟩
        · refine hdec _ rfl rfl rfl hr3 hr4 ?_ ?_
          · simp [Instruction.memLoad, InstrLine.descriptor, hm, hseen, hk']
          · simp [Instruction.memStore, InstrLine.descriptor, hm, hseen, hk', hlen]
        · simp [Instruction.memStore] at hn

/-- `parseInstr` on a well-formed line, on a stream with the opcode tables
of `initMaps` and a `regMap` that holds every entry of `initMaps`: it
succeeds, only `instr` changes, its decoded content is that of the line, and
the fields the line does not determine keep their values. -/
theorem parseInstr_known (d : Defs) (st : RiscvStream) (l : InstrLine) (h : l.wf d = true)
    (ht : registryInitial d st)
    (hk : ∀ k v, initRegMap.get? k = some v → st.regMap.get? k = some v) :
    ∃ i, parseInstr d st l.text = .ok { st with instr := i } ∧
      i.decoded = l.decoded d ∧ i.fetchCycles = st.instr.fetchCycles ∧
      i.mispredicted = st.instr.mispredicted ∧ i.lsCycles = st.instr.lsCycles ∧
      (i.memLoad = none → i.memLoadBase = st.instr.memLoadBase ∧
        i.memLoadLength = st.instr.memLoadLength) ∧
      (i.memStore = none → i.memStoreBase = st.instr.memStoreBase ∧
        i.memStoreLength = st.instr.memStoreLength) := by
  obtain ⟨i, hi, rest⟩ := fillInstr_known d st l h ht hk
  refine ⟨i, ?_, rest⟩
  simp only [parseInstr, scanInstr_wf d l h, bind, Except.bind]
  exact hi
/-- A pull whose next line is a well-formed instruction line, with any
switches, on a stream with the opcode tables of `initMaps` and a `regMap`
that holds every entry of `initMaps`; the annotation lines the switches ask
for follow and are read well.  The pull returns the decoded instruction with
the annotation fields of the enabled switches; every other field the line
does not determine keeps the value the stream held. -/
theorem next_annotated_known (d : Defs) (st : RiscvStream) (l : InstrLine)
    (fl bl ml : Str) (cf cm : Nat) (flag : Bool) (rest : List Str)
    (ht : registryInitial d st)
    (hk : ∀ k v, initRegMap.get? k = some v → st.regMap.get? k = some v)
    (h : l.wf d = true)
    (hsrc : (st.readFromFile = true ∧ st.traceFile = l.text ::
        ((if st.traceICache = true then [fl] else []) ++
        (if st.traceBP = true then [bl] else []) ++
        (if st.traceDCache = true ∧ ((l.decoded d).executionType = .Load ∨
            (l.decoded d).executionType = .Store ∨ (l.decoded d).executionType = .Atomic)
          then [ml] else []) ++ rest)) ∨
      (st.readFromFile = false ∧ st.lastInstrLine = l.text ∧ st.traceFile =
        (if st.traceICache = true then [fl] else []) ++
        (if st.traceBP = true then [bl] else []) ++
        (if st.traceDCache = true ∧ ((l.decoded d).executionType = .Load ∨
            (l.decoded d).executionType = .Store ∨ (l.decoded d).executionType = .Atomic)
          then [ml] else []) ++ rest))
    (tF : st.traceICache = true → beginsWith fl "@F " = true)
    (hf : st.traceICache = true → parseFetchCycles d fl = .ok cf)
    (tB : st.traceBP = true → beginsWith bl "@B " = true)
    (hb : st.traceBP = true → parseBranch bl = .ok flag)
    (tM : st.traceDCache = true → ((l.decoded d).executionType = .Load ∨
        (l.decoded d).executionType = .Store ∨ (l.decoded d).executionType = .Atomic) →
      beginsWith ml "@M " = true)
    (hm : st.traceDCache = true → ((l.decoded d).executionType = .Load ∨
        (l.decoded d).executionType = .Store ∨ (l.decoded d).executionType = .Atomic) →
      parseMemoryCycles d ml = .ok cm) :
    ∃ i p, i.decoded = l.decoded d ∧ i.fetchCycles = st.instr.fetchCycles ∧
      i.mispredicted = st.instr.mispredicted ∧ i.lsCycles = st.instr.lsCycles ∧
      (i.memLoad = none → i.memLoadBase = st.instr.memLoadBase ∧
        i.memLoadLength = st.instr.memLoadLength) ∧
      (i.memStore = none → i.memStoreBase = st.instr.memStoreBase ∧
        i.memStoreLength = st.instr.memStoreLength) ∧
      next d st = .ok p ∧
      p.result = some (annotate i (if st.traceICache = true then some cf else none)
        (if st.traceBP = true then some flag else none)
        (if st.traceDCache = true ∧ ((l.decoded d).executionType = .Load ∨
            (l.decoded d).executionType = .Store ∨ (l.decoded d).executionType = .Atomic)
          then some cm else none)) ∧
      p.stream.traceFile = rest ∧ p.stream.readFromFile = true ∧
      p.stream.lastInstrLine = l.text ∧ p.stream.regMap = st.regMap ∧
      registryInitial d p.stream := by
  have htag := text_instr_tag l
  have hne : l.text ≠ [] := text_ne_nil (.instr l)
  obtain ⟨t2, t3, t4, t5, t6⟩ := ht
  generalize hL : (if st.traceICache = true then [fl] else []) ++
        (if st.traceBP = true then [bl] else []) ++
        (if st.traceDCache = true ∧ ((l.decoded d).executionType = .Load ∨
            (l.decoded d).executionType = .Store ∨ (l.decoded d).executionType = .Atomic)
          then [ml] else []) ++ rest = lines at hsrc
  rcases hsrc with ⟨hrf, hfile⟩ | ⟨hrf, hl, hfile⟩
  · have hnext : next d st = onInstrLine d { st with traceFile := lines } l.text [] := by
      simp only [next, hrf, if_true, hfile, nextFromFile, htag]
    have ht0 : registryInitial d { st with traceFile := lines } := ⟨t2, t3, t4, t5, t6⟩
    obtain ⟨i, hp, hdec, g1, g2, g3, g4, g5⟩ :=
      parseInstr_known d { st with traceFile := lines } l h ht0 (fun k v hv => hk k v hv)
    have hcls : i.executionType = (l.decoded d).executionType := by
      rw [← hdec]; rfl
    have key := onInstrLine_annotated d { st with traceFile := lines } l.text [] i hp
      fl bl ml cf cm flag rest (by rw [hcls]; exact hL.symm) tF hf tB hb
      (by rw [hcls]; exact tM) (by rw [hcls]; exact hm)
    rw [hcls] at key
    exact ⟨i, _, hdec, g1, g2, g3, g4, g5, hnext.trans key, rfl, rfl, hrf, rfl, rfl,
      ⟨t2, t3, t4, t5, t6⟩⟩
  · subst hfile
    have hnext : next d st = onInstrLine d { st with readFromFile := true } l.text [] := by
      simp only [next, hrf, hl, hne, htag, if_true, if_false, Bool.false_eq_true]
    have ht0 : registryInitial d { st with readFromFile := true } := ⟨t2, t3, t4, t5, t6⟩
    obtain ⟨i, hp, hdec, g1, g2, g3, g4, g5⟩ :=
      parseInstr_known d { st with readFromFile := true } l h ht0 (fun k v hv => hk k v hv)
    have hcls : i.executionType = (l.decoded d).executionType := by
      rw [← hdec]; rfl
    have key := onInstrLine_annotated d { st with readFromFile := true } l.text [] i hp
      fl bl ml cf cm flag rest (by rw [hcls]; exact hL.symm) tF hf tB hb
      (by rw [hcls]; exact tM) (by rw [hcls]; exact hm)
    rw [hcls] at key
    exact ⟨i, _, hdec, g1, g2, g3, g4, g5, hnext.trans key, rfl, rfl, rfl, rfl, rfl,
      ⟨t2, t3, t4, t5, t6⟩⟩

/-! ## Claim C26: the same line after any history -/

/-- C26, amended: for every two streams with the same switches that earlier
pulls have left in any state the program reaches (the opcode tables of
`initMaps`; a `regMap` that holds the entries of `initMaps` followed by any
entries added since; any content of `instr`; the next line taken from the
source or from the lookahead buffer), the pulls on the same well-formed
instruction line followed by the same annotation lines (those the switches
ask for, read well) return instructions with the same decoded content
(program counter, byte length, class, read and write sets, load and store
descriptor), the same fetch-cycle count when fetch-tracing is on, the same
misprediction flag when branch-tracing is on, and the same memory-access
cycle count when memory-tracing is on and the class is load, store or
atomic.  Every other field is the one the stream held before the pull: the
field of a switch that is off, the memory-access cycle count of another
class, and the base and the length of a descriptor that is absent. -/
theorem next_same_line_any_history (d : Defs) (st1 st2 : RiscvStream) (l : InstrLine)
    (ic bp dc : Bool) (fl bl ml : Str) (cf cm : Nat) (flag : Bool) (rest1 rest2 : List Str)
    (extra1 extra2 : Table Nat)
    (ht1 : registryInitial d st1) (ht2 : registryInitial d st2)
    (hx1 : st1.regMap = initRegMap ++ extra1) (hx2 : st2.regMap = initRegMap ++ extra2)
    (h : l.wf d = true)
    (s1 : st1.traceICache = ic ∧ st1.traceBP = bp ∧ st1.traceDCache = dc)
    (s2 : st2.traceICache = ic ∧ st2.traceBP = bp ∧ st2.traceDCache = dc)
    (hsrc1 : (st1.readFromFile = true ∧ st1.traceFile = l.text ::
        (annotationLines ic bp dc (l.decoded d).executionType fl bl ml ++ rest1)) ∨
      (st1.readFromFile = false ∧ st1.lastInstrLine = l.text ∧ st1.traceFile =
        annotationLines ic bp dc (l.decoded d).executionType fl bl ml ++ rest1))
    (hsrc2 : (st2.readFromFile = true ∧ st2.traceFile = l.text ::
        (annotationLines ic bp dc (l.decoded d).executionType fl bl ml ++ rest2)) ∨
      (st2.readFromFile = false ∧ st2.lastInstrLine = l.text ∧ st2.traceFile =
        annotationLines ic bp dc (l.decoded d).executionType fl bl ml ++ rest2))
    (tF : ic = true → beginsWith fl "@F " = true)
    (hf : ic = true → parseFetchCycles d fl = .ok cf)
    (tB : bp = true → beginsWith bl "@B " = true)
    (hb : bp = true → parseBranch bl = .ok flag)
    (tM : dc = true → accessesMemory (l.decoded d).executionType →
      beginsWith ml "@M " = true)
    (hm : dc = true → accessesMemory (l.decoded d).executionType →
      parseMemoryCycles d ml = .ok cm) :
    ∃ p1 p2 i1 i2, next d st1 = .ok p1 ∧ next d st2 = .ok p2 ∧
      p1.result = some i1 ∧ p2.result = some i2 ∧
      i1.decoded = l.decoded d ∧ i2.decoded = l.decoded d ∧
      (ic = true → i1.fetchCycles = cf ∧ i2.fetchCycles = cf) ∧
      (bp = true → i1.mispredicted = flag ∧ i2.mispredicted = flag) ∧
      (dc = true → accessesMemory (l.decoded d).executionType →
        i1.lsCycles = cm ∧ i2.lsCycles = cm) ∧
      (ic = false →
        i1.fetchCycles = st1.instr.fetchCycles ∧ i2.fetchCycles = st2.instr.fetchCycles) ∧
      (bp = false →
        i1.mispredicted = st1.instr.mispredicted ∧
          i2.mispredicted = st2.instr.mispredicted) ∧
      (¬ (dc = true ∧ accessesMemory (l.decoded d).executionType) →
        i1.lsCycles = st1.instr.lsCycles ∧ i2.lsCycles = st2.instr.lsCycles) ∧
      ((l.decoded d).memLoad = none →
        i1.memLoadBase = st1.instr.memLoadBase ∧
        i1.memLoadLength = st1.instr.memLoadLength ∧
        i2.memLoadBase = st2.instr.memLoadBase ∧
        i2.memLoadLength = st2.instr.memLoadLength) ∧
      ((l.decoded d).memStore = none →
        i1.memStoreBase = st1.instr.memStoreBase ∧
        i1.memStoreLength = st1.instr.memStoreLength ∧
        i2.memStoreBase = st2.instr.memStoreBase ∧
        i2.memStoreLength = st2.instr.memStoreLength) := by
  obtain ⟨a1, a2, a3⟩ := s1
  obtain ⟨b1, b2, b3⟩ := s2
  subst a1 a2 a3
  simp only [annotationLines, accessesMemory] at hsrc1 hsrc2 tM hm ⊢
  have k1 : ∀ k v, initRegMap.get? k = some v → st1.regMap.get? k = some v := by
    intro k v hv; rw [hx1]; exact Table.get?_append _ _ _ _ hv
  have k2 : ∀ k v, initRegMap.get? k = some v → st2.regMap.get? k = some v := by
    intro k v hv; rw [hx2]; exact Table.get?_append _ _ _ _ hv
  obtain ⟨j1, p1, d1, f1, g1, c1, lb1, sb1, n1, r1, _⟩ :=
    next_annotated_known d st1 l fl bl ml cf cm flag rest1 ht1 k1 h
      (by simpa only [List.append_assoc] using hsrc1) tF hf tB hb tM hm
  obtain ⟨j2, p2, d2, f2, g2, c2, lb2, sb2, n2, r2, _⟩ :=
    next_annotated_known d st2 l fl bl ml cf cm flag rest2 ht2 k2 h
      (by rw [b1, b2, b3]; simpa only [List.append_assoc] using hsrc2)
      (by rw [b1]; exact tF) (by rw [b1]; exact hf) (by rw [b2]; exact tB)
      (by rw [b2]; exact hb) (by rw [b3]; exact tM) (by rw [b3]; exact hm)
  rw [b1, b2, b3] at r2
  have hl1 : j1.memLoad = (l.decoded d).memLoad := by rw [← d1]; rfl
  have hl2 : j2.memLoad = (l.decoded d).memLoad := by rw [← d2]; rfl
  have hs1 : j1.memStore = (l.decoded d).memStore := by rw [← d1]; rfl
  have hs2 : j2.memStore = (l.decoded d).memStore := by rw [← d2]; rfl
  refine ⟨p1, p2, _, _, n1, n2, r1, r2, d1, d2, ?_, ?_, ?_, ?_, ?_, ?_, ?_, ?_⟩
  · intro e
    simp only [annotate, e, if_true, Option.getD_some, and_self]
  · intro e
    simp only [annotate, e, if_true, Option.getD_some, and_self]
  · intro e1 e2
    simp only [annotate, e1, e2, and_self, if_true, Option.getD_some]
  · intro e
    simp only [annotate, e, Bool.false_eq_true, if_false, Option.getD_none]
    exact ⟨f1, f2⟩
  · intro e
    simp only [annotate, e, Bool.false_eq_true, if_false, Option.getD_none]
    exact ⟨g1, g2⟩
  · intro e
    simp only [annotate, e, if_false, Option.getD_none]
    exact ⟨c1, c2⟩
  · intro e
    have q1 := lb1 (hl1.trans e)
    have q2 := lb2 (hl2.trans e)
    exact ⟨q1.1, q1.2, q2.1, q2.2⟩
  · intro e
    have q1 := sb1 (hs1.trans e)
    have q2 := sb2 (hs2.trans e)
    exact ⟨q1.1, q1.2, q2.1, q2.2⟩
set_option maxRecDepth 100000 in
/-- Witness of C26, amended.  With memory-tracing on, the source
`@I 0x2000 ldr v0 x5 @ 0x7ff0`, `@I 0x1000 add x1 x2 x3`: the first pull
decodes the load, enters the unknown name `v0` in `regMap`, finds no memory
line and holds the addition in the lookahead buffer.  The next pull returns
the addition with the decoded content it has when it is read first on a
fresh stream, and with the load base `0x7ff0`, the load length 8 and the
memory-access cycle count 1 of the load, where the fresh stream gives 0. -/
theorem next_same_line_any_history_witness :
    ∃ p0 p1 p2 i1 i2,
      next ⟨4, 4⟩ (RiscvStream.mk0 ⟨4, 4⟩ ["@I 0x2000 ldr v0 x5 @ 0x7ff0".toList,
        "@I 0x1000 add x1 x2 x3".toList] false false true blankInstr) = .ok p0 ∧
      p0.stream.readFromFile = false ∧
      p0.stream.regMap = initRegMap ++ [("v0".toList, 0)] ∧
      next ⟨4, 4⟩ (RiscvStream.mk0 ⟨4, 4⟩ ["@I 0x1000 add x1 x2 x3".toList]
        false false true blankInstr) = .ok p1 ∧
      next ⟨4, 4⟩ p0.stream = .ok p2 ∧
      p1.result = some i1 ∧ p2.result = some i2 ∧ i1.decoded = i2.decoded ∧
      i1.memLoadBase = 0 ∧ i1.memLoadLength = 0 ∧ i1.lsCycles = 0 ∧
      i2.memLoadBase = 0x7ff0 ∧ i2.memLoadLength = 8 ∧ i2.lsCycles = 1 := by
  have hall : (next ⟨4, 4⟩ (RiscvStream.mk0 ⟨4, 4⟩ ["@I 0x2000 ldr v0 x5 @ 0x7ff0".toList,
        "@I 0x1000 add x1 x2 x3".toList] false false true blankInstr)).map
      (fun p => (p.stream.regMap, p.stream.lastInstrLine :: p.stream.traceFile,
        [p.stream.instr.memLoadBase, p.stream.instr.memLoadLength, p.stream.instr.lsCycles],
        [p.stream.traceICache, p.stream.traceBP, p.stream.traceDCache, p.stream.readFromFile,
          decide (p.stream.opcodeToTypeMap = (initOpcodeTables ⟨4, 4⟩).opcodeToTypeMap),
          decide (p.stream.syntaxMap = (initOpcodeTables ⟨4, 4⟩).syntaxMap),
          decide (p.stream.memAccessMap = (initOpcodeTables ⟨4, 4⟩).memAccessMap),
          decide (p.stream.memLengthMap = (initOpcodeTables ⟨4, 4⟩).memLengthMap),
          decide (p.stream.bytesMap = (initOpcodeTables ⟨4, 4⟩).bytesMap)])) =
      .ok (initRegMap ++ [("v0".toList, 0)], ["@I 0x1000 add x1 x2 x3".toList],
        [0x7ff0, 8, 1], [false, false, true, false, true, true, true, true, true]) := by
    decide
  have hline : (addLine "0x1000".toList "x1".toList "x2".toList "x3".toList).wf ⟨4, 4⟩ = true ∧
      ¬ accessesMemory ((addLine "0x1000".toList "x1".toList "x2".toList
          "x3".toList).decoded ⟨4, 4⟩).executionType ∧
      ((addLine "0x1000".toList "x1".toList "x2".toList
          "x3".toList).decoded ⟨4, 4⟩).memLoad = none ∧
      "@I 0x1000 add x1 x2 x3".toList =
        (addLine "0x1000".toList "x1".toList "x2".toList "x3".toList).text ∧
      annotationLines false false true ((addLine "0x1000".toList "x1".toList "x2".toList
          "x3".toList).decoded ⟨4, 4⟩).executionType [] [] [] ++ [] = [] := by
    unfold accessesMemory
    decide
  obtain ⟨hwf, hcls, hload, htext, hann⟩ := hline
  cases hn : next ⟨4, 4⟩ (RiscvStream.mk0 ⟨4, 4⟩ ["@I 0x2000 ldr v0 x5 @ 0x7ff0".toList,
        "@I 0x1000 add x1 x2 x3".toList] false false true blankInstr) with
  | error e => rw [hn] at hall; cases hall
  | ok p0 =>
    rw [hn] at hall
    simp only [Except.map, Except.ok.injEq, Prod.mk.injEq, List.cons.injEq, and_true,
      Bool.and_eq_true, decide_eq_true_eq] at hall
    obtain ⟨hreg, ⟨hlast, hfile⟩, ⟨hbase, hlen, hls⟩,
      sic, sbp, sdc, srf, t1, t2, t3, t4, t5⟩ := hall
    obtain ⟨p1, p2, i1, i2, n1, n2, r1, r2, d1, d2, _, _, _, _, _, hkeep, hld, _⟩ :=
      next_same_line_any_history ⟨4, 4⟩
        (RiscvStream.mk0 ⟨4, 4⟩ ["@I 0x1000 add x1 x2 x3".toList] false false true blankInstr)
        p0.stream (addLine "0x1000".toList "x1".toList "x2".toList "x3".toList)
        false false true [] [] [] 0 0 false [] [] [] [("v0".toList, 0)]
        (mk0_registryInitial _ _ _ _ _ _) ⟨t1, t2, t3, t4, t5⟩
        (by simp only [RiscvStream.mk0, List.append_nil]) hreg hwf
        (by simp only [RiscvStream.mk0, and_self]) ⟨sic, sbp, sdc⟩
        (Or.inl ⟨(mk0_fields _ _ _ _ _ _).2.1, by
          rw [hann, ← htext]; exact (mk0_fields _ _ _ _ _ _).1⟩)
        (Or.inr ⟨srf, hlast.trans htext, by rw [hann]; exact hfile⟩)
        (fun e => by cases e) (fun e => by cases e) (fun e => by cases e)
        (fun e => by cases e) (fun _ e => absurd e hcls) (fun _ e => absurd e hcls)
    have hk := hkeep (fun x => hcls x.2)
    have hl := hld hload
    refine ⟨p0, p1, p2, i1, i2, rfl, srf, hreg, n1, n2, r1, r2, d1.trans d2.symm, ?_, ?_, ?_,
      ?_, ?_, ?_⟩
    · rw [hl.1, (mk0_fields _ _ _ _ _ _).2.2.2]; rfl
    · rw [hl.2.1, (mk0_fields _ _ _ _ _ _).2.2.2]; rfl
    · rw [hk.1, (mk0_fields _ _ _ _ _ _).2.2.2]; rfl
    · rw [hl.2.2.1]; exact hbase
    · rw [hl.2.2.2]; exact hlen
    · rw [hk.2]; exact hls

end Calipers
